import Mathlib

/-!
# odin/cli: the flag registry (`flagable`) and its parser

A shallow embedding of `src/cli/type-flagable.go`.

Modelling conventions.

* A Go `string` is a `List Char` (`GoString`).  The source indexes strings by
  byte (`arg[0]`, `arg[1]`, `arg[len(arg)-1]`) and only compares those bytes with
  the ASCII characters `-` and `=`; on well-formed UTF-8 text these tests give
  the same answer on code points, and `range` over a string yields code points.
* A Go `map` is an association list with distinct keys; `len` is the length.
* A `*Flag` is an index into `flagable.heap`, the list of allocated `Flag`
  objects.  `DefineFlag` allocates at the end of the heap.
* The `Value` interface is not part of the sources at hand; it is a parameter
  (`ValueOps`).  The state of a value lives inside its `Flag` (every value owns
  its state), so `flagValues`, whose entries are always `flag.value` itself, is
  kept as its set of keys.
* `cmd.errf`, `cmd.panicf`, `panic` and Go run-time panics abort the running
  operation, as under the policy `ExitOnError` that `init` installs (CLI.go,
  line 45); the result is `Res.error e s` where `s` is the registry at the
  moment of the failure.
-/

namespace Odin

/-- A Go string, as its sequence of code points. -/
abbrev GoString := List Char

/-- The function `strings.Split(s, sep)` of the Go library for a separator of one character:
the pieces of `s` between the occurrences of `sep`; never empty. -/
def Split : GoString → Char → List GoString
  | [], _ => [[]]
  | c :: cs, sep =>
    if c = sep then [] :: Split cs sep
    else
      match Split cs sep with
      | [] => [[c]]
      | h :: t => (c :: h) :: t

/-- Go map assignment `m[k] = v` on an association list. -/
def mapInsert {κ ν : Type} [DecidableEq κ] (k : κ) (v : ν) : List (κ × ν) → List (κ × ν)
  | [] => [(k, v)]
  | (k1, v1) :: m => if k1 = k then (k, v) :: m else (k1, v1) :: mapInsert k v m

/-- Go map lookup `v, ok := m[k]` on an association list. -/
def mapLookup {κ ν : Type} [DecidableEq κ] (k : κ) : List (κ × ν) → Option ν
  | [] => none
  | (k1, v1) :: m => if k1 = k then some v1 else mapLookup k m

/-- Modelled from the spec: the `Value` interface and the constructor `newBoolValue`, which
are declared outside the sources at hand.  `Set` is the spec's `set(rawString) -> success |
fails` (`none` is a failure, which leaves the state as it was), `String` is `render()`,
`boolFlag` says whether the dynamic type implements the interface `boolFlag` (the type
assertion `value.(boolFlag)`), and `IsBoolFlag` is the result of that method. -/
structure ValueOps (σ : Type) where
  Set : σ → GoString → Option σ
  String : σ → GoString
  boolFlag : σ → Bool
  IsBoolFlag : σ → Bool
  newBoolValue : Bool → σ

/-- The struct `Flag`: the fields the registry reads and writes. -/
structure Flag (σ : Type) where
  Name : GoString
  Usage : GoString
  value : σ
  DefValue : GoString
deriving DecidableEq

/-- The struct `flagable` (type-flagable.go, lines 8-16), with the heap of `Flag` objects its
pointers refer to. -/
structure flagable (σ : Type) where
  heap : List (Flag σ)
  flags : List (GoString × Nat)
  aliases : List (Char × Nat)
  flagValues : List Nat
  flagsTerminated : Bool
  parsed : Bool
  version : GoString
deriving DecidableEq

/-- The ways an operation of the registry aborts. -/
inductive Err where
  | invalidFlagFormat
  | invalidAlias (c : Char)
  | invalidFlag
  | missingValue (name : GoString)
  | flagRedefined (name : GoString)
  | flagNotDefined (name : GoString)
  | indexOutOfRange
  | nilPointer
  | valueRejected
deriving DecidableEq

/-- The outcome of an operation: a result, or an abort together with the registry at that
moment. -/
inductive Res (σ α : Type) where
  | ok (a : α)
  | error (e : Err) (s : flagable σ)
deriving DecidableEq

variable {σ : Type}

/-- The registry of a fresh command. -/
def flagable.empty (version : GoString) : flagable σ :=
  { heap := [], flags := [], aliases := [], flagValues := [], flagsTerminated := false,
    parsed := false, version := version }

/-- AliasFlag (lines 18-27). -/
def AliasFlag (cmd : flagable σ) (c : Char) (flagname : GoString) : Res σ (flagable σ) :=
  match mapLookup flagname cmd.flags with
  | none => .error (.flagNotDefined flagname) cmd
  | some flag => .ok { cmd with aliases := mapInsert c flag cmd.aliases }

/-- DefineFlag (lines 147-163); `cmd.panicf` aborts. -/
def DefineFlag (ops : ValueOps σ) (cmd : flagable σ) (value : σ) (name usage : GoString) :
    Res σ (flagable σ) :=
  let flag : Flag σ :=
    { Name := name, Usage := usage, value := value, DefValue := ops.String value }
  match mapLookup name cmd.flags with
  | some _ => .error (.flagRedefined name) cmd
  | none =>
    .ok { cmd with heap := cmd.heap ++ [flag],
                   flags := mapInsert name cmd.heap.length cmd.flags }

/-- DefineBoolFlag / DefineBoolFlagVar (lines 31-41). -/
def DefineBoolFlag (ops : ValueOps σ) (cmd : flagable σ) (name : GoString) (value : Bool)
    (usage : GoString) : Res σ (flagable σ) :=
  DefineFlag ops cmd (ops.newBoolValue value) name usage

/-- Flag (lines 167-177): the value of the named flag, `none` for Go's `nil`. -/
def flagable.Flag (cmd : flagable σ) (name : GoString) : Res σ (Option σ) :=
  match mapLookup name cmd.flags with
  | none => .error (.flagNotDefined name) cmd
  | some flag =>
    if flag ∈ cmd.flagValues then
      match cmd.heap[flag]? with
      | none => .error .nilPointer cmd
      | some f => .ok (some f.value)
    else .ok none

/-- FlagCount (line 188). -/
def FlagCount (cmd : flagable σ) : Nat := cmd.flagValues.length

/-- Version (lines 263-265). -/
def Version (cmd : flagable σ) : GoString := cmd.version

/-- defineHelp (lines 268-275). -/
def defineHelp (ops : ValueOps σ) (cmd : flagable σ) : Res σ (flagable σ) :=
  match mapLookup "help".toList cmd.flags with
  | some _ => .ok cmd
  | none =>
    match DefineBoolFlag ops cmd "help".toList false "show help and exit".toList with
    | .error e s => .error e s
    | .ok cmd1 =>
      match mapLookup 'h' cmd1.aliases with
      | some _ => .ok cmd1
      | none => AliasFlag cmd1 'h' "help".toList

/-- defineVersion (lines 278-285). -/
def defineVersion (ops : ValueOps σ) (cmd : flagable σ) : Res σ (flagable σ) :=
  if (mapLookup "version".toList cmd.flags).isNone ∧ (Version cmd).length > 0 then
    match DefineBoolFlag ops cmd "version".toList false "show version and exit".toList with
    | .error e s => .error e s
    | .ok cmd1 =>
      match mapLookup 'v' cmd1.aliases with
      | some _ => .ok cmd1
      | none => AliasFlag cmd1 'v' "version".toList
  else .ok cmd

/-- The loop of flagFromArg over the alias characters (lines 313-319). -/
def aliasFlags (cmd : flagable σ) : List Char → List Nat → Res σ (List Nat)
  | [], flags => .ok flags
  | c :: cs, flags =>
    match mapLookup c cmd.aliases with
    | none => .error (.invalidAlias c) cmd
    | some flag => aliasFlags cmd cs (flags ++ [flag])

/-- flagFromArg (lines 288-329); the result carries the registry, whose `flagsTerminated`
the function may set. -/
def flagFromArg (cmd : flagable σ) (arg : GoString) : Res σ ((Bool × List Nat) × flagable σ) :=
  if cmd.flagsTerminated then .ok ((false, []), cmd)
  else
    match arg.getLast? with
    | none => .error .indexOutOfRange cmd
    | some last =>
      if last = '=' then .error .invalidFlagFormat cmd
      else
        let arg := (Split arg '=').headD []
        match arg[0]? with
        | none => .error .indexOutOfRange cmd
        | some c0 =>
          let isFlag := decide (c0 = '-')
          match (if isFlag then (arg[1]?).map (fun c1 => decide (c1 ≠ '-')) else some false) with
          | none => .error .indexOutOfRange cmd
          | some areAliases =>
            let isTerminator := !areAliases && decide (arg.length = 2)
            if !isFlag || isTerminator then
              .ok ((false, []), { cmd with flagsTerminated := true })
            else if areAliases then
              match aliasFlags cmd (arg.drop 1) [] with
              | .error e s => .error e s
              | .ok flags => .ok ((true, flags), cmd)
            else
              match mapLookup (arg.drop 2) cmd.flags with
              | none => .error .invalidFlag cmd
              | some flag => .ok ((false, [flag]), cmd)

/-- setFlag (lines 389-404): the Go `error` it returns, and the registry.  When the lookup
by name fails the source reads `flag.Name` through the nil pointer it has just received. -/
def setFlag (ops : ValueOps σ) (cmd : flagable σ) (flag : Nat) (value : GoString) :
    Res σ (Option Err × flagable σ) :=
  match cmd.heap[flag]? with
  | none => .error .nilPointer cmd
  | some f =>
    match mapLookup f.Name cmd.flags with
    | none => .error .nilPointer cmd
    | some flag1 =>
      match cmd.heap[flag1]? with
      | none => .error .nilPointer cmd
      | some g =>
        match ops.Set g.value value with
        | none => .ok (some .valueRejected, cmd)
        | some w =>
          .ok (none, { cmd with heap := cmd.heap.set flag1 { g with value := w },
                                flagValues := cmd.flagValues.insert flag1 })

/-- setFlagValue (lines 407-420); the `error` of setFlag is dropped, as in the source. -/
def setFlagValue (ops : ValueOps σ) (cmd : flagable σ) (flag : Nat) (arg : GoString) :
    Res σ (flagable σ) :=
  match Split arg '=' with
  | _ :: value :: _ =>
    match setFlag ops cmd flag value with
    | .error e s => .error e s
    | .ok (_, cmd1) => .ok cmd1
  | _ =>
    match cmd.heap[flag]? with
    | none => .error .nilPointer cmd
    | some f =>
      if ops.boolFlag f.value && ops.IsBoolFlag f.value then
        match setFlag ops cmd flag "true".toList with
        | .error e s => .error e s
        | .ok (_, cmd1) => .ok cmd1
      else .error (.missingValue f.Name) cmd

/-- The loop of setAliasValues (lines 369-376). -/
def setAliasLoop (ops : ValueOps σ) : flagable σ → List Nat → Res σ (flagable σ)
  | cmd, [] => .ok cmd
  | cmd, flag :: rest =>
    match cmd.heap[flag]? with
    | none => .error .nilPointer cmd
    | some f =>
      if ops.boolFlag f.value && ops.IsBoolFlag f.value then
        match setFlag ops cmd flag "true".toList with
        | .error e s => .error e s
        | .ok (_, cmd1) => setAliasLoop ops cmd1 rest
      else .error (.missingValue f.Name) cmd

/-- setAliasValues (lines 357-377). -/
def setAliasValues (ops : ValueOps σ) (cmd : flagable σ) (flags : List Nat) (arg : GoString) :
    Res σ (flagable σ) :=
  match Split arg '=' with
  | _ :: value :: _ =>
    match flags.getLast? with
    | none => .error .indexOutOfRange cmd
    | some lastflag =>
      match setFlag ops cmd lastflag value with
      | .error e s => .error e s
      | .ok (_, cmd1) => setAliasLoop ops cmd1 flags.dropLast
  | _ => setAliasLoop ops cmd flags

/-- The loop of setFlagDefaults (lines 381-385) over the entries of `cmd.flags`, in the order
of the list; Go leaves the order of a `range` over a map open, and the order has no effect
on the value a flag receives. -/
def setFlagDefaultsLoop (ops : ValueOps σ) : flagable σ → List (GoString × Nat) →
    Res σ (flagable σ)
  | cmd, [] => .ok cmd
  | cmd, (name, flag) :: rest =>
    match cmd.Flag name with
    | .error e s => .error e s
    | .ok (some _) => setFlagDefaultsLoop ops cmd rest
    | .ok none =>
      match cmd.heap[flag]? with
      | none => .error .nilPointer cmd
      | some f =>
        match setFlag ops cmd flag f.DefValue with
        | .error e s => .error e s
        | .ok (_, cmd1) => setFlagDefaultsLoop ops cmd1 rest

/-- setFlagDefaults (lines 380-386). -/
def setFlagDefaults (ops : ValueOps σ) (cmd : flagable σ) : Res σ (flagable σ) :=
  setFlagDefaultsLoop ops cmd cmd.flags

/-- The loop of parse (lines 337-349): the tokens left over, and the registry. -/
def parseLoop (ops : ValueOps σ) : flagable σ → List GoString →
    Res σ (List GoString × flagable σ)
  | cmd, [] => .ok ([], cmd)
  | cmd, arg :: rest =>
    match flagFromArg cmd arg with
    | .error e s => .error e s
    | .ok ((isAlias, flags), cmd1) =>
      if cmd1.flagsTerminated then .ok (arg :: rest, cmd1)
      else if isAlias then
        match setAliasValues ops cmd1 flags arg with
        | .error e s => .error e s
        | .ok cmd2 => parseLoop ops cmd2 rest
      else
        match flags with
        | [] => .error .indexOutOfRange cmd1
        | flag :: _ =>
          match setFlagValue ops cmd1 flag arg with
          | .error e s => .error e s
          | .ok cmd2 => parseLoop ops cmd2 rest

/-- The first three statements of parse (lines 334-336): the automatic definitions and the
`parsed` mark. -/
def prepare (ops : ValueOps σ) (cmd : flagable σ) : Res σ (flagable σ) :=
  match defineHelp ops cmd with
  | .error e s => .error e s
  | .ok cmd1 =>
    match defineVersion ops cmd1 with
    | .error e s => .error e s
    | .ok cmd2 => .ok { cmd2 with parsed := true }

/-- parse (lines 333-354). -/
def parse (ops : ValueOps σ) (cmd : flagable σ) (args : List GoString) :
    Res σ (List GoString × flagable σ) :=
  match prepare ops cmd with
  | .error e s => .error e s
  | .ok cmd2 =>
    match parseLoop ops cmd2 args with
    | .error e s => .error e s
    | .ok (rest, cmd3) =>
      match setFlagDefaults ops cmd3 with
      | .error e s => .error e s
      | .ok cmd4 => .ok (rest, cmd4)

/-! ## A concrete family of values, for evaluation -/

/-- Modelled from the spec: three of the variants of `Value` (boolean, signed integer,
string), each with its current state. -/
inductive Val where
  | boolV (b : Bool)
  | intV (i : Int)
  | stringV (s : GoString)
deriving DecidableEq

/-- Modelled from the spec: the literals a boolean value accepts (those of Go's
`strconv.ParseBool`). -/
def parseBool (s : GoString) : Option Bool :=
  if s ∈ ["1".toList, "t".toList, "T".toList, "TRUE".toList, "true".toList, "True".toList] then
    some true
  else if s ∈ ["0".toList, "f".toList, "F".toList, "FALSE".toList, "false".toList,
      "False".toList] then
    some false
  else none

/-- Decimal digits to a number; `none` on an empty or malformed literal. -/
def parseDigits : List Char → Option Nat
  | [] => none
  | cs => cs.foldl (fun acc c =>
      match acc with
      | none => none
      | some n => if c.isDigit then some (10 * n + (c.toNat - 48)) else none) (some 0)

/-- Modelled from the spec: a signed decimal integer literal of 64 bits; a malformed literal
or an overflow fails. -/
def parseInt (s : GoString) : Option Int :=
  let r : Option Int :=
    match s with
    | '-' :: ds => (parseDigits ds).map (fun n => - (n : Int))
    | '+' :: ds => (parseDigits ds).map (fun n => (n : Int))
    | ds => (parseDigits ds).map (fun n => (n : Int))
  match r with
  | none => none
  | some i => if - (2 : Int) ^ 63 ≤ i ∧ i < (2 : Int) ^ 63 then some i else none

/-- The decimal rendering of an integer. -/
def renderInt (i : Int) : GoString :=
  match i with
  | Int.ofNat n => (Nat.toDigits 10 n)
  | Int.negSucc n => '-' :: Nat.toDigits 10 (n + 1)

/-- Modelled from the spec: `set` and `render` of the three variants, and the
self-sufficiency of the boolean one. -/
def valOps : ValueOps Val where
  Set := fun s raw =>
    match s with
    | .boolV _ => (parseBool raw).map Val.boolV
    | .intV _ => (parseInt raw).map Val.intV
    | .stringV _ => some (.stringV raw)
  String := fun s =>
    match s with
    | .boolV b => if b then "true".toList else "false".toList
    | .intV i => renderInt i
    | .stringV t => t
  boolFlag := fun s => match s with | .boolV _ => true | _ => false
  IsBoolFlag := fun s => match s with | .boolV _ => true | _ => false
  newBoolValue := Val.boolV

/-! ## UsageString -/

/-- The length `len(s)` of a Go string: the number of bytes of its UTF-8 encoding. -/
def len (s : GoString) : Nat := (s.map Char.utf8Size).sum

/-- The function `strings.Join(elems, sep)` of the Go library. -/
def Join : List GoString → GoString → GoString
  | [], _ => []
  | [a], _ => a
  | a :: b :: rest, sep => a ++ sep ++ Join (b :: rest) sep

/-- The first loop of UsageString (lines 201-203): an empty buffer for every flag that has
an alias.  The map `flagsUsages` holds the content of each buffer. -/
def initUsages (aliases : List (Char × Nat)) : List (Nat × GoString) :=
  aliases.foldl (fun m cp => mapInsert cp.2 [] m) []

/-- The second loop of UsageString (lines 206-220): the aliases of each flag, and the
greatest length of a buffer seen.  A missing buffer is a nil pointer. -/
def aliasUsages (cmd : flagable σ) : List (Char × Nat) → List (Nat × GoString) → Nat →
    Res σ (List (Nat × GoString) × Nat)
  | [], m, maxBufferLen => .ok (m, maxBufferLen)
  | (r, flag) :: rest, m, maxBufferLen =>
    match mapLookup flag m with
    | none => .error .nilPointer cmd
    | some buffer =>
      let buffer := if len buffer = 0 then buffer ++ ['-', r] else buffer ++ [',', ' ', '-', r]
      aliasUsages cmd rest (mapInsert flag buffer m)
        (if len buffer > maxBufferLen then len buffer else maxBufferLen)

/-- The third loop of UsageString (lines 223-243): the name of each flag, and its default
unless the value implements `boolFlag`. -/
def nameUsages (ops : ValueOps σ) (cmd : flagable σ) : List (GoString × Nat) →
    List (Nat × GoString) → Nat → Res σ (List (Nat × GoString) × Nat)
  | [], m, maxBufferLen => .ok (m, maxBufferLen)
  | (name, flag) :: rest, m, maxBufferLen =>
    let buffer := match mapLookup flag m with
      | none => []
      | some b => b
    let buffer := if len buffer = 0 then buffer ++ ['-', '-'] ++ name
      else buffer ++ [',', ' ', '-', '-'] ++ name
    match cmd.heap[flag]? with
    | none => .error .nilPointer cmd
    | some f =>
      let buffer := if ops.boolFlag f.value then buffer
        else buffer ++ ['=', '"'] ++ f.DefValue ++ ['"']
      nameUsages ops cmd rest (mapInsert flag buffer m)
        (if len buffer > maxBufferLen then len buffer else maxBufferLen)

/-- The padding loop of UsageString (lines 250-256): spaces are written until the buffer is
longer than `maxBufferLen`; `maxBufferLen + 1` turns are enough. -/
def padBuffer : Nat → GoString → Nat → GoString
  | 0, buffer, _ => buffer
  | fuel + 1, buffer, maxBufferLen =>
    if len buffer > maxBufferLen then buffer else padBuffer fuel (buffer ++ [' ']) maxBufferLen

/-- The last loop of UsageString (lines 247-258), `count` turns from the index `i` on, over
the list `sorted` that `cmd.flags.Sort()` returns.  A nil buffer renders as `<nil>` and
cannot be written to. -/
def usageLines (cmd : flagable σ) (sorted : List Nat) (maxBufferLen : Nat) :
    Nat → Nat → List (Nat × GoString) → List GoString → Res σ (List GoString)
  | 0, _, _, outputLines => .ok outputLines
  | count + 1, i, m, outputLines =>
    match sorted[i]? with
    | none => .error .indexOutOfRange cmd
    | some flag =>
      match mapLookup flag m with
      | none =>
        if len "<nil>".toList > maxBufferLen then
          match cmd.heap[flag]? with
          | none => .error .nilPointer cmd
          | some f =>
            usageLines cmd sorted maxBufferLen count (i + 1) m
              (outputLines ++ [[' ', ' '] ++ "<nil>".toList ++ [' ', '#', ' '] ++ f.Usage])
        else .error .nilPointer cmd
      | some buffer =>
        let buffer := padBuffer (maxBufferLen + 1) buffer maxBufferLen
        match cmd.heap[flag]? with
        | none => .error .nilPointer cmd
        | some f =>
          usageLines cmd sorted maxBufferLen count (i + 1) (mapInsert flag buffer m)
            (outputLines ++ [[' ', ' '] ++ buffer ++ [' ', '#', ' '] ++ f.Usage])

/-- UsageString (lines 196-261).  `sort` is the method `flagMap.Sort`, which is declared
outside the sources at hand: it lists the flags of the map. -/
def UsageString (ops : ValueOps σ) (sort : List (GoString × Nat) → List Nat)
    (cmd : flagable σ) : Res σ GoString :=
  match aliasUsages cmd cmd.aliases (initUsages cmd.aliases) 0 with
  | .error e s => .error e s
  | .ok (m, maxBufferLen) =>
    match nameUsages ops cmd cmd.flags m maxBufferLen with
    | .error e s => .error e s
    | .ok (m, maxBufferLen) =>
      match usageLines cmd (sort cmd.flags) maxBufferLen cmd.flags.length 0 m [] with
      | .error e s => .error e s
      | .ok outputLines => .ok (Join outputLines ['\n'])

/-! ## Start (CLI.go) -/

/-- The struct `CLI` (CLI.go, lines 16-38): the fields of the flag registry (`aliases`,
`flags`, `flagsTerminated`, `flagValues`, `version`) as a `flagable`, the parameters, and the
subcommands by name.  The handler `fn` is not a field here: a call of it is recorded in the
program. -/
structure CLI (σ : Type) where
  name : GoString
  reg : flagable σ
  params : List GoString
  paramValues : List (GoString × GoString)
  unparsedArgs : List GoString
  subCommands : List (GoString × Nat)
deriving DecidableEq

/-- The commands of a program, a pointer to a command being its index, and the handlers
called so far: a call `cmd.fn(cmd)` enters the index of `cmd`. -/
structure Program (σ : Type) where
  cmds : List (CLI σ)
  calls : List Nat
deriving DecidableEq

/-- The outcome of a call of Start: it returns, it aborts, or the model runs out of fuel. -/
inductive Run (σ : Type) where
  | done (w : Program σ)
  | aborted (e : Err) (w : Program σ)
  | exhausted
deriving DecidableEq

/-- The outcome of parseSubCommands: a child was resolved and started, or none was and the
tokens come back. -/
inductive Sub (σ : Type) where
  | resolved (r : Run σ)
  | unresolved (args : List GoString)

/-- Modelled from the spec: the method `parse` of `CLI`, which is declared outside the
sources at hand (spec 4.4, from Entry to FlagParsing).  It runs the parse of type-flagable.go
against the registry of the command; the tokens left over come back. -/
def CLI.parse (ops : ValueOps σ) (cmd : CLI σ) (args : List GoString) :
    Res σ (List GoString × CLI σ) :=
  match Odin.parse ops cmd.reg args with
  | .error e s => .error e s
  | .ok (rest, reg) => .ok (rest, { cmd with reg := reg })

/-- Modelled from the spec: the method `parseSubCommands`, which is declared outside the
sources at hand (spec 4.4).  When the first remaining token is the name of a child command,
the child is started on the remaining tokens, the first of which its Start ignores;
otherwise the tokens come back.  The registry of the child is taken as it stands. -/
def parseSubCommands (start : Program σ → Nat → Option (List GoString) → Run σ)
    (w : Program σ) (cmd : CLI σ) (args : List GoString) : Sub σ :=
  match args with
  | [] => .unresolved []
  | name :: rest =>
    match mapLookup name cmd.subCommands with
    | none => .unresolved (name :: rest)
    | some child => .resolved (start w child (some (name :: rest)))

/-- Modelled from the spec: the method `assignUnparsedArgs`, which is declared outside the
sources at hand (spec 4.3).  The tokens are bound to the declared parameters in order; the
tokens beyond them are kept as the unparsed arguments. -/
def assignUnparsedArgs (cmd : CLI σ) (args : List GoString) : CLI σ :=
  { cmd with paramValues := cmd.params.zip args, unparsedArgs := args.drop cmd.params.length }

/-- The tokens Start works on (CLI.go, lines 64-72): `os.Args` stands in for a nil argument
list, and the first argument is dropped. -/
def startTokens (osArgs : List GoString) (args : Option (List GoString)) : List GoString :=
  let args := match args with
    | none => osArgs
    | some a => a
  if args.length > 1 then args.drop 1 else []

/-- Start (CLI.go, lines 63-86) on the command at `i`, with fuel for the nested calls. -/
def Start (ops : ValueOps σ) (osArgs : List GoString) :
    Nat → Program σ → Nat → Option (List GoString) → Run σ
  | 0, _, _, _ => .exhausted
  | fuel + 1, w, i, args =>
    match w.cmds[i]? with
    | none => .aborted .nilPointer w
    | some cmd =>
      match CLI.parse ops cmd (startTokens osArgs args) with
      | .error e s => .aborted e { w with cmds := w.cmds.set i { cmd with reg := s } }
      | .ok (args, cmd1) =>
        match parseSubCommands (Start ops osArgs fuel)
            { w with cmds := w.cmds.set i cmd1 } cmd1 args with
        | .resolved r => r
        | .unresolved args =>
          .done { cmds := w.cmds.set i (assignUnparsedArgs cmd1 args),
                  calls := w.calls ++ [i] }

/-- The registries the operations build: the keys of the maps are distinct, distinct names
hold distinct `Flag` objects, each registered pointer refers to an allocated `Flag` that
carries the name it is registered under, and aliases and parsed values belong to registered
flags. -/
def WF (cmd : flagable σ) : Prop :=
  (cmd.flags.map Prod.fst).Nodup ∧ (cmd.flags.map Prod.snd).Nodup ∧ cmd.flagValues.Nodup ∧
  (∀ np ∈ cmd.flags, (cmd.heap[np.2]?).map Flag.Name = some np.1) ∧
  (∀ cp ∈ cmd.aliases, cp.2 ∈ cmd.flags.map Prod.snd) ∧
  (∀ p ∈ cmd.flagValues, p ∈ cmd.flags.map Prod.snd)

instance (cmd : flagable σ) : Decidable (WF cmd) := by
  unfold WF
  infer_instance

/-- What a call `setFlag(flag, v)` does to a well-formed registry: the value of the flag is
set and the flag is entered in `flagValues`, unless the value rejects `v`. -/
def assign (ops : ValueOps σ) (cmd : flagable σ) (q : Nat) (v : GoString) : flagable σ :=
  match cmd.heap[q]? with
  | none => cmd
  | some g =>
    match ops.Set g.value v with
    | none => cmd
    | some w =>
      { cmd with heap := cmd.heap.set q { g with value := w },
                 flagValues := cmd.flagValues.insert q }

/-- The registries reached from `cmd` by assignments to flags that satisfy `Q` and by
setting `flagsTerminated`. -/
inductive Reach (ops : ValueOps σ) (Q : Nat → Prop) : flagable σ → flagable σ → Prop where
  | refl (cmd : flagable σ) : Reach ops Q cmd cmd
  | step (cmd cmd1 : flagable σ) (q : Nat) (v : GoString) :
      Q q → Reach ops Q (assign ops cmd q v) cmd1 → Reach ops Q cmd cmd1
  | stop (cmd cmd1 : flagable σ) :
      Reach ops Q { cmd with flagsTerminated := true } cmd1 → Reach ops Q cmd cmd1

/-- A value that is satisfied by presence alone: the test
`fv, ok := flag.value.(boolFlag); ok && fv.IsBoolFlag()` of the source. -/
def selfSufficient (ops : ValueOps σ) (s : σ) : Bool := ops.boolFlag s && ops.IsBoolFlag s

/-- The value of the flag at `q` accepts the default string frozen at the definition. -/
def acceptsDefault (ops : ValueOps σ) (cmd : flagable σ) (q : Nat) : Bool :=
  match cmd.heap[q]? with
  | some f => (ops.Set f.value f.DefValue).isSome
  | none => true

/-- Every flag that has no parsed value yet accepts its own default string. -/
def AcceptsDefaults (ops : ValueOps σ) (cmd : flagable σ) : Prop :=
  ∀ np ∈ cmd.flags, np.2 ∉ cmd.flagValues → acceptsDefault ops cmd np.2 = true

instance (ops : ValueOps σ) (cmd : flagable σ) : Decidable (AcceptsDefaults ops cmd) := by
  unfold AcceptsDefaults
  infer_instance

/-- The token names the flag at `p`: in the long form by the name the flag is registered
under, in the short form by a character that is an alias of the flag. -/
def mentions (cmd : flagable σ) (p : Nat) (tok : GoString) : Bool :=
  let a := (Split tok '=').headD []
  if a.take 2 = ['-', '-'] then decide (mapLookup (a.drop 2) cmd.flags = some p)
  else if a.take 1 = ['-'] then (a.drop 1).any (fun c => decide (mapLookup c cmd.aliases = some p))
  else false

/-- The flag at `q` has a parsed value, and that value is what `Set` made of the string
`v`. -/
def SetTo (ops : ValueOps σ) (cmd : flagable σ) (q : Nat) (v : GoString) : Prop :=
  q ∈ cmd.flagValues ∧ ∃ g s, cmd.heap[q]? = some g ∧ ops.Set s v = some g.value

/-- The part of a flag token after the name or the cluster: nothing, or `=` and a value that
is not empty and does not end in `=`. -/
def valueSuffix (sfx : GoString) : Prop :=
  sfx = [] ∨ ∃ v, sfx = '=' :: v ∧ v ≠ [] ∧ v.getLast? ≠ some '='

/-- The errors with which the scan of the tokens aborts. -/
def Err.scan : Err → Bool
  | .invalidFlagFormat => true
  | .invalidAlias _ => true
  | .invalidFlag => true
  | .missingValue _ => true
  | .indexOutOfRange => true
  | _ => false

/-- The registries a program can hold: the registry of a fresh command, and what DefineFlag,
AliasFlag and parse make of such a registry, a parse that aborts included (a failing
DefineFlag or AliasFlag leaves the registry as it was). -/
inductive Reachable (ops : ValueOps σ) : flagable σ → Prop where
  | fresh (version : GoString) : Reachable ops (flagable.empty version)
  | defined (cmd cmd1 : flagable σ) (value : σ) (name usage : GoString) :
      Reachable ops cmd → DefineFlag ops cmd value name usage = .ok cmd1 → Reachable ops cmd1
  | aliased (cmd cmd1 : flagable σ) (c : Char) (name : GoString) :
      Reachable ops cmd → AliasFlag cmd c name = .ok cmd1 → Reachable ops cmd1
  | parsed (cmd cmd1 : flagable σ) (args rest : List GoString) :
      Reachable ops cmd → parse ops cmd args = .ok (rest, cmd1) → Reachable ops cmd1
  | aborted (cmd s : flagable σ) (args : List GoString) (e : Err) :
      Reachable ops cmd → parse ops cmd args = .error e s → Reachable ops s

/-- The registry after the automatic definition of the boolean flag `name` with default
false, aliased to `ch` unless `ch` is an alias already: what defineHelp and defineVersion do
when the name is not registered. -/
def autoDefined (ops : ValueOps σ) (c : flagable σ) (name usage : GoString) (ch : Char) :
    flagable σ :=
  { c with
    heap := c.heap ++ [{ Name := name, Usage := usage, value := ops.newBoolValue false,
                         DefValue := ops.String (ops.newBoolValue false) }],
    flags := c.flags ++ [(name, c.heap.length)],
    aliases := match mapLookup ch c.aliases with
      | some _ => c.aliases
      | none => c.aliases ++ [(ch, c.heap.length)] }

/-- The aliases of the flag at `p`, in the order of the alias map, each written `-c` and
separated by `, `, written after the content `b`. -/
def aliasPart (al : List (Char × Nat)) (p : Nat) (b : GoString) : GoString :=
  al.foldl (fun b cp =>
    if cp.2 = p then (if len b = 0 then b ++ ['-', cp.1] else b ++ [',', ' ', '-', cp.1])
    else b) b

/-- The name of a flag written after the content `b` as `--name`, separated by `, ` when `b`
is not empty, and then `="default"` unless the value implements `boolFlag`. -/
def namePart (ops : ValueOps σ) (name : GoString) (f : Flag σ) (b : GoString) : GoString :=
  (if len b = 0 then b ++ ['-', '-'] ++ name else b ++ [',', ' ', '-', '-'] ++ name) ++
    (if ops.boolFlag f.value then [] else ['=', '"'] ++ f.DefValue ++ ['"'])

/-- The descriptor of the flag `f` at `p`, registered under `name`: its aliases, its name
and its default. -/
def descriptor (ops : ValueOps σ) (cmd : flagable σ) (name : GoString) (p : Nat)
    (f : Flag σ) : GoString :=
  namePart ops name f (aliasPart cmd.aliases p [])

/-- The length of the widest descriptor of the registry. -/
def maxWidth (ops : ValueOps σ) (cmd : flagable σ) : Nat :=
  (cmd.flags.map (fun np =>
    match cmd.heap[np.2]? with
    | some f => len (descriptor ops cmd np.1 np.2 f)
    | none => 0)).foldr max 0

/-- The line of the usage text for the flag at `p`: two spaces, the descriptor, spaces up to
one more than the widest descriptor, ` # ` and the usage of the flag. -/
def usageLine (ops : ValueOps σ) (cmd : flagable σ) (p : Nat) : GoString :=
  match cmd.heap[p]? with
  | some f =>
    [' ', ' '] ++ descriptor ops cmd f.Name p f ++
      List.replicate (maxWidth ops cmd + 1 - len (descriptor ops cmd f.Name p f)) ' ' ++
      [' ', '#', ' '] ++ f.Usage
  | none => []

/-- The dispatch of spec 4.4, as a relation: `Dispatch ops w i toks j` says that the
dispatch of the tokens `toks` on the command at `i` resolves the command at `j`, the most
deeply resolved one.  A command whose first remaining token after its flags names no child
resolves itself; otherwise the child goes on with the tokens behind its name. -/
inductive Dispatch (ops : ValueOps σ) : Program σ → Nat → List GoString → Nat → Prop where
  | leaf (w : Program σ) (i : Nat) (cmd : CLI σ) (toks rest : List GoString)
      (reg : flagable σ) :
      w.cmds[i]? = some cmd → parse ops cmd.reg toks = .ok (rest, reg) →
      (∀ name tl, rest = name :: tl → mapLookup name cmd.subCommands = none) →
      Dispatch ops w i toks i
  | child (w : Program σ) (i : Nat) (cmd : CLI σ) (toks : List GoString) (name : GoString)
      (tl : List GoString) (reg : flagable σ) (c j : Nat) :
      w.cmds[i]? = some cmd → parse ops cmd.reg toks = .ok (name :: tl, reg) →
      mapLookup name cmd.subCommands = some c →
      Dispatch ops { w with cmds := w.cmds.set i { cmd with reg := reg } } c tl j →
      Dispatch ops w i toks j

/-! ## A registry for evaluation -/

/-- The flag of `DefineIntFlag("count", 0, "how many")`. -/
def countFlag : Flag Val :=
  { Name := "count".toList, Usage := "how many".toList, value := .intV 0,
    DefValue := "0".toList }

/-- The flag of `DefineBoolFlag("all", false, "everything")`. -/
def allFlag : Flag Val :=
  { Name := "all".toList, Usage := "everything".toList, value := .boolV false,
    DefValue := "false".toList }

/-- The flag of `DefineStringFlag("name", "x", "who")`. -/
def nameFlag : Flag Val :=
  { Name := "name".toList, Usage := "who".toList, value := .stringV "x".toList,
    DefValue := "x".toList }

/-- The flag that parse registers under the name "help". -/
def helpFlag : Flag Val :=
  { Name := "help".toList, Usage := "show help and exit".toList, value := .boolV false,
    DefValue := "false".toList }

/-- The registry after the definition of the flags "count", "all" and "name" and of the
aliases `c` for "count" and `a` for "all". -/
def demo : flagable Val :=
  { heap := [countFlag, allFlag, nameFlag],
    flags := [("count".toList, 0), ("all".toList, 1), ("name".toList, 2)],
    aliases := [('c', 0), ('a', 1)],
    flagValues := [], flagsTerminated := false, parsed := false, version := [] }

/-- The calls that build `demo` from the registry of a fresh command. -/
def defineDemo : Res Val (flagable Val) :=
  match DefineFlag valOps (flagable.empty []) (.intV 0) "count".toList "how many".toList with
  | .error e s => .error e s
  | .ok c1 =>
    match DefineBoolFlag valOps c1 "all".toList false "everything".toList with
    | .error e s => .error e s
    | .ok c2 =>
      match DefineFlag valOps c2 (.stringV "x".toList) "name".toList "who".toList with
      | .error e s => .error e s
      | .ok c3 =>
        match AliasFlag c3 'c' "count".toList with
        | .error e s => .error e s
        | .ok c4 => AliasFlag c4 'a' "all".toList

/-- The registry `demo` after the automatic definitions of parse. -/
def demoPrepared : flagable Val :=
  { demo with heap := [countFlag, allFlag, nameFlag, helpFlag],
              flags := demo.flags ++ [("help".toList, 3)],
              aliases := demo.aliases ++ [('h', 3)], parsed := true }

/-- The registry `demoPrepared` with the given values of its four flags, with parsed values
for the flags of `order`. -/
def demoWith (count : Int) (all : Bool) (name : GoString) (help : Bool) (order : List Nat)
    (terminated : Bool) : flagable Val :=
  { demoPrepared with
    heap := [{ countFlag with value := .intV count }, { allFlag with value := .boolV all },
             { nameFlag with value := .stringV name }, { helpFlag with value := .boolV help }],
    flagValues := order, flagsTerminated := terminated }

/-- The flag of `DefineStringFlag("host", "local", "where")`. -/
def hostFlag : Flag Val :=
  { Name := "host".toList, Usage := "where".toList, value := .stringV "local".toList,
    DefValue := "local".toList }

/-- A registry whose only flag is "host", aliased to `h`. -/
def demoHost : flagable Val :=
  { heap := [hostFlag], flags := [("host".toList, 0)], aliases := [('h', 0)],
    flagValues := [], flagsTerminated := false, parsed := false, version := [] }

/-- The registry `demoHost` after a parse of no tokens. -/
def demoHostParsed : flagable Val :=
  { demoHost with heap := [hostFlag, helpFlag],
                  flags := [("host".toList, 0), ("help".toList, 1)],
                  flagValues := [1, 0], parsed := true }

/-- An order for the lines of the usage text, for the examples: the flags in the order of
their registration. -/
def registrationOrder (m : List (GoString × Nat)) : List Nat := m.map Prod.snd

/-- A program of two commands: the root with the boolean flag "verbose" and the child "sub",
and the child with the boolean flag "force" and the parameter "target". -/
def demoProgram : Program Val :=
  { cmds :=
      [{ name := "prog".toList,
         reg := { heap := [{ Name := "verbose".toList, Usage := [], value := .boolV false,
                             DefValue := "false".toList }],
                  flags := [("verbose".toList, 0)], aliases := [], flagValues := [],
                  flagsTerminated := false, parsed := false, version := [] },
         params := [], paramValues := [], unparsedArgs := [],
         subCommands := [("sub".toList, 1)] },
       { name := "sub".toList,
         reg := { heap := [{ Name := "force".toList, Usage := [], value := .boolV false,
                             DefValue := "false".toList }],
                  flags := [("force".toList, 0)], aliases := [], flagValues := [],
                  flagsTerminated := false, parsed := false, version := [] },
         params := ["target".toList], paramValues := [], unparsedArgs := [],
         subCommands := [] }],
    calls := [] }

/-- The argument vector `prog --verbose sub --force x`. -/
def demoArgs : List GoString :=
  ["prog".toList, "--verbose".toList, "sub".toList, "--force".toList, "x".toList]

/-- The program that a run of `demoProgram` on `demoArgs` leaves. -/
def demoRun : Program Val :=
  match Start valOps [] 5 demoProgram 0 (some demoArgs) with
  | .done w => w
  | _ => demoProgram

/-- The registry `demo` with the version string "1.0" configured. -/
def demoVersioned : flagable Val := { demo with version := "1.0".toList }

/-- The registry that a parse of no tokens leaves of `demoVersioned`. -/
def demoVersionedParsed : flagable Val :=
  match parse valOps demoVersioned [] with
  | .ok (_, r) => r
  | .error _ s => s

/-- The registry `demo` after `AliasFlag('n', "name")`. -/
def demoNamed : flagable Val := { demo with aliases := demo.aliases ++ [('n', 2)] }

/-! ## Strings and maps -/

theorem Split_ne_nil (s : GoString) (sep : Char) : Split s sep ≠ [] := by
  cases s with
  | nil => simp [Split]
  | cons c cs =>
    unfold Split
    split
    · simp
    · split <;> simp

theorem Split_of_not_mem (s : GoString) (sep : Char) (h : sep ∉ s) : Split s sep = [s] := by
  induction s with
  | nil => rfl
  | cons c cs ih =>
    have hc : ¬ c = sep := fun e => h (by simp [e])
    have hcs : sep ∉ cs := fun e => h (by simp [e])
    simp [Split, hc, ih hcs]

theorem Split_append_sep (n v : GoString) (sep : Char) (h : sep ∉ n) :
    Split (n ++ sep :: v) sep = n :: Split v sep := by
  induction n with
  | nil => simp [Split]
  | cons c cs ih =>
    have hc : ¬ c = sep := fun e => h (by simp [e])
    have hcs : sep ∉ cs := fun e => h (by simp [e])
    simp [Split, hc, ih hcs]

theorem mapLookup_mem {κ ν : Type} [DecidableEq κ] (k : κ) (v : ν) (m : List (κ × ν))
    (h : mapLookup k m = some v) : (k, v) ∈ m := by
  induction m with
  | nil => simp [mapLookup] at h
  | cons a m ih =>
    obtain ⟨k1, v1⟩ := a
    unfold mapLookup at h
    split at h
    · rename_i hk
      simp at h
      simp [hk, h]
    · exact List.mem_cons_of_mem _ (ih h)

theorem mapLookup_of_mem {κ ν : Type} [DecidableEq κ] (k : κ) (v : ν) (m : List (κ × ν))
    (hnd : (m.map Prod.fst).Nodup) (h : (k, v) ∈ m) : mapLookup k m = some v := by
  induction m with
  | nil => simp at h
  | cons a m ih =>
    obtain ⟨k1, v1⟩ := a
    simp only [List.map_cons, List.nodup_cons, List.mem_map, not_exists, not_and] at hnd
    unfold mapLookup
    rcases List.mem_cons.1 h with e | e
    · simp only [Prod.mk.injEq] at e
      simp [e.1, e.2]
    · have hne : ¬ k1 = k := fun e1 => hnd.1 (k, v) e (by simp [e1])
      simp [hne, ih hnd.2 e]

theorem mapLookup_none_iff {κ ν : Type} [DecidableEq κ] (k : κ) (m : List (κ × ν)) :
    mapLookup k m = none ↔ k ∉ m.map Prod.fst := by
  induction m with
  | nil => simp [mapLookup]
  | cons a m ih =>
    obtain ⟨k1, v1⟩ := a
    unfold mapLookup
    by_cases hk : k1 = k
    · simp [hk]
    · simp [hk, ih, Ne.symm hk]

theorem mapInsert_of_none {κ ν : Type} [DecidableEq κ] (k : κ) (v : ν) (m : List (κ × ν))
    (h : mapLookup k m = none) : mapInsert k v m = m ++ [(k, v)] := by
  induction m with
  | nil => rfl
  | cons a m ih =>
    obtain ⟨k1, v1⟩ := a
    unfold mapLookup at h
    split at h
    · simp at h
    · rename_i hk
      simp [mapInsert, hk, ih h]

theorem mapLookup_append {κ ν : Type} [DecidableEq κ] (k : κ) (m m2 : List (κ × ν)) :
    mapLookup k (m ++ m2) = (mapLookup k m).orElse (fun _ => mapLookup k m2) := by
  induction m with
  | nil => simp [mapLookup]
  | cons a m ih =>
    obtain ⟨k1, v1⟩ := a
    by_cases hk : k1 = k <;> simp [mapLookup, hk, ih]

theorem mem_snd_of_lookup {κ : Type} [DecidableEq κ] (k : κ) (q : Nat) (m : List (κ × Nat))
    (h : mapLookup k m = some q) : q ∈ m.map Prod.snd :=
  List.mem_map.2 ⟨(k, q), mapLookup_mem k q m h, rfl⟩

theorem mapLookup_mapInsert_self {κ ν : Type} [DecidableEq κ] (k : κ) (v : ν)
    (m : List (κ × ν)) : mapLookup k (mapInsert k v m) = some v := by
  induction m with
  | nil => simp [mapInsert, mapLookup]
  | cons a m ih =>
    obtain ⟨k1, v1⟩ := a
    by_cases hk : k1 = k <;> simp [mapInsert, mapLookup, hk, ih]

theorem mapLookup_mapInsert_ne {κ ν : Type} [DecidableEq κ] (k d : κ) (v : ν)
    (m : List (κ × ν)) (h : d ≠ k) : mapLookup d (mapInsert k v m) = mapLookup d m := by
  induction m with
  | nil => simp [mapInsert, mapLookup, Ne.symm h]
  | cons a m ih =>
    obtain ⟨k1, v1⟩ := a
    by_cases hk : k1 = k
    · subst hk
      simp [mapInsert, mapLookup, Ne.symm h]
    · by_cases hd : k1 = d
      · subst hd
        simp [mapInsert, mapLookup, hk]
      · simp [mapInsert, mapLookup, hk, hd, ih]

/-! ## Assignments -/

theorem assign_flags (ops : ValueOps σ) (cmd : flagable σ) (q : Nat) (v : GoString) :
    (assign ops cmd q v).flags = cmd.flags ∧ (assign ops cmd q v).aliases = cmd.aliases ∧
    (assign ops cmd q v).flagsTerminated = cmd.flagsTerminated ∧
    (assign ops cmd q v).parsed = cmd.parsed ∧ (assign ops cmd q v).version = cmd.version := by
  unfold assign
  split
  · simp
  · split <;> simp

theorem assign_heap_ne (ops : ValueOps σ) (cmd : flagable σ) (q p : Nat) (v : GoString)
    (h : p ≠ q) : (assign ops cmd q v).heap[p]? = cmd.heap[p]? := by
  unfold assign
  split
  · rfl
  · split
    · rfl
    · simp [List.getElem?_set, Ne.symm h]

theorem assign_mem_ne (ops : ValueOps σ) (cmd : flagable σ) (q p : Nat) (v : GoString)
    (h : p ≠ q) : p ∈ (assign ops cmd q v).flagValues ↔ p ∈ cmd.flagValues := by
  unfold assign
  split
  · rfl
  · split
    · rfl
    · simp [h]

theorem assign_mono (ops : ValueOps σ) (cmd : flagable σ) (q p : Nat) (v : GoString)
    (h : p ∈ cmd.flagValues) : p ∈ (assign ops cmd q v).flagValues := by
  unfold assign
  split
  · exact h
  · split
    · exact h
    · simp [h]

theorem assign_some (ops : ValueOps σ) (cmd : flagable σ) (q : Nat) (v : GoString)
    (g : Flag σ) (w : σ) (hg : cmd.heap[q]? = some g) (hw : ops.Set g.value v = some w) :
    (assign ops cmd q v).heap[q]? = some { g with value := w } ∧
    q ∈ (assign ops cmd q v).flagValues := by
  have hlt : q < cmd.heap.length := by
    rcases Nat.lt_or_ge q cmd.heap.length with h | h
    · exact h
    · rw [List.getElem?_eq_none h] at hg; cases hg
  simp [assign, hg, hw, List.getElem?_set, hlt]

theorem assign_none (ops : ValueOps σ) (cmd : flagable σ) (q : Nat) (v : GoString)
    (g : Flag σ) (hg : cmd.heap[q]? = some g) (hw : ops.Set g.value v = none) :
    assign ops cmd q v = cmd := by
  simp [assign, hg, hw]

theorem assign_meta (ops : ValueOps σ) (cmd : flagable σ) (q p : Nat) (v : GoString) :
    ((assign ops cmd q v).heap[p]?).map Flag.Name = (cmd.heap[p]?).map Flag.Name ∧
    ((assign ops cmd q v).heap[p]?).map Flag.DefValue = (cmd.heap[p]?).map Flag.DefValue := by
  unfold assign
  split
  · simp
  · rename_i g hg
    split
    · simp
    · by_cases hpq : q = p
      · subst hpq
        have hlt : q < cmd.heap.length := by
          rcases Nat.lt_or_ge q cmd.heap.length with h | h
          · exact h
          · rw [List.getElem?_eq_none h] at hg; cases hg
        simp [List.getElem?_set, hlt, hg]
      · simp [List.getElem?_set, hpq]

theorem assign_unset (ops : ValueOps σ) (cmd : flagable σ) (q p : Nat) (v : GoString)
    (h : p ∉ (assign ops cmd q v).flagValues) :
    p ∉ cmd.flagValues ∧ (assign ops cmd q v).heap[p]? = cmd.heap[p]? := by
  refine ⟨fun hp => h (assign_mono ops cmd q p v hp), ?_⟩
  by_cases hpq : p = q
  · subst hpq
    cases hg : cmd.heap[p]? with
    | none => simp [assign, hg]
    | some g =>
      cases hw : ops.Set g.value v with
      | none => rw [assign_none ops cmd p v g hg hw]; exact hg
      | some w => exact absurd (assign_some ops cmd p v g w hg hw).2 h
  · exact assign_heap_ne ops cmd q p v hpq

theorem WF_assign (ops : ValueOps σ) (cmd : flagable σ) (q : Nat) (v : GoString)
    (hwf : WF cmd) (hq : q ∈ cmd.flags.map Prod.snd) : WF (assign ops cmd q v) := by
  obtain ⟨h1, h2, h3, h4, h5, h6⟩ := hwf
  obtain ⟨e1, e2, -, -, -⟩ := assign_flags ops cmd q v
  refine ⟨by rw [e1]; exact h1, by rw [e1]; exact h2, ?_, ?_, by rw [e1, e2]; exact h5, ?_⟩
  · unfold assign
    split
    · exact h3
    · split
      · exact h3
      · exact h3.insert
  · intro np hnp
    rw [e1] at hnp
    rw [(assign_meta ops cmd q np.2 v).1]
    exact h4 np hnp
  · intro p hp
    rw [e1]
    by_cases hpq : p = q
    · rw [hpq]; exact hq
    · exact h6 p ((assign_mem_ne ops cmd q p v hpq).1 hp)

theorem setFlag_wf (ops : ValueOps σ) (cmd : flagable σ) (q : Nat) (v : GoString)
    (hwf : WF cmd) (hq : q ∈ cmd.flags.map Prod.snd) :
    ∃ e, setFlag ops cmd q v = .ok (e, assign ops cmd q v) := by
  obtain ⟨h1, h2, h3, h4, h5, h6⟩ := hwf
  obtain ⟨⟨n, q1⟩, hmem, hq1⟩ := List.mem_map.1 hq
  simp only at hq1
  subst hq1
  have hn := h4 _ hmem
  simp only [Option.map_eq_some'] at hn
  obtain ⟨f, hf, hfn⟩ := hn
  have hl := mapLookup_of_mem n q1 cmd.flags h1 hmem
  unfold setFlag assign
  simp only [hf, hfn, hl]
  cases ops.Set f.value v with
  | none => exact ⟨_, rfl⟩
  | some w => exact ⟨_, rfl⟩

/-! ## Reachability by assignments -/

theorem Reach.trans {ops : ValueOps σ} {Q : Nat → Prop} {a b c : flagable σ}
    (h1 : Reach ops Q a b) (h2 : Reach ops Q b c) : Reach ops Q a c := by
  induction h1 with
  | refl _ => exact h2
  | step cmd cmd1 q v hq _ ih => exact Reach.step cmd c q v hq (ih h2)
  | stop cmd cmd1 _ ih => exact Reach.stop cmd c (ih h2)

theorem Reach.mono {ops : ValueOps σ} {Q Q1 : Nat → Prop} {a b : flagable σ}
    (hQ : ∀ q, Q q → Q1 q) (h : Reach ops Q a b) : Reach ops Q1 a b := by
  induction h with
  | refl _ => exact Reach.refl _
  | step cmd cmd1 q v hq _ ih => exact Reach.step cmd cmd1 q v (hQ q hq) ih
  | stop cmd cmd1 _ ih => exact Reach.stop cmd cmd1 ih

theorem Reach.one (ops : ValueOps σ) (Q : Nat → Prop) (cmd : flagable σ) (q : Nat)
    (v : GoString) (hq : Q q) : Reach ops Q cmd (assign ops cmd q v) :=
  Reach.step cmd _ q v hq (Reach.refl _)

theorem Reach.maps {ops : ValueOps σ} {Q : Nat → Prop} {a b : flagable σ}
    (h : Reach ops Q a b) :
    b.flags = a.flags ∧ b.aliases = a.aliases ∧ b.version = a.version ∧ b.parsed = a.parsed := by
  induction h with
  | refl _ => exact ⟨rfl, rfl, rfl, rfl⟩
  | step cmd cmd1 q v _ _ ih =>
    obtain ⟨e1, e2, -, e4, e5⟩ := assign_flags ops cmd q v
    exact ⟨ih.1.trans e1, ih.2.1.trans e2, ih.2.2.1.trans e5, ih.2.2.2.trans e4⟩
  | stop cmd cmd1 _ ih => exact ih

theorem Reach.terminated {ops : ValueOps σ} {Q : Nat → Prop} {a b : flagable σ}
    (h : Reach ops Q a b) (ha : a.flagsTerminated = true) : b.flagsTerminated = true := by
  induction h with
  | refl _ => exact ha
  | step cmd cmd1 q v _ _ ih =>
    exact ih ((assign_flags ops cmd q v).2.2.1.trans ha)
  | stop cmd cmd1 _ ih => exact ih rfl

theorem Reach.wf {ops : ValueOps σ} {Q : Nat → Prop} {a b : flagable σ}
    (h : Reach ops Q a b) (hQ : ∀ q, Q q → q ∈ a.flags.map Prod.snd) (hwf : WF a) : WF b := by
  induction h with
  | refl _ => exact hwf
  | step cmd cmd1 q v hq _ ih =>
    refine ih ?_ (WF_assign ops cmd q v hwf (hQ q hq))
    rw [(assign_flags ops cmd q v).1]
    exact hQ
  | stop cmd cmd1 _ ih => exact ih hQ hwf

theorem Reach.unset {ops : ValueOps σ} {Q : Nat → Prop} {a b : flagable σ}
    (h : Reach ops Q a b) (p : Nat) (hp : p ∉ b.flagValues) :
    p ∉ a.flagValues ∧ b.heap[p]? = a.heap[p]? := by
  induction h with
  | refl _ => exact ⟨hp, rfl⟩
  | step cmd cmd1 q v _ _ ih =>
    obtain ⟨h1, h2⟩ := ih hp
    obtain ⟨h3, h4⟩ := assign_unset ops cmd q p v h1
    exact ⟨h3, h2.trans h4⟩
  | stop cmd cmd1 _ ih => exact ih hp

theorem Reach.mem {ops : ValueOps σ} {Q : Nat → Prop} {a b : flagable σ}
    (h : Reach ops Q a b) (p : Nat) (hp : p ∈ a.flagValues) : p ∈ b.flagValues := by
  by_contra hb
  exact (h.unset p hb).1 hp

theorem Reach.keeps {ops : ValueOps σ} {Q : Nat → Prop} {a b : flagable σ}
    (h : Reach ops Q a b) (p : Nat) (hp : ¬ Q p) :
    b.heap[p]? = a.heap[p]? ∧ (p ∈ b.flagValues ↔ p ∈ a.flagValues) := by
  induction h with
  | refl _ => exact ⟨rfl, Iff.rfl⟩
  | step cmd cmd1 q v hq _ ih =>
    have hpq : p ≠ q := fun e => hp (e ▸ hq)
    exact ⟨ih.1.trans (assign_heap_ne ops cmd q p v hpq),
      ih.2.trans (assign_mem_ne ops cmd q p v hpq)⟩
  | stop cmd cmd1 _ ih => exact ih

theorem Reach.fields {ops : ValueOps σ} {Q : Nat → Prop} {a b : flagable σ}
    (h : Reach ops Q a b) (p : Nat) :
    (b.heap[p]?).map Flag.Name = (a.heap[p]?).map Flag.Name ∧
    (b.heap[p]?).map Flag.DefValue = (a.heap[p]?).map Flag.DefValue := by
  induction h with
  | refl _ => exact ⟨rfl, rfl⟩
  | step cmd cmd1 q v _ _ ih =>
    obtain ⟨h1, h2⟩ := assign_meta ops cmd q p v
    exact ⟨ih.1.trans h1, ih.2.trans h2⟩
  | stop cmd cmd1 _ ih => exact ih

/-! ## Definitions of flags and aliases -/

theorem mem_mapInsert {κ ν : Type} [DecidableEq κ] (k : κ) (v : ν) (m : List (κ × ν))
    (x : κ × ν) (h : x ∈ mapInsert k v m) : x = (k, v) ∨ x ∈ m := by
  induction m with
  | nil =>
    simp only [mapInsert, List.mem_singleton] at h
    exact Or.inl h
  | cons a m ih =>
    obtain ⟨k1, v1⟩ := a
    unfold mapInsert at h
    split at h
    · rcases List.mem_cons.1 h with e | e
      · exact Or.inl e
      · exact Or.inr (List.mem_cons_of_mem _ e)
    · rcases List.mem_cons.1 h with e | e
      · exact Or.inr (by rw [e]; exact List.mem_cons_self _ _)
      · rcases ih e with e1 | e1
        · exact Or.inl e1
        · exact Or.inr (List.mem_cons_of_mem _ e1)

theorem DefineFlag_eq (ops : ValueOps σ) (cmd cmd1 : flagable σ) (value : σ)
    (name usage : GoString) (h : DefineFlag ops cmd value name usage = .ok cmd1) :
    mapLookup name cmd.flags = none ∧
    cmd1 = { cmd with
      heap := cmd.heap ++ [{ Name := name, Usage := usage, value := value,
                             DefValue := ops.String value }],
      flags := cmd.flags ++ [(name, cmd.heap.length)] } := by
  unfold DefineFlag at h
  cases hl : mapLookup name cmd.flags with
  | some q => simp [hl] at h
  | none =>
    simp only [hl, Res.ok.injEq] at h
    rw [mapInsert_of_none name _ _ hl] at h
    exact ⟨rfl, h.symm⟩

theorem ptr_lt (cmd : flagable σ) (hwf : WF cmd) (q : Nat)
    (hq : q ∈ cmd.flags.map Prod.snd) : q < cmd.heap.length := by
  obtain ⟨np, hmem, e⟩ := List.mem_map.1 hq
  have h := hwf.2.2.2.1 np hmem
  rw [e] at h
  rcases Nat.lt_or_ge q cmd.heap.length with h1 | h1
  · exact h1
  · rw [List.getElem?_eq_none h1] at h; cases h

theorem WF_DefineFlag (ops : ValueOps σ) (cmd cmd1 : flagable σ) (value : σ)
    (name usage : GoString) (hwf : WF cmd)
    (h : DefineFlag ops cmd value name usage = .ok cmd1) : WF cmd1 := by
  obtain ⟨hl, e⟩ := DefineFlag_eq ops cmd cmd1 value name usage h
  have hlt := ptr_lt cmd hwf
  obtain ⟨h1, h2, h3, h4, h5, h6⟩ := hwf
  subst e
  refine ⟨?_, ?_, h3, ?_, ?_, ?_⟩
  · simp only [List.map_append, List.map_cons, List.map_nil]
    rw [List.nodup_append_comm]
    simp only [List.singleton_append, List.nodup_cons]
    exact ⟨(mapLookup_none_iff name cmd.flags).1 hl, h1⟩
  · simp only [List.map_append, List.map_cons, List.map_nil]
    rw [List.nodup_append_comm]
    simp only [List.singleton_append, List.nodup_cons]
    exact ⟨fun hc => Nat.lt_irrefl _ (hlt _ hc), h2⟩
  · intro np hnp
    simp only [List.mem_append, List.mem_singleton] at hnp
    rcases hnp with hnp | hnp
    · have := hlt np.2 (List.mem_map.2 ⟨np, hnp, rfl⟩)
      simp only [List.getElem?_append_left this]
      exact h4 np hnp
    · subst hnp
      simp
  · intro cp hcp
    simp only [List.map_append, List.mem_append]
    exact Or.inl (h5 cp hcp)
  · intro p hp
    simp only [List.map_append, List.mem_append]
    exact Or.inl (h6 p hp)

theorem AliasFlag_eq (cmd cmd1 : flagable σ) (c : Char) (name : GoString)
    (h : AliasFlag cmd c name = .ok cmd1) :
    ∃ q, mapLookup name cmd.flags = some q ∧
      cmd1 = { cmd with aliases := mapInsert c q cmd.aliases } := by
  unfold AliasFlag at h
  cases hl : mapLookup name cmd.flags with
  | none => simp [hl] at h
  | some q =>
    simp only [hl, Res.ok.injEq] at h
    exact ⟨q, rfl, h.symm⟩

theorem WF_AliasFlag (cmd cmd1 : flagable σ) (c : Char) (name : GoString) (hwf : WF cmd)
    (h : AliasFlag cmd c name = .ok cmd1) : WF cmd1 := by
  obtain ⟨q, hl, e⟩ := AliasFlag_eq cmd cmd1 c name h
  obtain ⟨h1, h2, h3, h4, h5, h6⟩ := hwf
  subst e
  refine ⟨h1, h2, h3, h4, ?_, h6⟩
  intro cp hcp
  rcases mem_mapInsert c q cmd.aliases cp hcp with e | e
  · rw [e]; exact mem_snd_of_lookup name q _ hl
  · exact h5 cp e

/-- What holds before parse and is kept by the definition of a boolean flag, by the
definition of an alias and by the `parsed` mark, holds after the automatic definitions. -/
theorem prepare_induct (ops : ValueOps σ) (P : flagable σ → Prop)
    (hD : ∀ c c1 name usage, P c → DefineBoolFlag ops c name false usage = .ok c1 → P c1)
    (hA : ∀ c c1 ch name, P c → AliasFlag c ch name = .ok c1 → P c1)
    (hP : ∀ c, P c → P { c with parsed := true })
    (cmd cmd1 : flagable σ) (h0 : P cmd) (h : prepare ops cmd = .ok cmd1) : P cmd1 := by
  have help : ∀ c c1, P c → defineHelp ops c = .ok c1 → P c1 := by
    intro c c1 hc h1
    unfold defineHelp at h1
    split at h1
    · simp only [Res.ok.injEq] at h1; exact h1 ▸ hc
    · split at h1
      · cases h1
      · rename_i c2 h2
        have hc2 := hD _ _ _ _ hc h2
        split at h1
        · simp only [Res.ok.injEq] at h1; exact h1 ▸ hc2
        · exact hA _ _ _ _ hc2 h1
  have vers : ∀ c c1, P c → defineVersion ops c = .ok c1 → P c1 := by
    intro c c1 hc h1
    unfold defineVersion at h1
    split at h1
    · split at h1
      · cases h1
      · rename_i c2 h2
        have hc2 := hD _ _ _ _ hc h2
        split at h1
        · simp only [Res.ok.injEq] at h1; exact h1 ▸ hc2
        · exact hA _ _ _ _ hc2 h1
    · simp only [Res.ok.injEq] at h1; exact h1 ▸ hc
  unfold prepare at h
  split at h
  · cases h
  · rename_i c1 h1
    split at h
    · cases h
    · rename_i c2 h2
      simp only [Res.ok.injEq] at h
      exact h ▸ hP _ (vers _ _ (help _ _ h0 h1) h2)

/-- The automatic definitions never abort. -/
theorem prepare_total (ops : ValueOps σ) (cmd : flagable σ) :
    ∃ cmd1, prepare ops cmd = .ok cmd1 := by
  have key : ∀ (c : flagable σ) (name : GoString) (ch : Char) (usage : GoString),
      mapLookup name c.flags = none →
      ∃ c1, (match DefineBoolFlag ops c name false usage with
        | .error e s => Res.error e s
        | .ok cmd1 =>
          match mapLookup ch cmd1.aliases with
          | some _ => .ok cmd1
          | none => AliasFlag cmd1 ch name) = .ok c1 := by
    intro c name ch usage hl
    simp only [DefineBoolFlag, DefineFlag, hl]
    split
    · exact ⟨_, rfl⟩
    · simp [AliasFlag, mapLookup_mapInsert_self]
  have help : ∃ c1, defineHelp ops cmd = .ok c1 := by
    unfold defineHelp
    cases hl : mapLookup "help".toList cmd.flags with
    | some q => exact ⟨_, rfl⟩
    | none => exact key cmd _ _ _ hl
  obtain ⟨c1, h1⟩ := help
  have vers : ∃ c2, defineVersion ops c1 = .ok c2 := by
    unfold defineVersion
    split
    · rename_i hc
      have hl : mapLookup "version".toList c1.flags = none := by
        simpa using hc.1
      exact key c1 _ _ _ hl
    · exact ⟨_, rfl⟩
  obtain ⟨c2, h2⟩ := vers
  exact ⟨{ c2 with parsed := true }, by simp [prepare, h1, h2]⟩

theorem prepare_wf (ops : ValueOps σ) (cmd cmd1 : flagable σ) (hwf : WF cmd)
    (h : prepare ops cmd = .ok cmd1) : WF cmd1 :=
  prepare_induct ops WF (fun c c1 name usage hc h1 => WF_DefineFlag ops c c1 _ name usage hc h1)
    (fun c c1 ch name hc h1 => WF_AliasFlag c c1 ch name hc h1) (fun _ hc => hc) cmd cmd1 hwf h

theorem prepare_same (ops : ValueOps σ) (cmd cmd1 : flagable σ)
    (h : prepare ops cmd = .ok cmd1) :
    cmd1.flagValues = cmd.flagValues ∧ cmd1.flagsTerminated = cmd.flagsTerminated ∧
      cmd1.version = cmd.version := by
  refine prepare_induct ops
    (fun c => c.flagValues = cmd.flagValues ∧ c.flagsTerminated = cmd.flagsTerminated ∧
      c.version = cmd.version) ?_ ?_ (fun _ hc => hc) cmd cmd1 ⟨rfl, rfl, rfl⟩ h
  · intro c c1 name usage hc h1
    obtain ⟨-, e⟩ := DefineFlag_eq ops c c1 _ name usage h1
    subst e
    exact hc
  · intro c c1 ch name hc h1
    obtain ⟨q, -, e⟩ := AliasFlag_eq c c1 ch name h1
    subst e
    exact hc

theorem prepare_accepts (ops : ValueOps σ) (cmd cmd1 : flagable σ) (hwf : WF cmd)
    (hacc : AcceptsDefaults ops cmd)
    (hb : (ops.Set (ops.newBoolValue false) (ops.String (ops.newBoolValue false))).isSome)
    (h : prepare ops cmd = .ok cmd1) : AcceptsDefaults ops cmd1 := by
  refine (prepare_induct ops (fun c => WF c ∧ AcceptsDefaults ops c) ?_ ?_ (fun _ hc => hc)
    cmd cmd1 ⟨hwf, hacc⟩ h).2
  · intro c c1 name usage hc h1
    refine ⟨WF_DefineFlag ops c c1 _ name usage hc.1 h1, ?_⟩
    obtain ⟨-, e⟩ := DefineFlag_eq ops c c1 _ name usage h1
    subst e
    intro np hnp hfv
    simp only [List.mem_append, List.mem_singleton] at hnp
    rcases hnp with hnp | hnp
    · have hlt := ptr_lt c hc.1 np.2 (List.mem_map.2 ⟨np, hnp, rfl⟩)
      have := hc.2 np hnp hfv
      unfold acceptsDefault at this ⊢
      simp only [List.getElem?_append_left hlt]
      exact this
    · subst hnp
      unfold acceptsDefault
      simp [hb]
  · intro c c1 ch name hc h1
    refine ⟨WF_AliasFlag c c1 ch name hc.1 h1, ?_⟩
    obtain ⟨q, -, e⟩ := AliasFlag_eq c c1 ch name h1
    subst e
    exact hc.2

/-! ## Classification of one token -/

theorem aliasFlags_of_forall (cmd : flagable σ) (cs : List Char) (ps acc : List Nat)
    (h : List.Forall₂ (fun c p => mapLookup c cmd.aliases = some p) cs ps) :
    aliasFlags cmd cs acc = .ok (acc ++ ps) := by
  induction h generalizing acc with
  | nil => simp [aliasFlags]
  | cons hcp _ ih => simp [aliasFlags, hcp, ih]

theorem aliasFlags_ok (cmd : flagable σ) (cs : List Char) (acc flags : List Nat)
    (h : aliasFlags cmd cs acc = .ok flags) :
    ∃ ps, flags = acc ++ ps ∧
      List.Forall₂ (fun c p => mapLookup c cmd.aliases = some p) cs ps := by
  induction cs generalizing acc with
  | nil =>
    simp only [aliasFlags, Res.ok.injEq] at h
    exact ⟨[], by simp [h], List.Forall₂.nil⟩
  | cons c cs ih =>
    unfold aliasFlags at h
    split at h
    · cases h
    · rename_i q hq
      obtain ⟨ps, e, hps⟩ := ih _ h
      exact ⟨q :: ps, by simp [e], List.Forall₂.cons hq hps⟩

theorem aliasFlags_error (cmd : flagable σ) (cs : List Char) (acc : List Nat)
    (h : ∃ c ∈ cs, mapLookup c cmd.aliases = none) :
    ∃ c ∈ cs, mapLookup c cmd.aliases = none ∧
      aliasFlags cmd cs acc = .error (.invalidAlias c) cmd := by
  induction cs generalizing acc with
  | nil => simp at h
  | cons c cs ih =>
    cases hc : mapLookup c cmd.aliases with
    | none => exact ⟨c, by simp, hc, by simp [aliasFlags, hc]⟩
    | some q =>
      obtain ⟨d, hd, hdn⟩ := h
      have hd1 : d ∈ cs := by
        rcases List.mem_cons.1 hd with e | e
        · rw [e, hc] at hdn; cases hdn
        · exact e
      obtain ⟨d1, hd1, hd1n, e⟩ := ih (acc ++ [q]) ⟨d, hd1, hdn⟩
      exact ⟨d1, List.mem_cons_of_mem _ hd1, hd1n, by simp [aliasFlags, hc, e]⟩

theorem flagFromArg_terminated (cmd : flagable σ) (arg : GoString)
    (h : cmd.flagsTerminated = true) : flagFromArg cmd arg = .ok ((false, []), cmd) := by
  simp [flagFromArg, h]

theorem flagFromArg_nonflag (cmd : flagable σ) (arg rest : GoString) (c : Char)
    (hnt : cmd.flagsTerminated = false) (hlast : arg.getLast? ≠ some '=')
    (hhead : (Split arg '=').headD [] = c :: rest) (hc : c ≠ '-') :
    flagFromArg cmd arg = .ok ((false, []), { cmd with flagsTerminated := true }) := by
  unfold flagFromArg
  cases hl : arg.getLast? with
  | none =>
    rw [List.getLast?_eq_none_iff] at hl
    subst hl
    simp [Split] at hhead
  | some l =>
    have hle : ¬ l = '=' := fun e => hlast (by rw [hl, e])
    simp only [hnt, hhead]
    simp [hle, hc]

theorem flagFromArg_terminator (cmd : flagable σ) (hnt : cmd.flagsTerminated = false) :
    flagFromArg cmd "--".toList = .ok ((false, []), { cmd with flagsTerminated := true }) := by
  simp [flagFromArg, hnt, Split]

theorem flagFromArg_long (cmd : flagable σ) (arg n : GoString)
    (hnt : cmd.flagsTerminated = false) (hlast : arg.getLast? ≠ some '=')
    (hhead : (Split arg '=').headD [] = '-' :: '-' :: n) (hn : n ≠ []) :
    flagFromArg cmd arg =
      match mapLookup n cmd.flags with
      | none => .error .invalidFlag cmd
      | some flag => .ok ((false, [flag]), cmd) := by
  unfold flagFromArg
  cases hl : arg.getLast? with
  | none =>
    rw [List.getLast?_eq_none_iff] at hl
    subst hl
    simp [Split] at hhead
  | some l =>
    have hle : ¬ l = '=' := fun e => hlast (by rw [hl, e])
    simp only [hnt, hhead]
    simp [hle, hn]

theorem flagFromArg_short (cmd : flagable σ) (arg cs : GoString) (c : Char)
    (hnt : cmd.flagsTerminated = false) (hlast : arg.getLast? ≠ some '=')
    (hhead : (Split arg '=').headD [] = '-' :: c :: cs) (hc : c ≠ '-') :
    flagFromArg cmd arg =
      match aliasFlags cmd (c :: cs) [] with
      | .error e s => .error e s
      | .ok flags => .ok ((true, flags), cmd) := by
  unfold flagFromArg
  cases hl : arg.getLast? with
  | none =>
    rw [List.getLast?_eq_none_iff] at hl
    subst hl
    simp [Split] at hhead
  | some l =>
    have hle : ¬ l = '=' := fun e => hlast (by rw [hl, e])
    simp only [hnt, hhead]
    simp [hle, hc]

theorem flagFromArg_cases (cmd cmd1 : flagable σ) (arg : GoString) (isAlias : Bool)
    (flags : List Nat) (hnt : cmd.flagsTerminated = false)
    (h : flagFromArg cmd arg = .ok ((isAlias, flags), cmd1)) :
    (cmd1 = { cmd with flagsTerminated := true } ∧ isAlias = false ∧ flags = []) ∨
    (cmd1 = cmd ∧ isAlias = false ∧ ∃ n q, (Split arg '=').headD [] = '-' :: '-' :: n ∧
      mapLookup n cmd.flags = some q ∧ flags = [q]) ∨
    (cmd1 = cmd ∧ isAlias = true ∧ ∃ c cs, (Split arg '=').headD [] = '-' :: c :: cs ∧
      c ≠ '-' ∧ aliasFlags cmd (c :: cs) [] = .ok flags) := by
  unfold flagFromArg at h
  simp only [hnt] at h
  cases hl : arg.getLast? with
  | none => simp [hl] at h
  | some l =>
    by_cases hle : l = '='
    · simp [hl, hle] at h
    · generalize hhd : (Split arg '=').headD [] = a at h ⊢
      simp only [hl, hle] at h
      rcases a with _ | ⟨c0, _ | ⟨c1, rest⟩⟩
      · simp at h
      · by_cases hc0 : c0 = '-'
        · simp [hc0] at h
        · simp [hc0] at h
          obtain ⟨⟨h1, h2⟩, h3⟩ := h
          subst h1 h2 h3
          exact Or.inl ⟨rfl, rfl, rfl⟩
      · by_cases hc0 : c0 = '-'
        · by_cases hc1 : c1 = '-'
          · by_cases hr : rest = []
            · simp [hc0, hc1, hr] at h
              obtain ⟨⟨h1, h2⟩, h3⟩ := h
              subst h1 h2 h3
              exact Or.inl ⟨rfl, rfl, rfl⟩
            · simp [hc0, hc1, hr] at h
              cases hq : mapLookup rest cmd.flags with
              | none => simp [hq] at h
              | some q =>
                simp [hq] at h
                obtain ⟨⟨h1, h2⟩, h3⟩ := h
                subst h1 h2 h3
                exact Or.inr (Or.inl ⟨rfl, rfl, rest, q, by rw [hc0, hc1], hq, rfl⟩)
          · simp [hc0, hc1] at h
            cases hq : aliasFlags cmd (c1 :: rest) [] with
            | error e s => simp [hq] at h
            | ok fl =>
              simp [hq] at h
              obtain ⟨⟨h1, h2⟩, h3⟩ := h
              subst h1 h2 h3
              exact Or.inr (Or.inr ⟨rfl, rfl, c1, rest, by rw [hc0], hc1, hq⟩)
        · simp [hc0] at h
          obtain ⟨⟨h1, h2⟩, h3⟩ := h
          subst h1 h2 h3
          exact Or.inl ⟨rfl, rfl, rfl⟩

theorem mentions_long (cmd : flagable σ) (arg n : GoString) (q : Nat)
    (hhead : (Split arg '=').headD [] = '-' :: '-' :: n)
    (hq : mapLookup n cmd.flags = some q) : mentions cmd q arg = true := by
  unfold mentions
  simp only [hhead]
  simp [hq]

theorem mentions_short (cmd : flagable σ) (arg cs : GoString) (c d : Char) (q : Nat)
    (hhead : (Split arg '=').headD [] = '-' :: c :: cs) (hc : c ≠ '-')
    (hd : d ∈ c :: cs) (hq : mapLookup d cmd.aliases = some q) :
    mentions cmd q arg = true := by
  unfold mentions
  simp only [hhead]
  simp only [List.take, List.drop]
  have h1 : ¬ (['-', c] = ['-', '-']) := by simp [hc]
  simp only [h1, if_false, if_true, List.any_eq_true, decide_eq_true_eq]
  exact ⟨d, hd, hq⟩

theorem forall2_mem_right {α β : Type} {R : α → β → Prop} {l1 : List α} {l2 : List β}
    (h : List.Forall₂ R l1 l2) (b : β) (hb : b ∈ l2) : ∃ a ∈ l1, R a b := by
  induction h with
  | nil => simp at hb
  | cons hab _ ih =>
    rcases List.mem_cons.1 hb with e | e
    · exact ⟨_, by simp, e ▸ hab⟩
    · obtain ⟨a, ha, hr⟩ := ih e
      exact ⟨a, List.mem_cons_of_mem _ ha, hr⟩

/-- Every flag a token resolves to is named by the token and, in a well-formed registry, is
registered. -/
theorem flagFromArg_flags (cmd cmd1 : flagable σ) (arg : GoString) (isAlias : Bool)
    (flags : List Nat) (hnt : cmd.flagsTerminated = false)
    (h : flagFromArg cmd arg = .ok ((isAlias, flags), cmd1)) (q : Nat) (hq : q ∈ flags) :
    mentions cmd q arg = true ∧ (WF cmd → q ∈ cmd.flags.map Prod.snd) := by
  rcases flagFromArg_cases cmd cmd1 arg isAlias flags hnt h with
    ⟨-, -, e⟩ | ⟨-, -, n, q1, hh, hl, e⟩ | ⟨-, -, c, cs, hh, hc, ha⟩
  · rw [e] at hq; simp at hq
  · rw [e] at hq
    simp only [List.mem_singleton] at hq
    subst hq
    exact ⟨mentions_long cmd arg n q hh hl, fun _ => mem_snd_of_lookup n q _ hl⟩
  · obtain ⟨ps, e, hps⟩ := aliasFlags_ok cmd _ _ _ ha
    simp only [List.nil_append] at e
    subst e
    obtain ⟨d, hd, hdq⟩ := forall2_mem_right hps q hq
    refine ⟨mentions_short cmd arg cs c d q hh hc hd hdq, fun hwf => ?_⟩
    exact hwf.2.2.2.2.1 (d, q) (mapLookup_mem d q _ hdq)

/-! ## Assigning the flags of one token -/

theorem heap_of_mem (cmd : flagable σ) (hwf : WF cmd) (q : Nat)
    (hq : q ∈ cmd.flags.map Prod.snd) : ∃ f, cmd.heap[q]? = some f := by
  obtain ⟨np, hmem, e⟩ := List.mem_map.1 hq
  have h := hwf.2.2.2.1 np hmem
  rw [e] at h
  cases hg : cmd.heap[q]? with
  | none => rw [hg] at h; cases h
  | some f => exact ⟨f, rfl⟩

theorem setFlagValue_value (ops : ValueOps σ) (cmd : flagable σ) (q : Nat)
    (arg a v : GoString) (rest : List GoString) (hwf : WF cmd)
    (hq : q ∈ cmd.flags.map Prod.snd) (hs : Split arg '=' = a :: v :: rest) :
    setFlagValue ops cmd q arg = .ok (assign ops cmd q v) := by
  obtain ⟨e, he⟩ := setFlag_wf ops cmd q v hwf hq
  simp [setFlagValue, hs, he]

theorem setFlagValue_novalue (ops : ValueOps σ) (cmd : flagable σ) (q : Nat)
    (arg a : GoString) (f : Flag σ) (hwf : WF cmd)
    (hq : q ∈ cmd.flags.map Prod.snd) (hf : cmd.heap[q]? = some f)
    (hs : Split arg '=' = [a]) :
    setFlagValue ops cmd q arg =
      if selfSufficient ops f.value then .ok (assign ops cmd q "true".toList)
      else .error (.missingValue f.Name) cmd := by
  obtain ⟨e, he⟩ := setFlag_wf ops cmd q "true".toList hwf hq
  unfold setFlagValue selfSufficient
  simp only [hs, hf]
  split
  · simp only [he]
  · rfl

theorem setFlagValue_reach (ops : ValueOps σ) (cmd cmd2 : flagable σ) (q : Nat)
    (arg : GoString) (hwf : WF cmd) (hq : q ∈ cmd.flags.map Prod.snd)
    (h : setFlagValue ops cmd q arg = .ok cmd2) : ∃ v, cmd2 = assign ops cmd q v := by
  obtain ⟨f, hf⟩ := heap_of_mem cmd hwf q hq
  rcases hs : Split arg '=' with _ | ⟨a, _ | ⟨v, rest⟩⟩
  · exact absurd hs (Split_ne_nil _ _)
  · rw [setFlagValue_novalue ops cmd q arg a f hwf hq hf hs] at h
    split at h
    · simp only [Res.ok.injEq] at h
      exact ⟨_, h.symm⟩
    · cases h
  · rw [setFlagValue_value ops cmd q arg a v rest hwf hq hs] at h
    simp only [Res.ok.injEq] at h
    exact ⟨_, h.symm⟩

theorem setAliasLoop_reach (ops : ValueOps σ) (Q : Nat → Prop) (cmd cmd2 : flagable σ)
    (flags : List Nat) (hwf : WF cmd) (hq : ∀ q ∈ flags, q ∈ cmd.flags.map Prod.snd)
    (hQ : ∀ q ∈ flags, Q q) (h : setAliasLoop ops cmd flags = .ok cmd2) :
    Reach ops Q cmd cmd2 := by
  induction flags generalizing cmd with
  | nil =>
    simp only [setAliasLoop, Res.ok.injEq] at h
    rw [h]
    exact Reach.refl _
  | cons q rest ih =>
    have hq1 : q ∈ cmd.flags.map Prod.snd := hq q (by simp)
    obtain ⟨e, he⟩ := setFlag_wf ops cmd q "true".toList hwf hq1
    unfold setAliasLoop at h
    split at h
    · cases h
    · split at h
      · simp only [he] at h
        refine Reach.step cmd cmd2 q _ (hQ q (by simp)) (ih _ (WF_assign ops cmd q _ hwf hq1)
          ?_ (fun x hx => hQ x (List.mem_cons_of_mem _ hx)) h)
        intro x hx
        rw [(assign_flags ops cmd q _).1]
        exact hq x (List.mem_cons_of_mem _ hx)
      · cases h

theorem setAliasValues_reach (ops : ValueOps σ) (Q : Nat → Prop) (cmd cmd2 : flagable σ)
    (flags : List Nat) (arg : GoString) (hwf : WF cmd)
    (hq : ∀ q ∈ flags, q ∈ cmd.flags.map Prod.snd) (hQ : ∀ q ∈ flags, Q q)
    (h : setAliasValues ops cmd flags arg = .ok cmd2) : Reach ops Q cmd cmd2 := by
  unfold setAliasValues at h
  split at h
  · rename_i a v rest hs
    split at h
    · cases h
    · rename_i lastflag hlast
      have hmem : lastflag ∈ flags := List.mem_of_getLast?_eq_some hlast
      obtain ⟨e, he⟩ := setFlag_wf ops cmd lastflag v hwf (hq _ hmem)
      simp only [he] at h
      refine Reach.step cmd cmd2 lastflag v (hQ _ hmem) (setAliasLoop_reach ops Q _ cmd2
        flags.dropLast (WF_assign ops cmd _ _ hwf (hq _ hmem)) ?_
        (fun x hx => hQ x (List.dropLast_subset _ hx)) h)
      intro x hx
      rw [(assign_flags ops cmd lastflag v).1]
      exact hq x (List.dropLast_subset _ hx)
  · exact setAliasLoop_reach ops Q cmd cmd2 flags hwf hq hQ h

theorem assign_kind (ops : ValueOps σ) (cmd : flagable σ) (q : Nat) (v : GoString)
    (hkind : ∀ s x w, ops.Set s x = some w → selfSufficient ops w = selfSufficient ops s)
    (x : Nat) (g1 : Flag σ) (hg1 : (assign ops cmd q v).heap[x]? = some g1) :
    ∃ g0 : Flag σ, cmd.heap[x]? = some g0 ∧ g0.Name = g1.Name ∧
      selfSufficient ops g0.value = selfSufficient ops g1.value := by
  by_cases hxq : x = q
  · subst hxq
    cases hg : cmd.heap[x]? with
    | none =>
      have : (assign ops cmd x v) = cmd := by simp [assign, hg]
      rw [this, hg] at hg1
      cases hg1
    | some g =>
      cases hw : ops.Set g.value v with
      | none =>
        rw [assign_none ops cmd x _ g hg hw, hg] at hg1
        simp only [Option.some.injEq] at hg1
        exact ⟨g, rfl, by rw [hg1], by rw [hg1]⟩
      | some w =>
        rw [(assign_some ops cmd x _ g w hg hw).1] at hg1
        simp only [Option.some.injEq] at hg1
        refine ⟨g, rfl, by rw [← hg1], ?_⟩
        rw [← hg1]
        exact (hkind _ _ _ hw).symm
  · rw [assign_heap_ne ops cmd q x _ hxq] at hg1
    exact ⟨g1, hg1, rfl, rfl⟩

theorem assign_kind_rev (ops : ValueOps σ) (cmd : flagable σ) (q : Nat) (v : GoString)
    (hkind : ∀ s x w, ops.Set s x = some w → selfSufficient ops w = selfSufficient ops s)
    (x : Nat) (g0 : Flag σ) (hg0 : cmd.heap[x]? = some g0) :
    ∃ g1 : Flag σ, (assign ops cmd q v).heap[x]? = some g1 ∧ g0.Name = g1.Name ∧
      selfSufficient ops g0.value = selfSufficient ops g1.value := by
  by_cases hxq : x = q
  · subst hxq
    cases hw : ops.Set g0.value v with
    | none =>
      rw [assign_none ops cmd x _ g0 hg0 hw]
      exact ⟨g0, hg0, rfl, rfl⟩
    | some w =>
      exact ⟨_, (assign_some ops cmd x _ g0 w hg0 hw).1, rfl, (hkind _ _ _ hw).symm⟩
  · rw [assign_heap_ne ops cmd q x _ hxq]
    exact ⟨g0, hg0, rfl, rfl⟩

theorem setAliasValues_novalue (ops : ValueOps σ) (cmd : flagable σ) (ps : List Nat)
    (arg a : GoString) (hs : Split arg '=' = [a]) :
    setAliasValues ops cmd ps arg = setAliasLoop ops cmd ps := by
  simp [setAliasValues, hs]

theorem setAliasValues_value (ops : ValueOps σ) (cmd : flagable σ) (ps : List Nat) (pk : Nat)
    (arg a v : GoString) (rest : List GoString) (hwf : WF cmd)
    (hq : pk ∈ cmd.flags.map Prod.snd) (hs : Split arg '=' = a :: v :: rest) :
    setAliasValues ops cmd (ps ++ [pk]) arg = setAliasLoop ops (assign ops cmd pk v) ps := by
  obtain ⟨e, he⟩ := setFlag_wf ops cmd pk v hwf hq
  simp [setAliasValues, hs, he]

theorem setAliasLoop_cons_ok (ops : ValueOps σ) (cmd cmd1 : flagable σ) (q : Nat)
    (rest : List Nat) (g : Flag σ) (e : Option Err) (hg : cmd.heap[q]? = some g)
    (hs : selfSufficient ops g.value = true)
    (he : setFlag ops cmd q "true".toList = .ok (e, cmd1)) :
    setAliasLoop ops cmd (q :: rest) = setAliasLoop ops cmd1 rest := by
  unfold selfSufficient at hs
  rw [setAliasLoop]
  simp only [hg, hs, if_true, he]

theorem setAliasLoop_cons_fail (ops : ValueOps σ) (cmd : flagable σ) (q : Nat)
    (rest : List Nat) (g : Flag σ) (hg : cmd.heap[q]? = some g)
    (hs : selfSufficient ops g.value = false) :
    setAliasLoop ops cmd (q :: rest) = .error (.missingValue g.Name) cmd := by
  unfold selfSufficient at hs
  rw [setAliasLoop]
  simp [hg, hs]

theorem setAliasLoop_all (ops : ValueOps σ) (cmd : flagable σ) (ps : List Nat) (hwf : WF cmd)
    (hkind : ∀ s x w, ops.Set s x = some w → selfSufficient ops w = selfSufficient ops s)
    (htrue : ∀ s, selfSufficient ops s = true → (ops.Set s "true".toList).isSome)
    (hq : ∀ q ∈ ps, q ∈ cmd.flags.map Prod.snd)
    (hself : ∀ q ∈ ps, ∀ g, cmd.heap[q]? = some g → selfSufficient ops g.value = true) :
    ∃ cmd2, setAliasLoop ops cmd ps = .ok cmd2 ∧ Reach ops (fun q => q ∈ ps) cmd cmd2 ∧
      ∀ q ∈ ps, SetTo ops cmd2 q "true".toList := by
  induction ps generalizing cmd with
  | nil => exact ⟨cmd, rfl, Reach.refl _, by simp⟩
  | cons q rest ih =>
    have hq1 : q ∈ cmd.flags.map Prod.snd := hq q (by simp)
    obtain ⟨g, hg⟩ := heap_of_mem cmd hwf q hq1
    have hs := hself q (by simp) g hg
    obtain ⟨e, he⟩ := setFlag_wf ops cmd q "true".toList hwf hq1
    obtain ⟨w, hw⟩ := Option.isSome_iff_exists.1 (htrue g.value hs)
    obtain ⟨a1, a2⟩ := assign_some ops cmd q _ g w hg hw
    obtain ⟨cmd2, h2, hr, hall⟩ := ih (assign ops cmd q "true".toList)
      (WF_assign ops cmd q _ hwf hq1)
      (fun x hx => by
        rw [(assign_flags ops cmd q _).1]
        exact hq x (List.mem_cons_of_mem _ hx))
      (fun x hx g1 hg1 => by
        by_cases hxq : x = q
        · subst hxq
          rw [a1] at hg1
          simp only [Option.some.injEq] at hg1
          rw [← hg1]
          exact (hkind _ _ _ hw).trans hs
        · rw [assign_heap_ne ops cmd q x _ hxq] at hg1
          exact hself x (List.mem_cons_of_mem _ hx) g1 hg1)
    refine ⟨cmd2, ?_, ?_, ?_⟩
    · rw [setAliasLoop_cons_ok ops cmd _ q rest g e hg hs he]
      exact h2
    · exact Reach.step cmd cmd2 q _ (by simp)
        (hr.mono (fun x hx => List.mem_cons_of_mem _ hx))
    · intro x hx
      by_cases hxr : x ∈ rest
      · exact hall x hxr
      · have hxq : x = q := by
          rcases List.mem_cons.1 hx with e1 | e1
          · exact e1
          · exact absurd e1 hxr
        subst hxq
        have hk := hr.keeps x hxr
        exact ⟨hk.2.2 a2, _, g.value, hk.1.trans a1, hw⟩

theorem setAliasLoop_fail (ops : ValueOps σ) (cmd : flagable σ) (ps : List Nat) (hwf : WF cmd)
    (hkind : ∀ s x w, ops.Set s x = some w → selfSufficient ops w = selfSufficient ops s)
    (hq : ∀ q ∈ ps, q ∈ cmd.flags.map Prod.snd)
    (hbad : ∃ q ∈ ps, ∃ g, cmd.heap[q]? = some g ∧ selfSufficient ops g.value = false) :
    ∃ q ∈ ps, ∃ g s, cmd.heap[q]? = some g ∧ selfSufficient ops g.value = false ∧
      setAliasLoop ops cmd ps = .error (.missingValue g.Name) s := by
  induction ps generalizing cmd with
  | nil => simp at hbad
  | cons q rest ih =>
    have hq1 : q ∈ cmd.flags.map Prod.snd := hq q (by simp)
    obtain ⟨g, hg⟩ := heap_of_mem cmd hwf q hq1
    cases hs : selfSufficient ops g.value with
    | false =>
      exact ⟨q, by simp, g, cmd, hg, hs, setAliasLoop_cons_fail ops cmd q rest g hg hs⟩
    | true =>
      obtain ⟨e, he⟩ := setFlag_wf ops cmd q "true".toList hwf hq1
      have hsame := assign_kind ops cmd q "true".toList hkind
      obtain ⟨b, hb, gb, hgb, hsb⟩ := hbad
      have hbr : b ∈ rest := by
        rcases List.mem_cons.1 hb with e1 | e1
        · subst e1
          rw [hg] at hgb
          simp only [Option.some.injEq] at hgb
          rw [hgb, hsb] at hs
          cases hs
        · exact e1
      have hbq : b ≠ q := by
        intro e1
        subst e1
        rw [hg] at hgb
        simp only [Option.some.injEq] at hgb
        rw [hgb, hsb] at hs
        cases hs
      obtain ⟨x, hx, g1, s, hg1, hs1, herr⟩ := ih (assign ops cmd q "true".toList)
        (WF_assign ops cmd q _ hwf hq1)
        (fun x hx => by
          rw [(assign_flags ops cmd q _).1]
          exact hq x (List.mem_cons_of_mem _ hx))
        ⟨b, hbr, gb, (assign_heap_ne ops cmd q b _ hbq).trans hgb, hsb⟩
      obtain ⟨g0, hg0, hn0, hs0⟩ := hsame x g1 hg1
      refine ⟨x, List.mem_cons_of_mem _ hx, g0, s, hg0, hs0.trans hs1, ?_⟩
      rw [hn0, setAliasLoop_cons_ok ops cmd _ q rest g e hg hs he]
      exact herr

/-! ## The scanning loop -/

theorem mentions_congr (cmd cmd2 : flagable σ) (p : Nat) (t : GoString)
    (h1 : cmd2.flags = cmd.flags) (h2 : cmd2.aliases = cmd.aliases) :
    mentions cmd2 p t = mentions cmd p t := by
  unfold mentions
  rw [h1, h2]

theorem flagFromArg_state (cmd cmd1 : flagable σ) (arg : GoString) (isAlias : Bool)
    (flags : List Nat) (h : flagFromArg cmd arg = .ok ((isAlias, flags), cmd1)) :
    cmd1 = cmd ∨ (cmd.flagsTerminated = false ∧ cmd1 = { cmd with flagsTerminated := true }) := by
  cases hnt : cmd.flagsTerminated with
  | true =>
    rw [flagFromArg_terminated cmd arg hnt] at h
    simp only [Res.ok.injEq, Prod.mk.injEq] at h
    exact Or.inl h.2.symm
  | false =>
    rcases flagFromArg_cases cmd cmd1 arg isAlias flags hnt h with
      ⟨e, -, -⟩ | ⟨e, -, -⟩ | ⟨e, -, -⟩
    · exact Or.inr ⟨rfl, e⟩
    · exact Or.inl e
    · exact Or.inl e

/-- On a well-formed registry the loop only assigns registered flags that a token names. -/
theorem parseLoop_reach (ops : ValueOps σ) (avoid : List Nat) (cmd cmd2 : flagable σ)
    (args rest : List GoString) (hwf : WF cmd)
    (hav : ∀ t ∈ args, ∀ p ∈ avoid, mentions cmd p t = false)
    (h : parseLoop ops cmd args = .ok (rest, cmd2)) :
    Reach ops (fun q => q ∈ cmd.flags.map Prod.snd ∧ q ∉ avoid) cmd cmd2 := by
  induction args generalizing cmd with
  | nil =>
    simp only [parseLoop, Res.ok.injEq, Prod.mk.injEq] at h
    rw [← h.2]
    exact Reach.refl _
  | cons arg rest0 ih =>
    unfold parseLoop at h
    cases hf : flagFromArg cmd arg with
    | error e s => simp [hf] at h
    | ok x =>
      obtain ⟨⟨isAlias, flags⟩, cmd1⟩ := x
      simp only [hf] at h
      cases ht : cmd1.flagsTerminated with
      | true =>
        simp only [ht, if_true, Res.ok.injEq, Prod.mk.injEq] at h
        rw [← h.2]
        rcases flagFromArg_state cmd cmd1 arg isAlias flags hf with e | ⟨-, e⟩
        · rw [e]; exact Reach.refl _
        · rw [e]; exact Reach.stop _ _ (Reach.refl _)
      | false =>
        have hnt : cmd.flagsTerminated = false := by
          rcases flagFromArg_state cmd cmd1 arg isAlias flags hf with e | ⟨e, -⟩
          · rw [← e]; exact ht
          · exact e
        have hc1 : cmd1 = cmd := by
          rcases flagFromArg_state cmd cmd1 arg isAlias flags hf with e | ⟨-, e⟩
          · exact e
          · rw [e] at ht; cases ht
        subst hc1
        have hfl := flagFromArg_flags cmd1 cmd1 arg isAlias flags hnt hf
        have hq : ∀ q ∈ flags, q ∈ cmd1.flags.map Prod.snd := fun q hq => (hfl q hq).2 hwf
        have hQ : ∀ q ∈ flags, q ∈ cmd1.flags.map Prod.snd ∧ q ∉ avoid := by
          intro q hqf
          refine ⟨hq q hqf, fun hqa => ?_⟩
          have h1 := hav arg (by simp) q hqa
          rw [(hfl q hqf).1] at h1
          cases h1
        simp only [ht, Bool.false_eq_true, if_false] at h
        have key : ∀ cmd3, Reach ops (fun q => q ∈ cmd1.flags.map Prod.snd ∧ q ∉ avoid) cmd1 cmd3 →
            parseLoop ops cmd3 rest0 = .ok (rest, cmd2) →
            Reach ops (fun q => q ∈ cmd1.flags.map Prod.snd ∧ q ∉ avoid) cmd1 cmd2 := by
          intro cmd3 hr h3
          have hm := hr.maps
          have := ih cmd3 (hr.wf (fun q hq => hq.1) hwf)
            (fun t ht p hp => by
              rw [mentions_congr cmd1 cmd3 p t hm.1 hm.2.1]
              exact hav t (List.mem_cons_of_mem _ ht) p hp) h3
          rw [hm.1] at this
          exact hr.trans this
        cases isAlias with
        | true =>
          simp only [if_true] at h
          cases hs : setAliasValues ops cmd1 flags arg with
          | error e s => simp [hs] at h
          | ok cmd3 =>
            simp only [hs] at h
            exact key cmd3 (setAliasValues_reach ops _ cmd1 cmd3 flags arg hwf hq hQ hs) h
        | false =>
          simp only [Bool.false_eq_true, if_false] at h
          cases flags with
          | nil => simp at h
          | cons flag fl =>
            simp only at h
            cases hs : setFlagValue ops cmd1 flag arg with
            | error e s => simp [hs] at h
            | ok cmd3 =>
              simp only [hs] at h
              obtain ⟨v, hv⟩ := setFlagValue_reach ops cmd1 cmd3 flag arg hwf
                (hq flag (by simp)) hs
              refine key cmd3 ?_ h
              rw [hv]
              exact Reach.one ops _ cmd1 flag v (hQ flag (by simp))

theorem last_ne_of_suffix (pre v : GoString) (hv : v ≠ []) (hve : '=' ∉ v) :
    (pre ++ v).getLast? ≠ some '=' := by
  rw [List.getLast?_append_of_ne_nil _ hv]
  exact fun h => hve (List.mem_of_getLast?_eq_some h)

theorem parseLoop_long (ops : ValueOps σ) (cmd : flagable σ) (arg n : GoString)
    (rest : List GoString) (q : Nat) (hnt : cmd.flagsTerminated = false)
    (hlast : arg.getLast? ≠ some '=') (hhead : (Split arg '=').headD [] = '-' :: '-' :: n)
    (hn : n ≠ []) (hq : mapLookup n cmd.flags = some q) :
    parseLoop ops cmd (arg :: rest) =
      match setFlagValue ops cmd q arg with
      | .error e s => .error e s
      | .ok cmd2 => parseLoop ops cmd2 rest := by
  have h := flagFromArg_long cmd arg n hnt hlast hhead hn
  simp only [hq] at h
  simp [parseLoop, h, hnt]

theorem parseLoop_long_unknown (ops : ValueOps σ) (cmd : flagable σ) (arg n : GoString)
    (rest : List GoString) (hnt : cmd.flagsTerminated = false)
    (hlast : arg.getLast? ≠ some '=') (hhead : (Split arg '=').headD [] = '-' :: '-' :: n)
    (hn : n ≠ []) (hq : mapLookup n cmd.flags = none) :
    parseLoop ops cmd (arg :: rest) = .error .invalidFlag cmd := by
  have h := flagFromArg_long cmd arg n hnt hlast hhead hn
  simp only [hq] at h
  simp [parseLoop, h]

theorem parseLoop_short (ops : ValueOps σ) (cmd : flagable σ) (arg cs : GoString) (c : Char)
    (rest : List GoString) (ps : List Nat) (hnt : cmd.flagsTerminated = false)
    (hlast : arg.getLast? ≠ some '=') (hhead : (Split arg '=').headD [] = '-' :: c :: cs)
    (hc : c ≠ '-')
    (hps : List.Forall₂ (fun c p => mapLookup c cmd.aliases = some p) (c :: cs) ps) :
    parseLoop ops cmd (arg :: rest) =
      match setAliasValues ops cmd ps arg with
      | .error e s => .error e s
      | .ok cmd2 => parseLoop ops cmd2 rest := by
  have h := flagFromArg_short cmd arg cs c hnt hlast hhead hc
  rw [aliasFlags_of_forall cmd (c :: cs) ps [] hps] at h
  simp only [List.nil_append] at h
  simp [parseLoop, h, hnt]

theorem parseLoop_short_unknown (ops : ValueOps σ) (cmd : flagable σ) (arg cs : GoString)
    (c : Char) (rest : List GoString) (hnt : cmd.flagsTerminated = false)
    (hlast : arg.getLast? ≠ some '=') (hhead : (Split arg '=').headD [] = '-' :: c :: cs)
    (hc : c ≠ '-') (hun : ∃ d ∈ c :: cs, mapLookup d cmd.aliases = none) :
    ∃ d ∈ c :: cs, mapLookup d cmd.aliases = none ∧
      parseLoop ops cmd (arg :: rest) = .error (.invalidAlias d) cmd := by
  have h := flagFromArg_short cmd arg cs c hnt hlast hhead hc
  obtain ⟨d, hd, hdn, e⟩ := aliasFlags_error cmd (c :: cs) [] hun
  rw [e] at h
  exact ⟨d, hd, hdn, by simp [parseLoop, h]⟩

theorem parseLoop_stop (ops : ValueOps σ) (cmd cmd1 : flagable σ) (arg : GoString)
    (rest : List GoString) (isAlias : Bool) (flags : List Nat)
    (h : flagFromArg cmd arg = .ok ((isAlias, flags), cmd1))
    (ht : cmd1.flagsTerminated = true) :
    parseLoop ops cmd (arg :: rest) = .ok (arg :: rest, cmd1) := by
  simp [parseLoop, h, ht]

/-! ## What the scan leaves alone, on any registry -/

theorem setFlag_frame (ops : ValueOps σ) (cmd cmd1 : flagable σ) (q : Nat) (v : GoString)
    (e : Option Err) (h : setFlag ops cmd q v = .ok (e, cmd1)) :
    cmd1.flags = cmd.flags ∧ cmd1.aliases = cmd.aliases ∧
      cmd1.flagsTerminated = cmd.flagsTerminated := by
  unfold setFlag at h
  split at h
  · cases h
  · split at h
    · cases h
    · split at h
      · cases h
      · split at h <;>
        · simp only [Res.ok.injEq, Prod.mk.injEq] at h
          rw [← h.2]
          exact ⟨rfl, rfl, rfl⟩

theorem setFlagValue_frame (ops : ValueOps σ) (cmd cmd1 : flagable σ) (q : Nat)
    (arg : GoString) (h : setFlagValue ops cmd q arg = .ok cmd1) :
    cmd1.flags = cmd.flags ∧ cmd1.aliases = cmd.aliases ∧
      cmd1.flagsTerminated = cmd.flagsTerminated := by
  unfold setFlagValue at h
  split at h
  · split at h
    · cases h
    · rename_i e c2 h2
      simp only [Res.ok.injEq] at h
      exact h ▸ setFlag_frame ops cmd c2 q _ e h2
  · split at h
    · cases h
    · split at h
      · split at h
        · cases h
        · rename_i e c2 h2
          simp only [Res.ok.injEq] at h
          exact h ▸ setFlag_frame ops cmd c2 q _ e h2
      · cases h

theorem setAliasLoop_frame (ops : ValueOps σ) (cmd cmd1 : flagable σ) (ps : List Nat)
    (h : setAliasLoop ops cmd ps = .ok cmd1) :
    cmd1.flags = cmd.flags ∧ cmd1.aliases = cmd.aliases ∧
      cmd1.flagsTerminated = cmd.flagsTerminated := by
  induction ps generalizing cmd with
  | nil =>
    simp only [setAliasLoop, Res.ok.injEq] at h
    exact h ▸ ⟨rfl, rfl, rfl⟩
  | cons q rest ih =>
    unfold setAliasLoop at h
    split at h
    · cases h
    · split at h
      · split at h
        · cases h
        · rename_i e c2 h2
          obtain ⟨a1, a2, a3⟩ := setFlag_frame ops cmd c2 q _ e h2
          obtain ⟨b1, b2, b3⟩ := ih c2 h
          exact ⟨b1.trans a1, b2.trans a2, b3.trans a3⟩
      · cases h

theorem setAliasValues_frame (ops : ValueOps σ) (cmd cmd1 : flagable σ) (ps : List Nat)
    (arg : GoString) (h : setAliasValues ops cmd ps arg = .ok cmd1) :
    cmd1.flags = cmd.flags ∧ cmd1.aliases = cmd.aliases ∧
      cmd1.flagsTerminated = cmd.flagsTerminated := by
  unfold setAliasValues at h
  split at h
  · split at h
    · cases h
    · split at h
      · cases h
      · rename_i e c2 h2
        obtain ⟨a1, a2, a3⟩ := setFlag_frame ops cmd c2 _ _ e h2
        obtain ⟨b1, b2, b3⟩ := setAliasLoop_frame ops c2 cmd1 _ h
        exact ⟨b1.trans a1, b2.trans a2, b3.trans a3⟩
  · exact setAliasLoop_frame ops cmd cmd1 ps h

/-- One turn of the loop on a token that does not stop the scan. -/
theorem parseLoop_turn (ops : ValueOps σ) (cmd : flagable σ) (arg : GoString)
    (F : List GoString) (x : List GoString × flagable σ)
    (h : parseLoop ops cmd (arg :: F) = .ok x) :
    (x.1 = arg :: F) ∨
    (cmd.flagsTerminated = false ∧ ∃ cmd2, cmd2.flags = cmd.flags ∧ cmd2.aliases = cmd.aliases ∧
      cmd2.flagsTerminated = false ∧ parseLoop ops cmd2 F = .ok x ∧
      ∀ G, parseLoop ops cmd (arg :: (F ++ G)) = parseLoop ops cmd2 (F ++ G)) := by
  unfold parseLoop at h
  cases hf : flagFromArg cmd arg with
  | error e s => simp [hf] at h
  | ok y =>
    obtain ⟨⟨isAlias, flags⟩, cmd1⟩ := y
    simp only [hf] at h
    cases ht : cmd1.flagsTerminated with
    | true =>
      simp only [ht, if_true, Res.ok.injEq] at h
      exact Or.inl (by rw [← h])
    | false =>
      have hnt : cmd.flagsTerminated = false := by
        rcases flagFromArg_state cmd cmd1 arg isAlias flags hf with e | ⟨e, -⟩
        · rw [← e]; exact ht
        · exact e
      have hc1 : cmd1 = cmd := by
        rcases flagFromArg_state cmd cmd1 arg isAlias flags hf with e | ⟨-, e⟩
        · exact e
        · rw [e] at ht; cases ht
      subst hc1
      simp only [ht, Bool.false_eq_true, if_false] at h
      refine Or.inr ⟨hnt, ?_⟩
      cases isAlias with
      | true =>
        simp only [if_true] at h
        cases hs : setAliasValues ops cmd1 flags arg with
        | error e s => simp [hs] at h
        | ok cmd3 =>
          simp only [hs] at h
          obtain ⟨a1, a2, a3⟩ := setAliasValues_frame ops cmd1 cmd3 flags arg hs
          refine ⟨cmd3, a1, a2, a3.trans ht, h, fun G => ?_⟩
          rw [parseLoop]
          simp [hf, ht, hs]
      | false =>
        simp only [Bool.false_eq_true, if_false] at h
        cases flags with
        | nil => simp at h
        | cons flag fl =>
          simp only at h
          cases hs : setFlagValue ops cmd1 flag arg with
          | error e s => simp [hs] at h
          | ok cmd3 =>
            simp only [hs] at h
            obtain ⟨a1, a2, a3⟩ := setFlagValue_frame ops cmd1 cmd3 flag arg hs
            refine ⟨cmd3, a1, a2, a3.trans ht, h, fun G => ?_⟩
            rw [parseLoop]
            simp [hf, ht, hs]

/-- A list of tokens that the loop consumes whole is a list of flag tokens: the scan of a
longer list goes on after it, from the registry it leaves, with the same flags and aliases
and still not terminated. -/
theorem parseLoop_append (ops : ValueOps σ) (cmd cmd3 : flagable σ) (F : List GoString)
    (h : parseLoop ops cmd F = .ok ([], cmd3)) :
    (∀ G, parseLoop ops cmd (F ++ G) = parseLoop ops cmd3 G) ∧
    cmd3.flags = cmd.flags ∧ cmd3.aliases = cmd.aliases ∧
    (cmd.flagsTerminated = false → cmd3.flagsTerminated = false) := by
  induction F generalizing cmd with
  | nil =>
    simp only [parseLoop, Res.ok.injEq, Prod.mk.injEq, true_and] at h
    subst h
    exact ⟨fun G => rfl, rfl, rfl, fun h => h⟩
  | cons arg F ih =>
    rcases parseLoop_turn ops cmd arg F _ h with e | ⟨hnt, cmd2, a1, a2, a3, h2, hG⟩
    · cases e
    · obtain ⟨b1, b2, b3, b4⟩ := ih cmd2 h2
      refine ⟨fun G => ?_, b2.trans a1, b3.trans a2, fun _ => b4 a3⟩
      rw [List.cons_append, hG G, b1 G]

theorem setFlagDefaultsLoop_frame (ops : ValueOps σ) (cmd cmd1 : flagable σ)
    (l : List (GoString × Nat)) (h : setFlagDefaultsLoop ops cmd l = .ok cmd1) :
    cmd1.flags = cmd.flags ∧ cmd1.aliases = cmd.aliases ∧
      cmd1.flagsTerminated = cmd.flagsTerminated := by
  induction l generalizing cmd with
  | nil =>
    simp only [setFlagDefaultsLoop, Res.ok.injEq] at h
    exact h ▸ ⟨rfl, rfl, rfl⟩
  | cons np rest ih =>
    obtain ⟨n, q⟩ := np
    unfold setFlagDefaultsLoop at h
    split at h
    · cases h
    · exact ih cmd h
    · split at h
      · cases h
      · split at h
        · cases h
        · rename_i e c2 h2
          obtain ⟨a1, a2, a3⟩ := setFlag_frame ops cmd c2 q _ e h2
          obtain ⟨b1, b2, b3⟩ := ih c2 h
          exact ⟨b1.trans a1, b2.trans a2, b3.trans a3⟩

theorem token_head (pre sfx : GoString) (hpre : '=' ∉ pre) (hs : valueSuffix sfx) :
    (Split (pre ++ sfx) '=').headD [] = pre := by
  rcases hs with e | ⟨v, e, -, -⟩
  · subst e
    rw [List.append_nil, Split_of_not_mem pre '=' hpre]
    rfl
  · subst e
    rw [Split_append_sep pre v '=' hpre]
    rfl

theorem token_last (pre sfx : GoString) (hpre : '=' ∉ pre) (hne : pre ≠ [])
    (hs : valueSuffix sfx) : (pre ++ sfx).getLast? ≠ some '=' := by
  rcases hs with e | ⟨v, e, hv, hl⟩
  · subst e
    simpa using last_ne_of_suffix [] pre hne hpre
  · subst e
    have : pre ++ '=' :: v = (pre ++ ['=']) ++ v := by simp
    rw [this, List.getLast?_append_of_ne_nil _ hv]
    exact hl

/-! ## The defaults -/

theorem setFlagDefaultsLoop_spec (ops : ValueOps σ) (cmd : flagable σ)
    (l : List (GoString × Nat)) (hwf : WF cmd) (hl : ∀ np ∈ l, np ∈ cmd.flags)
    (hnd : (l.map Prod.snd).Nodup) :
    ∃ cmd2, setFlagDefaultsLoop ops cmd l = .ok cmd2 ∧
      Reach ops (fun q => q ∈ l.map Prod.snd ∧ q ∉ cmd.flagValues) cmd cmd2 ∧
      ∀ q ∈ l.map Prod.snd, q ∉ cmd.flagValues → ∀ f, cmd.heap[q]? = some f →
        (∀ w, ops.Set f.value f.DefValue = some w →
          cmd2.heap[q]? = some { f with value := w } ∧ q ∈ cmd2.flagValues) ∧
        (ops.Set f.value f.DefValue = none → cmd2.heap[q]? = some f ∧ q ∉ cmd2.flagValues) := by
  induction l generalizing cmd with
  | nil => exact ⟨cmd, rfl, Reach.refl _, by simp⟩
  | cons np rest ih =>
    obtain ⟨n, q⟩ := np
    have hmem : (n, q) ∈ cmd.flags := hl _ (by simp)
    have hq : q ∈ cmd.flags.map Prod.snd := List.mem_map.2 ⟨_, hmem, rfl⟩
    have hlk := mapLookup_of_mem n q cmd.flags hwf.1 hmem
    obtain ⟨f, hf⟩ := heap_of_mem cmd hwf q hq
    simp only [List.map_cons, List.nodup_cons] at hnd
    by_cases hfv : q ∈ cmd.flagValues
    · obtain ⟨cmd2, h2, hr, h3⟩ := ih cmd hwf (fun x hx => hl x (List.mem_cons_of_mem _ hx)) hnd.2
      refine ⟨cmd2, ?_, ?_, ?_⟩
      · simp [setFlagDefaultsLoop, flagable.Flag, hlk, hfv, hf, h2]
      · exact hr.mono (fun x hx => ⟨by simp [hx.1], hx.2⟩)
      · intro x hx hxfv
        have hxq : x ≠ q := fun e => hxfv (e ▸ hfv)
        simp only [List.map_cons, List.mem_cons, hxq, false_or] at hx
        exact h3 x hx hxfv
    · obtain ⟨e, he⟩ := setFlag_wf ops cmd q f.DefValue hwf hq
      have hwf1 := WF_assign ops cmd q f.DefValue hwf hq
      obtain ⟨cmd2, h2, hr, h3⟩ := ih (assign ops cmd q f.DefValue) hwf1
        (fun x hx => by
          rw [(assign_flags ops cmd q f.DefValue).1]
          exact hl x (List.mem_cons_of_mem _ hx)) hnd.2
      have hkeep := hr.keeps q (fun hx => hnd.1 hx.1)
      refine ⟨cmd2, ?_, ?_, ?_⟩
      · simp [setFlagDefaultsLoop, flagable.Flag, hlk, hfv, hf, he, h2]
      · refine Reach.step cmd cmd2 q f.DefValue ⟨by simp, hfv⟩ (hr.mono ?_)
        intro x hx
        exact ⟨by simp [hx.1], fun hxc => hx.2 (assign_mono ops cmd q x _ hxc)⟩
      · intro x hx hxfv g hg
        by_cases hxq : x = q
        · subst hxq
          rw [hf] at hg
          simp only [Option.some.injEq] at hg
          subst hg
          constructor
          · intro w hw
            obtain ⟨a1, a2⟩ := assign_some ops cmd x f.DefValue f w hf hw
            exact ⟨hkeep.1.trans a1, hkeep.2.2 a2⟩
          · intro hw
            rw [assign_none ops cmd x f.DefValue f hf hw] at hkeep
            exact ⟨hkeep.1.trans hf, fun hc => hfv (hkeep.2.1 hc)⟩
        · simp only [List.map_cons, List.mem_cons, hxq, false_or] at hx
          exact h3 x hx (fun hc => hxfv ((assign_mem_ne ops cmd q x _ hxq).1 hc)) g
            ((assign_heap_ne ops cmd q x _ hxq).trans hg)

/-- On a well-formed registry setFlagDefaults never aborts; it leaves the flags that have a
parsed value as they are and sets every other flag from its default string. -/
theorem setFlagDefaults_spec (ops : ValueOps σ) (cmd : flagable σ) (hwf : WF cmd) :
    ∃ cmd2, setFlagDefaults ops cmd = .ok cmd2 ∧
      Reach ops (fun q => q ∈ cmd.flags.map Prod.snd ∧ q ∉ cmd.flagValues) cmd cmd2 ∧
      ∀ q ∈ cmd.flags.map Prod.snd, q ∉ cmd.flagValues → ∀ f, cmd.heap[q]? = some f →
        (∀ w, ops.Set f.value f.DefValue = some w →
          cmd2.heap[q]? = some { f with value := w } ∧ q ∈ cmd2.flagValues) ∧
        (ops.Set f.value f.DefValue = none → cmd2.heap[q]? = some f ∧ q ∉ cmd2.flagValues) :=
  setFlagDefaultsLoop_spec ops cmd cmd.flags hwf (fun _ h => h) hwf.2.1

theorem setFlag_terminate (ops : ValueOps σ) (cmd cmd1 : flagable σ) (q : Nat) (v : GoString)
    (e : Option Err) (h : setFlag ops cmd q v = .ok (e, cmd1)) :
    setFlag ops { cmd with flagsTerminated := true } q v =
      .ok (e, { cmd1 with flagsTerminated := true }) := by
  unfold setFlag at h ⊢
  simp only at h ⊢
  cases hf : cmd.heap[q]? with
  | none => simp [hf] at h
  | some f =>
    simp only [hf] at h ⊢
    cases hq1 : mapLookup f.Name cmd.flags with
    | none => simp [hq1] at h
    | some q1 =>
      simp only [hq1] at h ⊢
      cases hg : cmd.heap[q1]? with
      | none => simp [hg] at h
      | some g =>
        simp only [hg] at h ⊢
        cases hw : ops.Set g.value v with
        | none =>
          simp only [hw, Res.ok.injEq, Prod.mk.injEq] at h ⊢
          exact ⟨h.1, by rw [← h.2]⟩
        | some w =>
          simp only [hw, Res.ok.injEq, Prod.mk.injEq] at h ⊢
          exact ⟨h.1, by rw [← h.2]⟩

theorem setFlagDefaultsLoop_terminate (ops : ValueOps σ) (cmd cmd1 : flagable σ)
    (l : List (GoString × Nat)) (h : setFlagDefaultsLoop ops cmd l = .ok cmd1) :
    setFlagDefaultsLoop ops { cmd with flagsTerminated := true } l =
      .ok { cmd1 with flagsTerminated := true } := by
  induction l generalizing cmd with
  | nil =>
    simp only [setFlagDefaultsLoop, Res.ok.injEq] at h ⊢
    rw [h]
  | cons np rest ih =>
    obtain ⟨n, q⟩ := np
    unfold setFlagDefaultsLoop at h ⊢
    unfold flagable.Flag at h ⊢
    simp only at h ⊢
    cases hl : mapLookup n cmd.flags with
    | none => simp [hl] at h
    | some p =>
      simp only [hl] at h ⊢
      by_cases hp : p ∈ cmd.flagValues
      · simp only [hp, if_true] at h ⊢
        cases hg : cmd.heap[p]? with
        | none => simp [hg] at h
        | some g =>
          simp only [hg] at h ⊢
          exact ih cmd h
      · simp only [hp, if_false] at h ⊢
        cases hg : cmd.heap[q]? with
        | none => simp [hg] at h
        | some g =>
          simp only [hg] at h ⊢
          cases hs : setFlag ops cmd q g.DefValue with
          | error e s => simp [hs] at h
          | ok x =>
            obtain ⟨e, c2⟩ := x
            simp only [hs] at h
            rw [setFlag_terminate ops cmd c2 q _ e hs]
            exact ih c2 h

theorem setFlagDefaults_terminate (ops : ValueOps σ) (cmd cmd1 : flagable σ)
    (h : setFlagDefaults ops cmd = .ok cmd1) :
    setFlagDefaults ops { cmd with flagsTerminated := true } =
      .ok { cmd1 with flagsTerminated := true } :=
  setFlagDefaultsLoop_terminate ops cmd cmd1 cmd.flags h

/-! ## parse as a whole -/

/-- The three phases of a successful parse. -/
theorem parse_ok (ops : ValueOps σ) (r r2 : flagable σ) (args rest : List GoString)
    (h : parse ops r args = .ok (rest, r2)) :
    ∃ r1 r3, prepare ops r = .ok r1 ∧ parseLoop ops r1 args = .ok (rest, r3) ∧
      setFlagDefaults ops r3 = .ok r2 := by
  unfold parse at h
  split at h
  · cases h
  · rename_i r1 h1
    split at h
    · cases h
    · rename_i rest1 r3 h3
      split at h
      · cases h
      · rename_i r4 h4
        simp only [Res.ok.injEq, Prod.mk.injEq] at h
        obtain ⟨e1, e2⟩ := h
        subst e1 e2
        exact ⟨r1, r3, h1, h3, h4⟩

theorem parse_of_phases (ops : ValueOps σ) (r r1 r2 r3 : flagable σ)
    (args rest : List GoString) (h1 : prepare ops r = .ok r1)
    (h3 : parseLoop ops r1 args = .ok (rest, r3)) (h4 : setFlagDefaults ops r3 = .ok r2) :
    parse ops r args = .ok (rest, r2) := by
  simp [parse, h1, h3, h4]

theorem length_eq_of_nodup_of_mem_iff {l1 l2 : List Nat} (h1 : l1.Nodup) (h2 : l2.Nodup)
    (h : ∀ a, a ∈ l1 ↔ a ∈ l2) : l1.length = l2.length :=
  ((List.perm_ext_iff_of_nodup h1 h2).2 h).length_eq

/-- After the automatic definitions and a scan that did not abort, parse completes: the
defaults never abort on a well-formed registry. -/
theorem parse_finish (ops : ValueOps σ) (r r1 r3 : flagable σ) (args rest : List GoString)
    (hwf3 : WF r3) (h1 : prepare ops r = .ok r1)
    (h3 : parseLoop ops r1 args = .ok (rest, r3)) :
    ∃ r2, parse ops r args = .ok (rest, r2) ∧
      Reach ops (fun q => q ∈ r3.flags.map Prod.snd ∧ q ∉ r3.flagValues) r3 r2 := by
  obtain ⟨r2, h4, hr, -⟩ := setFlagDefaults_spec ops r3 hwf3
  exact ⟨r2, parse_of_phases ops r r1 r2 r3 args rest h1 h3 h4, hr⟩

theorem Flag_of_heap (cmd : flagable σ) (n : GoString) (p : Nat) (f : Flag σ)
    (hn : mapLookup n cmd.flags = some p) (hp : p ∈ cmd.flagValues)
    (hf : cmd.heap[p]? = some f) : flagable.Flag cmd n = .ok (some f.value) := by
  simp [flagable.Flag, hn, hp, hf]

/-- A token on which the scan stops, after tokens that parse consumes whole: parse returns
the token and everything behind it, in the registry that the parse of the consumed tokens
alone leaves, now terminated. -/
theorem parse_stop (ops : ValueOps σ) (r rF : flagable σ) (F R : List GoString)
    (t : GoString) (hF : parse ops r F = .ok ([], rF))
    (ht : ∀ cmd : flagable σ, cmd.flagsTerminated = false →
      flagFromArg cmd t = .ok ((false, []), { cmd with flagsTerminated := true })) :
    parse ops r (F ++ t :: R) = .ok (t :: R, { rF with flagsTerminated := true }) := by
  obtain ⟨r1, r3, h1, h3, h4⟩ := parse_ok ops r rF F [] hF
  obtain ⟨hG, -, -, -⟩ := parseLoop_append ops r1 r3 F h3
  have hloop : parseLoop ops r1 (F ++ t :: R) =
      .ok (t :: R, { r3 with flagsTerminated := true }) := by
    rw [hG]
    cases hnt : r3.flagsTerminated with
    | true =>
      have e : ({ r3 with flagsTerminated := true } : flagable σ) = r3 := by
        cases r3
        simp only at hnt
        subst hnt
        rfl
      rw [e]
      exact parseLoop_stop ops r3 r3 t R false [] (flagFromArg_terminated r3 t hnt) hnt
    | false => exact parseLoop_stop ops r3 _ t R false [] (ht r3 hnt) rfl
  exact parse_of_phases ops r r1 _ _ _ _ h1 hloop (setFlagDefaults_terminate ops r3 rF h4)

theorem WF_empty (version : GoString) : WF (flagable.empty version : flagable σ) := by
  simp [WF, flagable.empty]

/-- A successful parse keeps the registry well-formed. -/
theorem parse_wf (ops : ValueOps σ) (r r2 : flagable σ) (args rest : List GoString)
    (hwf : WF r) (h : parse ops r args = .ok (rest, r2)) : WF r2 := by
  obtain ⟨r1, r3, h1, h3, h4⟩ := parse_ok ops r r2 args rest h
  have hwf1 := prepare_wf ops r r1 hwf h1
  have hr := parseLoop_reach ops [] r1 r3 args rest hwf1 (by simp) h3
  have hwf3 := hr.wf (fun q hq => hq.1) hwf1
  obtain ⟨r4, h4a, hr4, -⟩ := setFlagDefaults_spec ops r3 hwf3
  rw [h4] at h4a
  simp only [Res.ok.injEq] at h4a
  subst h4a
  exact hr4.wf (fun q hq => hq.1) hwf3

/-! ## Where the scan aborts -/

theorem aliasFlags_error_state (cmd s : flagable σ) (cs : List Char) (acc : List Nat)
    (e : Err) (h : aliasFlags cmd cs acc = .error e s) : s = cmd ∧ e.scan = true := by
  induction cs generalizing acc with
  | nil => simp [aliasFlags] at h
  | cons c cs ih =>
    unfold aliasFlags at h
    split at h
    · simp only [Res.error.injEq] at h
      exact ⟨h.2.symm, by rw [← h.1]; rfl⟩
    · exact ih _ h

theorem flagFromArg_error (cmd s : flagable σ) (arg : GoString) (e : Err)
    (h : flagFromArg cmd arg = .error e s) : s = cmd ∧ e.scan = true := by
  unfold flagFromArg at h
  split at h
  · cases h
  · split at h
    · simp only [Res.error.injEq] at h
      exact ⟨h.2.symm, by rw [← h.1]; rfl⟩
    · split at h
      · simp only [Res.error.injEq] at h
        exact ⟨h.2.symm, by rw [← h.1]; rfl⟩
      · simp only at h
        split at h
        · simp only [Res.error.injEq] at h
          exact ⟨h.2.symm, by rw [← h.1]; rfl⟩
        · split at h
          · simp only [Res.error.injEq] at h
            exact ⟨h.2.symm, by rw [← h.1]; rfl⟩
          · split at h
            · cases h
            · split at h
              · split at h
                · rename_i e1 s1 h1
                  simp only [Res.error.injEq] at h
                  obtain ⟨a1, a2⟩ := aliasFlags_error_state cmd s1 _ _ e1 h1
                  exact ⟨by rw [← h.2, a1], by rw [← h.1]; exact a2⟩
                · cases h
              · split at h
                · simp only [Res.error.injEq] at h
                  exact ⟨h.2.symm, by rw [← h.1]; rfl⟩
                · cases h

theorem setFlagValue_error (ops : ValueOps σ) (cmd s : flagable σ) (q : Nat) (arg : GoString)
    (e : Err) (hwf : WF cmd) (hq : q ∈ cmd.flags.map Prod.snd)
    (h : setFlagValue ops cmd q arg = .error e s) : s = cmd ∧ e.scan = true := by
  obtain ⟨f, hf⟩ := heap_of_mem cmd hwf q hq
  rcases hs : Split arg '=' with _ | ⟨a, _ | ⟨v, rest⟩⟩
  · exact absurd hs (Split_ne_nil _ _)
  · rw [setFlagValue_novalue ops cmd q arg a f hwf hq hf hs] at h
    split at h
    · cases h
    · simp only [Res.error.injEq] at h
      exact ⟨h.2.symm, by rw [← h.1]; rfl⟩
  · rw [setFlagValue_value ops cmd q arg a v rest hwf hq hs] at h
    cases h

theorem setAliasLoop_error (ops : ValueOps σ) (Q : Nat → Prop) (cmd s : flagable σ)
    (flags : List Nat) (e : Err) (hwf : WF cmd)
    (hq : ∀ q ∈ flags, q ∈ cmd.flags.map Prod.snd) (hQ : ∀ q ∈ flags, Q q)
    (h : setAliasLoop ops cmd flags = .error e s) :
    Reach ops Q cmd s ∧ e.scan = true := by
  induction flags generalizing cmd with
  | nil => simp [setAliasLoop] at h
  | cons q rest ih =>
    have hq1 : q ∈ cmd.flags.map Prod.snd := hq q (by simp)
    obtain ⟨g, hg⟩ := heap_of_mem cmd hwf q hq1
    cases hs : selfSufficient ops g.value with
    | false =>
      rw [setAliasLoop_cons_fail ops cmd q rest g hg hs] at h
      simp only [Res.error.injEq] at h
      exact ⟨by rw [← h.2]; exact Reach.refl _, by rw [← h.1]; rfl⟩
    | true =>
      obtain ⟨e1, he⟩ := setFlag_wf ops cmd q "true".toList hwf hq1
      rw [setAliasLoop_cons_ok ops cmd _ q rest g e1 hg hs he] at h
      obtain ⟨a1, a2⟩ := ih _ (WF_assign ops cmd q _ hwf hq1)
        (fun x hx => by
          rw [(assign_flags ops cmd q _).1]
          exact hq x (List.mem_cons_of_mem _ hx))
        (fun x hx => hQ x (List.mem_cons_of_mem _ hx)) h
      exact ⟨Reach.step cmd s q _ (hQ q (by simp)) a1, a2⟩

theorem setAliasValues_error (ops : ValueOps σ) (Q : Nat → Prop) (cmd s : flagable σ)
    (flags : List Nat) (arg : GoString) (e : Err) (hwf : WF cmd)
    (hq : ∀ q ∈ flags, q ∈ cmd.flags.map Prod.snd) (hQ : ∀ q ∈ flags, Q q)
    (h : setAliasValues ops cmd flags arg = .error e s) :
    Reach ops Q cmd s ∧ e.scan = true := by
  unfold setAliasValues at h
  split at h
  · rename_i a v rest hs
    split at h
    · simp only [Res.error.injEq] at h
      exact ⟨by rw [← h.2]; exact Reach.refl _, by rw [← h.1]; rfl⟩
    · rename_i lastflag hlast
      have hmem : lastflag ∈ flags := List.mem_of_getLast?_eq_some hlast
      obtain ⟨e1, he⟩ := setFlag_wf ops cmd lastflag v hwf (hq _ hmem)
      simp only [he] at h
      obtain ⟨a1, a2⟩ := setAliasLoop_error ops Q _ s flags.dropLast e
        (WF_assign ops cmd _ _ hwf (hq _ hmem))
        (fun x hx => by
          rw [(assign_flags ops cmd lastflag v).1]
          exact hq x (List.dropLast_subset _ hx))
        (fun x hx => hQ x (List.dropLast_subset _ hx)) h
      exact ⟨Reach.step cmd s lastflag v (hQ _ hmem) a1, a2⟩
  · exact setAliasLoop_error ops Q cmd s flags e hwf hq hQ h

/-- On a well-formed registry a scan that aborts has only assigned registered flags, and
aborts with one of the errors of the scan. -/
theorem parseLoop_error (ops : ValueOps σ) (cmd s : flagable σ) (args : List GoString)
    (e : Err) (hwf : WF cmd) (h : parseLoop ops cmd args = .error e s) :
    Reach ops (fun q => q ∈ cmd.flags.map Prod.snd) cmd s ∧ e.scan = true := by
  induction args generalizing cmd with
  | nil => simp [parseLoop] at h
  | cons arg rest0 ih =>
    unfold parseLoop at h
    cases hf : flagFromArg cmd arg with
    | error e1 s1 =>
      simp only [hf, Res.error.injEq] at h
      obtain ⟨a1, a2⟩ := flagFromArg_error cmd s1 arg e1 hf
      exact ⟨by rw [← h.2, a1]; exact Reach.refl _, by rw [← h.1]; exact a2⟩
    | ok x =>
      obtain ⟨⟨isAlias, flags⟩, cmd1⟩ := x
      simp only [hf] at h
      cases ht : cmd1.flagsTerminated with
      | true => simp [ht] at h
      | false =>
        have hnt : cmd.flagsTerminated = false := by
          rcases flagFromArg_state cmd cmd1 arg isAlias flags hf with e1 | ⟨e1, -⟩
          · rw [← e1]; exact ht
          · exact e1
        have hc1 : cmd1 = cmd := by
          rcases flagFromArg_state cmd cmd1 arg isAlias flags hf with e1 | ⟨-, e1⟩
          · exact e1
          · rw [e1] at ht; cases ht
        subst hc1
        have hq : ∀ q ∈ flags, q ∈ cmd1.flags.map Prod.snd :=
          fun q hq => (flagFromArg_flags cmd1 cmd1 arg isAlias flags hnt hf q hq).2 hwf
        simp only [ht, Bool.false_eq_true, if_false] at h
        have key : ∀ cmd3, Reach ops (fun q => q ∈ cmd1.flags.map Prod.snd) cmd1 cmd3 →
            parseLoop ops cmd3 rest0 = .error e s →
            Reach ops (fun q => q ∈ cmd1.flags.map Prod.snd) cmd1 s ∧ e.scan = true := by
          intro cmd3 hr h3
          have := ih cmd3 (hr.wf (fun q hq => hq) hwf) h3
          rw [hr.maps.1] at this
          exact ⟨hr.trans this.1, this.2⟩
        cases isAlias with
        | true =>
          simp only [if_true] at h
          cases hs : setAliasValues ops cmd1 flags arg with
          | error e1 s1 =>
            simp only [hs, Res.error.injEq] at h
            obtain ⟨a1, a2⟩ := setAliasValues_error ops _ cmd1 s1 flags arg e1 hwf hq hq hs
            exact ⟨by rw [← h.2]; exact a1, by rw [← h.1]; exact a2⟩
          | ok cmd3 =>
            simp only [hs] at h
            exact key cmd3 (setAliasValues_reach ops _ cmd1 cmd3 flags arg hwf hq hq hs) h
        | false =>
          simp only [Bool.false_eq_true, if_false] at h
          cases flags with
          | nil =>
            simp only [Res.error.injEq] at h
            exact ⟨by rw [← h.2]; exact Reach.refl _, by rw [← h.1]; rfl⟩
          | cons flag fl =>
            simp only at h
            cases hs : setFlagValue ops cmd1 flag arg with
            | error e1 s1 =>
              simp only [hs, Res.error.injEq] at h
              obtain ⟨a1, a2⟩ := setFlagValue_error ops cmd1 s1 flag arg e1 hwf
                (hq flag (by simp)) hs
              exact ⟨by rw [← h.2, a1]; exact Reach.refl _, by rw [← h.1]; exact a2⟩
            | ok cmd3 =>
              simp only [hs] at h
              obtain ⟨v, hv⟩ := setFlagValue_reach ops cmd1 cmd3 flag arg hwf
                (hq flag (by simp)) hs
              refine key cmd3 ?_ h
              rw [hv]
              exact Reach.one ops _ cmd1 flag v (hq flag (by simp))

/-- A parse that aborts on a well-formed registry aborts in the scan, after the automatic
definitions, and leaves a well-formed registry with the flags and aliases of that moment. -/
theorem parse_error (ops : ValueOps σ) (r s : flagable σ) (args : List GoString) (e : Err)
    (hwf : WF r) (h : parse ops r args = .error e s) :
    ∃ r1, prepare ops r = .ok r1 ∧ WF s ∧ e.scan = true ∧ s.flags = r1.flags ∧
      s.aliases = r1.aliases := by
  obtain ⟨r1, h1⟩ := prepare_total ops r
  have hwf1 := prepare_wf ops r r1 hwf h1
  unfold parse at h
  simp only [h1] at h
  cases h3 : parseLoop ops r1 args with
  | error e1 s1 =>
    simp only [h3, Res.error.injEq] at h
    obtain ⟨a1, a2⟩ := parseLoop_error ops r1 s1 args e1 hwf1 h3
    rw [← h.1, ← h.2]
    exact ⟨r1, h1, a1.wf (fun q hq => hq) hwf1, a2, a1.maps.1, a1.maps.2.1⟩
  | ok x =>
    obtain ⟨rest, r3⟩ := x
    have hr := parseLoop_reach ops [] r1 r3 args rest hwf1 (by simp) h3
    obtain ⟨r4, h4, -, -⟩ := setFlagDefaults_spec ops r3 (hr.wf (fun q hq => hq.1) hwf1)
    simp [h3, h4] at h

theorem Reachable_wf {ops : ValueOps σ} {r : flagable σ} (h : Reachable ops r) : WF r := by
  induction h with
  | fresh version => exact WF_empty version
  | defined cmd cmd1 value name usage _ h1 ih => exact WF_DefineFlag ops cmd cmd1 _ _ _ ih h1
  | aliased cmd cmd1 c name _ h1 ih => exact WF_AliasFlag cmd cmd1 c name ih h1
  | parsed cmd cmd1 args rest _ h1 ih => exact parse_wf ops cmd cmd1 args rest ih h1
  | aborted cmd s args e _ h1 ih =>
    obtain ⟨r1, -, hs, -⟩ := parse_error ops cmd s args e ih h1
    exact hs

/-! ## The automatic definitions, in closed form -/

theorem autoDefine_eq (ops : ValueOps σ) (c : flagable σ) (name usage : GoString) (ch : Char)
    (hl : mapLookup name c.flags = none) :
    (match DefineBoolFlag ops c name false usage with
      | .error e s => Res.error e s
      | .ok cmd1 =>
        match mapLookup ch cmd1.aliases with
        | some _ => .ok cmd1
        | none => AliasFlag cmd1 ch name) = .ok (autoDefined ops c name usage ch) := by
  simp only [DefineBoolFlag, DefineFlag, hl, mapInsert_of_none name _ _ hl]
  cases ha : mapLookup ch c.aliases with
  | some q => simp [autoDefined, ha]
  | none =>
    have : mapLookup name (c.flags ++ [(name, c.heap.length)]) = some c.heap.length := by
      rw [mapLookup_append, hl]
      simp [mapLookup]
    simp [autoDefined, ha, AliasFlag, this, mapInsert_of_none ch _ _ ha]

theorem defineHelp_eq (ops : ValueOps σ) (c : flagable σ) :
    defineHelp ops c = .ok (match mapLookup "help".toList c.flags with
      | some _ => c
      | none => autoDefined ops c "help".toList "show help and exit".toList 'h') := by
  unfold defineHelp
  cases hl : mapLookup "help".toList c.flags with
  | some q => rfl
  | none => exact autoDefine_eq ops c _ _ 'h' hl

theorem defineVersion_eq (ops : ValueOps σ) (c : flagable σ) :
    defineVersion ops c =
      .ok (if (mapLookup "version".toList c.flags).isNone ∧ (Version c).length > 0 then
        autoDefined ops c "version".toList "show version and exit".toList 'v' else c) := by
  unfold defineVersion
  split
  · rename_i hc
    have hl : mapLookup "version".toList c.flags = none := by simpa using hc.1
    exact autoDefine_eq ops c _ _ 'v' hl
  · rfl

theorem autoDefined_flags (ops : ValueOps σ) (c : flagable σ) (name usage n : GoString)
    (ch : Char) (hl : mapLookup name c.flags = none) :
    mapLookup n (autoDefined ops c name usage ch).flags =
      if n = name then some c.heap.length else mapLookup n c.flags := by
  simp only [autoDefined, mapLookup_append]
  by_cases hn : n = name
  · subst hn
    simp [hl, mapLookup]
  · cases h : mapLookup n c.flags with
    | some q => simp [hn]
    | none => simp [hn, mapLookup, Ne.symm hn]

theorem autoDefined_aliases (ops : ValueOps σ) (c : flagable σ) (name usage : GoString)
    (ch d : Char) :
    mapLookup d (autoDefined ops c name usage ch).aliases =
      match mapLookup d c.aliases with
      | some q => some q
      | none => if d = ch then some c.heap.length else none := by
  simp only [autoDefined]
  cases hch : mapLookup ch c.aliases with
  | some q0 =>
    simp only
    cases hd : mapLookup d c.aliases with
    | some q => rfl
    | none =>
      have : d ≠ ch := fun e => by rw [e, hch] at hd; cases hd
      simp [this]
  | none =>
    simp only [mapLookup_append]
    cases hd : mapLookup d c.aliases with
    | some q => rfl
    | none =>
      by_cases hdc : d = ch
      · simp [hdc, mapLookup]
      · simp [hdc, mapLookup, Ne.symm hdc]

theorem autoDefined_heap (ops : ValueOps σ) (c : flagable σ) (name usage : GoString)
    (ch : Char) :
    (autoDefined ops c name usage ch).heap[c.heap.length]? =
      some { Name := name, Usage := usage, value := ops.newBoolValue false,
             DefValue := ops.String (ops.newBoolValue false) } := by
  simp [autoDefined]

theorem autoDefined_keeps (ops : ValueOps σ) (c : flagable σ) (name usage : GoString)
    (ch : Char) (hl : mapLookup name c.flags = none) :
    (∀ n q, mapLookup n c.flags = some q →
      mapLookup n (autoDefined ops c name usage ch).flags = some q) ∧
    (∀ d q, mapLookup d c.aliases = some q →
      mapLookup d (autoDefined ops c name usage ch).aliases = some q) ∧
    (∀ (p : Nat) (f : Flag σ), c.heap[p]? = some f →
      (autoDefined ops c name usage ch).heap[p]? = some f) := by
  refine ⟨?_, ?_, ?_⟩
  · intro n q hn
    rw [autoDefined_flags ops c name usage n ch hl]
    have : n ≠ name := fun e => by rw [e, hl] at hn; cases hn
    simp [this, hn]
  · intro d q hd
    rw [autoDefined_aliases, hd]
  · intro p f hf
    have hlt : p < c.heap.length := by
      rcases Nat.lt_or_ge p c.heap.length with h2 | h2
      · exact h2
      · rw [List.getElem?_eq_none h2] at hf; cases hf
    simp only [autoDefined, List.getElem?_append_left hlt]
    exact hf

/-- One automatic definition, of the flag `name` when it is not registered. -/
theorem autoStep_spec (ops : ValueOps σ) (r : flagable σ) (name usage : GoString) (ch : Char)
    (rh : flagable σ)
    (hrh : rh = match mapLookup name r.flags with
      | some _ => r
      | none => autoDefined ops r name usage ch) :
    rh.version = r.version ∧
    (∀ n q, mapLookup n r.flags = some q → mapLookup n rh.flags = some q) ∧
    (∀ d q, mapLookup d r.aliases = some q → mapLookup d rh.aliases = some q) ∧
    (∀ (p : Nat) (f : Flag σ), r.heap[p]? = some f → rh.heap[p]? = some f) ∧
    (∀ n, n ≠ name → mapLookup n rh.flags = mapLookup n r.flags) ∧
    (∀ d, d ≠ ch → mapLookup d rh.aliases = mapLookup d r.aliases) ∧
    (mapLookup name rh.flags).isSome ∧
    (mapLookup name r.flags = none →
      ∃ p, mapLookup name rh.flags = some p ∧
        rh.heap[p]? = some { Name := name, Usage := usage, value := ops.newBoolValue false,
                             DefValue := ops.String (ops.newBoolValue false) } ∧
        (mapLookup ch r.aliases = none → mapLookup ch rh.aliases = some p)) := by
  cases hl : mapLookup name r.flags with
  | some q =>
    rw [hl] at hrh
    simp only at hrh
    subst hrh
    refine ⟨rfl, fun _ _ h => h, fun _ _ h => h, fun _ _ h => h, fun _ _ => rfl,
      fun _ _ => rfl, ?_, fun h => by cases h⟩
    rw [hl]
    rfl
  | none =>
    rw [hl] at hrh
    simp only at hrh
    subst hrh
    obtain ⟨k1, k2, k3⟩ := autoDefined_keeps ops r name usage ch hl
    have hself : mapLookup name (autoDefined ops r name usage ch).flags =
        some r.heap.length := by
      rw [autoDefined_flags ops r name usage name ch hl, if_pos rfl]
    refine ⟨rfl, k1, k2, k3, ?_, ?_, ?_, fun _ => ⟨r.heap.length, hself, ?_, ?_⟩⟩
    · intro n hn
      rw [autoDefined_flags ops r name usage n ch hl, if_neg hn]
    · intro d hd
      rw [autoDefined_aliases]
      cases mapLookup d r.aliases with
      | some q => rfl
      | none => simp only [if_neg hd]
    · rw [hself]
      rfl
    · exact autoDefined_heap ops r name usage ch
    · intro ha
      rw [autoDefined_aliases, ha]
      simp only [if_pos]

/-- The registry after defineVersion, when a version string is configured. -/
theorem defineVersion_cases (ops : ValueOps σ) (r : flagable σ) :
    (r.version ≠ [] → defineVersion ops r =
      .ok (match mapLookup "version".toList r.flags with
        | some _ => r
        | none => autoDefined ops r "version".toList "show version and exit".toList 'v')) ∧
    (r.version = [] → defineVersion ops r = .ok r) := by
  rw [defineVersion_eq]
  constructor
  · intro hv
    have hpos : (Version r).length > 0 := List.length_pos.2 hv
    cases hl : mapLookup "version".toList r.flags with
    | some q => rw [if_neg (fun h => Bool.noConfusion h.1)]
    | none => rw [if_pos ⟨rfl, hpos⟩]
  · intro hv
    have : ¬ ((mapLookup "version".toList r.flags).isNone ∧ (Version r).length > 0) := by
      intro h
      have h2 := h.2
      unfold Version at h2
      rw [hv] at h2
      exact Nat.lt_irrefl _ h2
    rw [if_neg this]

/-- The registry after defineVersion. -/
theorem defineVersion_spec (ops : ValueOps σ) (r : flagable σ) :
    ∃ rv, defineVersion ops r = .ok rv ∧ rv.version = r.version ∧
      (∀ n q, mapLookup n r.flags = some q → mapLookup n rv.flags = some q) ∧
      (∀ d q, mapLookup d r.aliases = some q → mapLookup d rv.aliases = some q) ∧
      (∀ (p : Nat) (f : Flag σ), r.heap[p]? = some f → rv.heap[p]? = some f) ∧
      ((mapLookup "version".toList rv.flags).isSome ↔
        (r.version ≠ [] ∨ (mapLookup "version".toList r.flags).isSome)) ∧
      (mapLookup "version".toList r.flags = none → r.version ≠ [] →
        ∃ p, mapLookup "version".toList rv.flags = some p ∧
          rv.heap[p]? = some { Name := "version".toList,
                               Usage := "show version and exit".toList,
                               value := ops.newBoolValue false,
                               DefValue := ops.String (ops.newBoolValue false) } ∧
          (mapLookup 'v' r.aliases = none → mapLookup 'v' rv.aliases = some p)) := by
  by_cases hv : r.version = []
  · refine ⟨r, (defineVersion_cases ops r).2 hv, rfl, fun _ _ h => h, fun _ _ h => h,
      fun _ _ h => h, ⟨fun h => Or.inr h, ?_⟩, fun _ h => absurd hv h⟩
    rintro (h | h)
    · exact absurd hv h
    · exact h
  · obtain ⟨a1, a2, a3, a4, -, -, a7, a8⟩ := autoStep_spec ops r "version".toList
      "show version and exit".toList 'v' _ rfl
    exact ⟨_, (defineVersion_cases ops r).1 hv, a1, a2, a3, a4,
      ⟨fun _ => Or.inl hv, fun _ => a7⟩, fun hl _ => a8 hl⟩

theorem parsed_eta (r : flagable σ) (h : r.parsed = true) :
    ({ r with parsed := true } : flagable σ) = r := by
  cases r
  simp only at h
  subst h
  rfl

/-- The automatic definitions, once made, are not made again. -/
theorem prepare_idem (ops : ValueOps σ) (r : flagable σ) (hp : r.parsed = true)
    (hh : (mapLookup "help".toList r.flags).isSome)
    (hv : r.version ≠ [] → (mapLookup "version".toList r.flags).isSome) :
    prepare ops r = .ok r := by
  have h1 : defineHelp ops r = .ok r := by
    rw [defineHelp_eq]
    obtain ⟨q, hq⟩ := Option.isSome_iff_exists.1 hh
    rw [hq]
  have h2 : defineVersion ops r = .ok r := by
    by_cases hvv : r.version = []
    · exact (defineVersion_cases ops r).2 hvv
    · rw [(defineVersion_cases ops r).1 hvv]
      obtain ⟨q, hq⟩ := Option.isSome_iff_exists.1 (hv hvv)
      rw [hq]
  unfold prepare
  simp only [h1, h2]
  rw [parsed_eta r hp]

/-! ## The usage text -/

theorem len_nil : len ([] : GoString) = 0 := rfl

theorem len_append (a b : GoString) : len (a ++ b) = len a + len b := by
  simp [len]

theorem len_space : len [' '] = 1 := by decide

theorem padBuffer_eq (fuel mx : Nat) (b : GoString) (h : mx + 1 - len b ≤ fuel) :
    padBuffer fuel b mx = b ++ List.replicate (mx + 1 - len b) ' ' := by
  induction fuel generalizing b with
  | zero =>
    have h0 : mx + 1 - len b = 0 := Nat.le_zero.1 h
    simp [padBuffer, h0]
  | succ k ih =>
    unfold padBuffer
    by_cases hgt : len b > mx
    · have h0 : mx + 1 - len b = 0 := by omega
      simp [hgt, h0]
    · simp only [hgt, if_false]
      have hl : len (b ++ [' ']) = len b + 1 := by rw [len_append, len_space]
      rw [ih (b ++ [' ']) (by rw [hl]; omega), hl]
      have e : mx + 1 - len b = (mx + 1 - (len b + 1)) + 1 := by omega
      rw [e, List.replicate_succ]
      simp

theorem aliasPart_cons (c : Char) (q p : Nat) (al : List (Char × Nat)) (b : GoString) :
    aliasPart ((c, q) :: al) p b =
      aliasPart al p (if q = p then
        (if len b = 0 then b ++ ['-', c] else b ++ [',', ' ', '-', c]) else b) := by
  simp [aliasPart]

theorem aliasPart_len_le (al : List (Char × Nat)) (p : Nat) (b : GoString) :
    len b ≤ len (aliasPart al p b) := by
  induction al generalizing b with
  | nil => exact Nat.le_refl _
  | cons cp al ih =>
    obtain ⟨c, q⟩ := cp
    rw [aliasPart_cons]
    refine Nat.le_trans ?_ (ih _)
    split
    · split <;> (rw [len_append]; omega)
    · exact Nat.le_refl _

theorem aliasPart_of_not_mem (al : List (Char × Nat)) (p : Nat) (b : GoString)
    (h : p ∉ al.map Prod.snd) : aliasPart al p b = b := by
  induction al generalizing b with
  | nil => rfl
  | cons cp al ih =>
    obtain ⟨c, q⟩ := cp
    simp only [List.map_cons, List.mem_cons, not_or] at h
    rw [aliasPart_cons, if_neg (fun e => h.1 e.symm)]
    exact ih b h.2

theorem namePart_len_le (ops : ValueOps σ) (name : GoString) (f : Flag σ) (b : GoString) :
    len b ≤ len (namePart ops name f b) := by
  unfold namePart
  rw [len_append]
  split <;> (simp only [len_append]; omega)

theorem initUsages_lookup (al : List (Char × Nat)) (m : List (Nat × GoString)) (p : Nat) :
    mapLookup p (al.foldl (fun m cp => mapInsert cp.2 [] m) m) =
      if p ∈ al.map Prod.snd then some [] else mapLookup p m := by
  induction al generalizing m with
  | nil => simp
  | cons cp al ih =>
    obtain ⟨c, q⟩ := cp
    simp only [List.foldl_cons, List.map_cons, List.mem_cons]
    rw [ih]
    by_cases hp : p ∈ al.map Prod.snd
    · simp [hp]
    · simp only [hp, if_false, or_false]
      by_cases hpq : p = q
      · subst hpq
        simp [mapLookup_mapInsert_self]
      · simp [hpq, mapLookup_mapInsert_ne q p _ _ hpq]

theorem ite_max_right (a b : Nat) : b ≤ if a > b then a else b := by
  split <;> omega

theorem ite_max_left (a b : Nat) : a ≤ if a > b then a else b := by
  split <;> omega

theorem ite_max_le (a b B : Nat) (ha : a ≤ B) (hb : b ≤ B) :
    (if a > b then a else b) ≤ B := by
  split <;> assumption

theorem aliasUsages_spec (cmd : flagable σ) (al : List (Char × Nat))
    (m : List (Nat × GoString)) (mx : Nat)
    (hm : ∀ cp ∈ al, (mapLookup cp.2 m).isSome) :
    ∃ m1 mx1, aliasUsages cmd al m mx = .ok (m1, mx1) ∧
      (∀ p, mapLookup p m1 = (mapLookup p m).map (aliasPart al p)) ∧ mx ≤ mx1 ∧
      (∀ B, mx ≤ B → (∀ p b, mapLookup p m1 = some b → len b ≤ B) → mx1 ≤ B) := by
  induction al generalizing m mx with
  | nil =>
    exact ⟨m, mx, rfl, fun p => by cases mapLookup p m <;> rfl, Nat.le_refl _,
      fun B h _ => h⟩
  | cons cp al ih =>
    obtain ⟨c, q⟩ := cp
    obtain ⟨b0, hb0⟩ := Option.isSome_iff_exists.1 (hm (c, q) (by simp))
    obtain ⟨m1, mx1, h1, h2, h3, h4⟩ := ih
      (mapInsert q (if len b0 = 0 then b0 ++ ['-', c] else b0 ++ [',', ' ', '-', c]) m)
      (if len (if len b0 = 0 then b0 ++ ['-', c] else b0 ++ [',', ' ', '-', c]) > mx then
        len (if len b0 = 0 then b0 ++ ['-', c] else b0 ++ [',', ' ', '-', c]) else mx)
      (fun cp hcp => by
        by_cases e : cp.2 = q
        · rw [e, mapLookup_mapInsert_self]; rfl
        · rw [mapLookup_mapInsert_ne q cp.2 _ _ e]
          exact hm cp (List.mem_cons_of_mem _ hcp))
    refine ⟨m1, mx1, ?_, ?_, ?_, ?_⟩
    · rw [aliasUsages]
      simp only [hb0]
      exact h1
    · intro p
      rw [h2 p]
      by_cases e : p = q
      · subst e
        rw [mapLookup_mapInsert_self, hb0]
        simp only [Option.map_some', aliasPart_cons, if_true]
      · rw [mapLookup_mapInsert_ne q p _ _ e]
        cases mapLookup p m with
        | none => rfl
        | some b => simp only [Option.map_some', aliasPart_cons, if_neg (Ne.symm e)]
    · exact Nat.le_trans (ite_max_right _ _) h3
    · intro B hB hall
      refine h4 B (ite_max_le _ _ B ?_ hB) hall
      have := h2 q
      rw [mapLookup_mapInsert_self] at this
      exact Nat.le_trans (aliasPart_len_le al q _) (hall q _ this)

theorem nameUsages_spec (ops : ValueOps σ) (cmd : flagable σ) (l : List (GoString × Nat))
    (m : List (Nat × GoString)) (mx : Nat)
    (hh : ∀ np ∈ l, (cmd.heap[np.2]?).isSome) (hnd : (l.map Prod.snd).Nodup) :
    ∃ m1 mx1, nameUsages ops cmd l m mx = .ok (m1, mx1) ∧
      (∀ np ∈ l, ∀ f, cmd.heap[np.2]? = some f →
        mapLookup np.2 m1 = some (namePart ops np.1 f ((mapLookup np.2 m).getD []))) ∧
      (∀ p, p ∉ l.map Prod.snd → mapLookup p m1 = mapLookup p m) ∧ mx ≤ mx1 ∧
      (∀ B, mx ≤ B → (∀ p b, mapLookup p m1 = some b → len b ≤ B) → mx1 ≤ B) ∧
      (∀ np ∈ l, ∀ b, mapLookup np.2 m1 = some b → len b ≤ mx1) := by
  induction l generalizing m mx with
  | nil =>
    exact ⟨m, mx, rfl, by simp, fun _ _ => rfl, Nat.le_refl _, fun B h _ => h, by simp⟩
  | cons np l ih =>
    obtain ⟨n, q⟩ := np
    obtain ⟨f, hf⟩ := Option.isSome_iff_exists.1 (hh (n, q) (by simp))
    simp only [List.map_cons, List.nodup_cons] at hnd
    have hbuf : (match mapLookup q m with
        | none => ([] : GoString)
        | some b => b) = (mapLookup q m).getD [] := by
      cases mapLookup q m <;> rfl
    obtain ⟨m1, mx1, h1, h2, h3, h4, h5, h6⟩ := ih
      (mapInsert q (namePart ops n f ((mapLookup q m).getD [])) m)
      (if len (namePart ops n f ((mapLookup q m).getD [])) > mx then
        len (namePart ops n f ((mapLookup q m).getD [])) else mx)
      (fun x hx => hh x (List.mem_cons_of_mem _ hx)) hnd.2
    have hq1 : mapLookup q m1 = some (namePart ops n f ((mapLookup q m).getD [])) := by
      rw [h3 q hnd.1, mapLookup_mapInsert_self]
    refine ⟨m1, mx1, ?_, ?_, ?_, ?_, ?_, ?_⟩
    · rw [nameUsages]
      simp only [hf, hbuf]
      have e : (if ops.boolFlag f.value = true then
            (if len ((mapLookup q m).getD []) = 0 then
              (mapLookup q m).getD [] ++ ['-', '-'] ++ n
            else (mapLookup q m).getD [] ++ [',', ' ', '-', '-'] ++ n)
          else (if len ((mapLookup q m).getD []) = 0 then
              (mapLookup q m).getD [] ++ ['-', '-'] ++ n
            else (mapLookup q m).getD [] ++ [',', ' ', '-', '-'] ++ n) ++ ['=', '"'] ++
              f.DefValue ++ ['"']) = namePart ops n f ((mapLookup q m).getD []) := by
        unfold namePart
        by_cases hb : ops.boolFlag f.value = true <;> simp [hb]
      rw [e]
      exact h1
    · intro x hx g hg
      rcases List.mem_cons.1 hx with e | e
      · subst e
        rw [hf] at hg
        simp only [Option.some.injEq] at hg
        subst hg
        exact hq1
      · have hne : x.2 ≠ q := fun e1 => hnd.1 (e1 ▸ List.mem_map.2 ⟨x, e, rfl⟩)
        rw [h2 x e g hg, mapLookup_mapInsert_ne q x.2 _ _ hne]
    · intro p hp
      simp only [List.map_cons, List.mem_cons, not_or] at hp
      rw [h3 p hp.2, mapLookup_mapInsert_ne q p _ _ hp.1]
    · exact Nat.le_trans (ite_max_right _ _) h4
    · intro B hB hall
      exact h5 B (ite_max_le _ _ B (hall q _ hq1) hB) hall
    · intro x hx b hb
      rcases List.mem_cons.1 hx with e | e
      · subst e
        rw [hq1] at hb
        simp only [Option.some.injEq] at hb
        subst hb
        exact Nat.le_trans (ite_max_left _ _) h4
      · exact h6 x e b hb

theorem usageLines_spec (cmd : flagable σ) (sorted : List Nat) (mx : Nat)
    (D : Nat → GoString) (t : List Nat) (i : Nat) (m : List (Nat × GoString))
    (out : List GoString) (ht : sorted.drop i = t) (hnd : t.Nodup)
    (hm : ∀ p ∈ t, mapLookup p m = some (D p) ∧ (cmd.heap[p]?).isSome) :
    usageLines cmd sorted mx t.length i m out =
      .ok (out ++ t.map (fun p =>
        match cmd.heap[p]? with
        | some f => [' ', ' '] ++ padBuffer (mx + 1) (D p) mx ++ [' ', '#', ' '] ++ f.Usage
        | none => [])) := by
  induction t generalizing i m out with
  | nil => simp [usageLines]
  | cons p t ih =>
    have hi : sorted[i]? = some p := by
      have := congrArg List.head? ht
      simpa [List.head?_drop] using this
    have ht1 : sorted.drop (i + 1) = t := by
      have := congrArg List.tail ht
      simpa [List.tail_drop] using this
    obtain ⟨hp1, hp2⟩ := hm p (by simp)
    obtain ⟨f, hf⟩ := Option.isSome_iff_exists.1 hp2
    simp only [List.nodup_cons] at hnd
    simp only [List.length_cons, usageLines, hi, hp1, hf, List.map_cons]
    rw [ih (i + 1) _ _ ht1 hnd.2]
    · simp
    · intro q hq
      have hne : q ≠ p := fun e => hnd.1 (e ▸ hq)
      rw [mapLookup_mapInsert_ne p q _ _ hne]
      exact hm q (List.mem_cons_of_mem _ hq)

theorem le_foldr_max (l : List Nat) (x : Nat) (h : x ∈ l) : x ≤ l.foldr max 0 := by
  induction l with
  | nil => simp at h
  | cons a l ih =>
    simp only [List.foldr_cons]
    rcases List.mem_cons.1 h with e | e
    · rw [e]; exact Nat.le_max_left _ _
    · exact Nat.le_trans (ih e) (Nat.le_max_right _ _)

theorem foldr_max_le (l : List Nat) (B : Nat) (h : ∀ x ∈ l, x ≤ B) : l.foldr max 0 ≤ B := by
  induction l with
  | nil => exact Nat.zero_le _
  | cons a l ih =>
    simp only [List.foldr_cons]
    exact Nat.max_le.2 ⟨h a (by simp), ih (fun x hx => h x (List.mem_cons_of_mem _ hx))⟩

theorem descriptor_le_maxWidth (ops : ValueOps σ) (cmd : flagable σ) (n : GoString) (p : Nat)
    (f : Flag σ) (hnp : (n, p) ∈ cmd.flags) (hf : cmd.heap[p]? = some f) :
    len (descriptor ops cmd n p f) ≤ maxWidth ops cmd := by
  unfold maxWidth
  refine le_foldr_max _ _ (List.mem_map.2 ⟨(n, p), hnp, ?_⟩)
  simp only [hf]

/-- UsageString on a well-formed registry, when `sort` lists the flags of the map. -/
theorem UsageString_spec (ops : ValueOps σ) (sort : List (GoString × Nat) → List Nat)
    (cmd : flagable σ) (hwf : WF cmd)
    (hS : (sort cmd.flags).Perm (cmd.flags.map Prod.snd)) :
    UsageString ops sort cmd =
      .ok (Join ((sort cmd.flags).map (usageLine ops cmd)) ['\n']) := by
  -- the buffers after the first loop
  have h0 : ∀ p, mapLookup p (initUsages cmd.aliases) =
      if p ∈ cmd.aliases.map Prod.snd then some [] else none := by
    intro p
    unfold initUsages
    rw [initUsages_lookup]
    rfl
  -- after the second loop
  obtain ⟨m1, mx1, e1, a2, -, a4⟩ := aliasUsages_spec cmd cmd.aliases
    (initUsages cmd.aliases) 0 (fun cp hcp => by
      rw [h0, if_pos (List.mem_map.2 ⟨cp, hcp, rfl⟩)]
      rfl)
  have h1 : ∀ p, (mapLookup p m1).getD [] = aliasPart cmd.aliases p [] := by
    intro p
    rw [a2 p, h0 p]
    by_cases hp : p ∈ cmd.aliases.map Prod.snd
    · rw [if_pos hp]; rfl
    · rw [if_neg hp, aliasPart_of_not_mem _ _ _ hp]; rfl
  have h1m : ∀ p b, mapLookup p m1 = some b →
      p ∈ cmd.flags.map Prod.snd ∧ b = aliasPart cmd.aliases p [] := by
    intro p b hb
    have hp : p ∈ cmd.aliases.map Prod.snd := by
      by_contra hp
      rw [a2 p, h0 p, if_neg hp] at hb
      cases hb
    obtain ⟨cp, hcp, e⟩ := List.mem_map.1 hp
    refine ⟨e ▸ hwf.2.2.2.2.1 cp hcp, ?_⟩
    have := h1 p
    rw [hb] at this
    exact this
  -- after the third loop
  obtain ⟨m2, mx2, e2, b1, b2, -, b4, b5⟩ := nameUsages_spec ops cmd cmd.flags m1 mx1
    (fun np hnp => by
      obtain ⟨f, hf⟩ := heap_of_mem cmd hwf np.2 (List.mem_map.2 ⟨np, hnp, rfl⟩)
      rw [hf]; rfl) hwf.2.1
  have h2 : ∀ n p f, (n, p) ∈ cmd.flags → cmd.heap[p]? = some f →
      mapLookup p m2 = some (descriptor ops cmd n p f) := by
    intro n p f hnp hf
    rw [b1 (n, p) hnp f hf, h1 p]
    rfl
  have hreg : ∀ p, p ∈ cmd.flags.map Prod.snd →
      ∃ n f, (n, p) ∈ cmd.flags ∧ cmd.heap[p]? = some f ∧ f.Name = n := by
    intro p hp
    obtain ⟨np, hnp, e⟩ := List.mem_map.1 hp
    have hn := hwf.2.2.2.1 np hnp
    simp only [Option.map_eq_some'] at hn
    obtain ⟨f, hf, hfn⟩ := hn
    exact ⟨np.1, f, by rw [← e]; exact hnp, by rw [← e]; exact hf, hfn⟩
  have hmx : mx2 = maxWidth ops cmd := by
    apply Nat.le_antisymm
    · refine b4 _ (a4 _ (Nat.zero_le _) ?_) ?_
      · intro p b hb
        obtain ⟨hp, eb⟩ := h1m p b hb
        obtain ⟨n, f, hnp, hf, -⟩ := hreg p hp
        rw [eb]
        exact Nat.le_trans (namePart_len_le ops n f _) (descriptor_le_maxWidth ops cmd n p f hnp hf)
      · intro p b hb
        by_cases hp : p ∈ cmd.flags.map Prod.snd
        · obtain ⟨n, f, hnp, hf, -⟩ := hreg p hp
          rw [h2 n p f hnp hf] at hb
          simp only [Option.some.injEq] at hb
          rw [← hb]
          exact descriptor_le_maxWidth ops cmd n p f hnp hf
        · rw [b2 p hp] at hb
          exact absurd (h1m p b hb).1 hp
    · unfold maxWidth
      refine foldr_max_le _ _ ?_
      intro x hx
      obtain ⟨np, hnp, e⟩ := List.mem_map.1 hx
      obtain ⟨f, hf⟩ := heap_of_mem cmd hwf np.2 (List.mem_map.2 ⟨np, hnp, rfl⟩)
      simp only [hf] at e
      rw [← e]
      exact b5 np hnp _ (h2 np.1 np.2 f hnp hf)
  -- the lines
  have hlen : cmd.flags.length = (sort cmd.flags).length := by
    rw [hS.length_eq, List.length_map]
  have hlines := usageLines_spec cmd (sort cmd.flags) mx2
    (fun p => match cmd.heap[p]? with
      | some f => descriptor ops cmd f.Name p f
      | none => []) (sort cmd.flags) 0 m2 [] rfl (hS.nodup_iff.2 hwf.2.1)
    (fun p hp => by
      obtain ⟨n, f, hnp, hf, hfn⟩ := hreg p (hS.mem_iff.1 hp)
      refine ⟨?_, by rw [hf]; rfl⟩
      simp only [hf, hfn]
      exact h2 n p f hnp hf)
  unfold UsageString
  simp only [e1, e2, hlen, hlines, List.nil_append]
  congr 2
  refine List.map_congr_left ?_
  intro p _
  unfold usageLine
  cases hf : cmd.heap[p]? with
  | none => rfl
  | some f =>
    simp only
    rw [padBuffer_eq (mx2 + 1) mx2 _ (by omega), hmx]
    simp only [List.append_assoc]

theorem len_cons_pos (c : Char) (s : GoString) : 0 < len (c :: s) := by
  have := Char.utf8Size_pos c
  simp only [len, List.map_cons, List.sum_cons]
  omega

theorem aliasPart_filter (al : List (Char × Nat)) (p : Nat) (b : GoString) :
    aliasPart al p b = aliasPart (al.filter (fun cp => decide (cp.2 = p))) p b := by
  induction al generalizing b with
  | nil => rfl
  | cons cp al ih =>
    obtain ⟨c, q⟩ := cp
    by_cases e : q = p
    · simp only [List.filter_cons, e, decide_True, if_true, aliasPart_cons]
      exact ih _
    · simp only [List.filter_cons, e, decide_False, aliasPart_cons, if_false]
      simp only [Bool.false_eq_true, if_false]
      exact ih _

theorem descriptor_single_alias (ops : ValueOps σ) (cmd : flagable σ) (n : GoString) (p : Nat)
    (f : Flag σ) (a : Char)
    (h : cmd.aliases.filter (fun cp => decide (cp.2 = p)) = [(a, p)]) :
    descriptor ops cmd n p f = ['-', a, ',', ' ', '-', '-'] ++ n ++
      (if ops.boolFlag f.value then [] else ['=', '"'] ++ f.DefValue ++ ['"']) := by
  unfold descriptor namePart
  rw [aliasPart_filter, h]
  have e : aliasPart [(a, p)] p [] = ['-', a] := by
    simp [aliasPart, len_nil]
  rw [e]
  have hne : ¬ len ['-', a] = 0 := Nat.ne_of_gt (len_cons_pos _ _)
  rw [if_neg hne]
  rfl

/-! ## Start -/

theorem parseLoop_length (ops : ValueOps σ) (args : List GoString) :
    ∀ (cmd : flagable σ) (x : List GoString × flagable σ),
      parseLoop ops cmd args = .ok x → x.1.length ≤ args.length := by
  induction args with
  | nil =>
    intro cmd x h
    simp only [parseLoop] at h
    cases h
    exact Nat.le_refl _
  | cons arg F ih =>
    intro cmd x h
    rcases parseLoop_turn ops cmd arg F x h with h1 | ⟨_, cmd2, _, _, _, h2, _⟩
    · rw [h1]
    · exact Nat.le_succ_of_le (ih cmd2 x h2)

theorem parse_length (ops : ValueOps σ) (r r2 : flagable σ) (args rest : List GoString)
    (h : parse ops r args = .ok (rest, r2)) : rest.length ≤ args.length := by
  obtain ⟨r1, r3, _, h3, _⟩ := parse_ok ops r r2 args rest h
  exact parseLoop_length ops args r1 _ h3

theorem CLI_parse_ok (ops : ValueOps σ) (cmd cmd1 : CLI σ) (args rest : List GoString)
    (h : CLI.parse ops cmd args = .ok (rest, cmd1)) :
    ∃ reg, parse ops cmd.reg args = .ok (rest, reg) ∧ cmd1 = { cmd with reg := reg } := by
  unfold CLI.parse at h
  cases hp : parse ops cmd.reg args with
  | error e s => simp [hp] at h
  | ok x =>
    obtain ⟨rest1, reg⟩ := x
    simp only [hp, Res.ok.injEq, Prod.mk.injEq] at h
    obtain ⟨h1, h2⟩ := h
    subst h1
    exact ⟨reg, rfl, h2.symm⟩

theorem startTokens_cons (osArgs : List GoString) (a0 : GoString) (tl : List GoString) :
    startTokens osArgs (some (a0 :: tl)) = tl := by
  cases tl <;> simp [startTokens]

/-- One call of Start with fuel left, as the cases of its body. -/
theorem Start_succ (ops : ValueOps σ) (osArgs : List GoString) (fuel : Nat) (w : Program σ)
    (i : Nat) (args : Option (List GoString)) :
    Start ops osArgs (fuel + 1) w i args =
      match w.cmds[i]? with
      | none => .aborted .nilPointer w
      | some cmd =>
        match CLI.parse ops cmd (startTokens osArgs args) with
        | .error e s => .aborted e { w with cmds := w.cmds.set i { cmd with reg := s } }
        | .ok (args, cmd1) =>
          match parseSubCommands (Start ops osArgs fuel)
              { w with cmds := w.cmds.set i cmd1 } cmd1 args with
          | .resolved r => r
          | .unresolved args =>
            .done { cmds := w.cmds.set i (assignUnparsedArgs cmd1 args),
                    calls := w.calls ++ [i] } := by
  rw [Start]

/-- Start when the command resolves no child: the tokens left over are bound and the handler
of the command is called. -/
theorem Start_leaf (ops : ValueOps σ) (osArgs : List GoString) (fuel : Nat) (w : Program σ)
    (i : Nat) (args : Option (List GoString)) (cmd cmd1 : CLI σ) (rest : List GoString)
    (hc : w.cmds[i]? = some cmd)
    (hp : CLI.parse ops cmd (startTokens osArgs args) = .ok (rest, cmd1))
    (hn : ∀ name tl, rest = name :: tl → mapLookup name cmd1.subCommands = none) :
    Start ops osArgs (fuel + 1) w i args =
      .done { cmds := w.cmds.set i (assignUnparsedArgs cmd1 rest),
              calls := w.calls ++ [i] } := by
  rw [Start_succ]
  simp only [hc, hp]
  cases rest with
  | nil => simp only [parseSubCommands]
  | cons name tl => simp only [parseSubCommands, hn name tl rfl]

/-- Start when the first token left over names a child: the call is the call of Start on the
child. -/
theorem Start_child (ops : ValueOps σ) (osArgs : List GoString) (fuel : Nat) (w : Program σ)
    (i : Nat) (args : Option (List GoString)) (cmd cmd1 : CLI σ) (name : GoString)
    (tl : List GoString) (c : Nat)
    (hc : w.cmds[i]? = some cmd)
    (hp : CLI.parse ops cmd (startTokens osArgs args) = .ok (name :: tl, cmd1))
    (hn : mapLookup name cmd1.subCommands = some c) :
    Start ops osArgs (fuel + 1) w i args =
      Start ops osArgs fuel { w with cmds := w.cmds.set i cmd1 } c (some (name :: tl)) := by
  rw [Start_succ]
  simp only [hc, hp, parseSubCommands, hn]

theorem Start_cases (ops : ValueOps σ) (osArgs : List GoString) (fuel : Nat) (w : Program σ)
    (i : Nat) (args : Option (List GoString)) :
    (w.cmds[i]? = none ∧ Start ops osArgs (fuel + 1) w i args = .aborted .nilPointer w) ∨
    (∃ cmd e s, w.cmds[i]? = some cmd ∧
      parse ops cmd.reg (startTokens osArgs args) = .error e s ∧
      Start ops osArgs (fuel + 1) w i args =
        .aborted e { w with cmds := w.cmds.set i { cmd with reg := s } }) ∨
    (∃ cmd rest reg, w.cmds[i]? = some cmd ∧
      parse ops cmd.reg (startTokens osArgs args) = .ok (rest, reg) ∧
      (∀ name tl, rest = name :: tl → mapLookup name cmd.subCommands = none) ∧
      Start ops osArgs (fuel + 1) w i args =
        .done { cmds := w.cmds.set i (assignUnparsedArgs { cmd with reg := reg } rest),
                calls := w.calls ++ [i] }) ∨
    (∃ cmd name tl reg c, w.cmds[i]? = some cmd ∧
      parse ops cmd.reg (startTokens osArgs args) = .ok (name :: tl, reg) ∧
      mapLookup name cmd.subCommands = some c ∧
      Start ops osArgs (fuel + 1) w i args =
        Start ops osArgs fuel { w with cmds := w.cmds.set i { cmd with reg := reg } } c
          (some (name :: tl))) := by
  cases hc : w.cmds[i]? with
  | none =>
    left
    refine ⟨rfl, ?_⟩
    rw [Start_succ]
    simp only [hc]
  | some cmd =>
    right
    cases hp : CLI.parse ops cmd (startTokens osArgs args) with
    | error e s =>
      left
      refine ⟨cmd, e, s, rfl, ?_, ?_⟩
      · unfold CLI.parse at hp
        cases hq : parse ops cmd.reg (startTokens osArgs args) with
        | error e2 s2 =>
          simp only [hq, Res.error.injEq] at hp
          rw [hp.1, hp.2]
        | ok x => simp [hq] at hp
      · rw [Start_succ]
        simp only [hc, hp]
    | ok x =>
      right
      obtain ⟨rest, cmd1⟩ := x
      obtain ⟨reg, hq, h1⟩ := CLI_parse_ok ops cmd cmd1 _ rest hp
      subst h1
      cases rest with
      | nil =>
        left
        refine ⟨cmd, [], reg, rfl, hq, (fun _ _ h => by cases h), ?_⟩
        exact Start_leaf ops osArgs fuel w i args cmd _ [] hc hp (fun _ _ h => by cases h)
      | cons name tl =>
        cases hn : mapLookup name cmd.subCommands with
        | none =>
          left
          refine ⟨cmd, name :: tl, reg, rfl, hq, ?_, ?_⟩
          · intro n t h
            cases h
            exact hn
          · apply Start_leaf ops osArgs fuel w i args cmd _ _ hc hp
            intro n t h
            cases h
            exact hn
        | some c =>
          right
          exact ⟨cmd, name, tl, reg, c, rfl, hq, hn,
            Start_child ops osArgs fuel w i args cmd _ name tl c hc hp hn⟩

theorem Start_done (ops : ValueOps σ) (osArgs : List GoString) :
    ∀ (fuel : Nat) (w w2 : Program σ) (i : Nat) (args : Option (List GoString)),
      Start ops osArgs fuel w i args = .done w2 →
      ∃ j, w2.calls = w.calls ++ [j] ∧ Dispatch ops w i (startTokens osArgs args) j := by
  intro fuel
  induction fuel with
  | zero =>
    intro w w2 i args h
    simp [Start] at h
  | succ fuel ih =>
    intro w w2 i args h
    rcases Start_cases ops osArgs fuel w i args with ⟨_, h1⟩ | ⟨_, _, _, _, _, h1⟩ |
      ⟨cmd, rest, reg, hc, hp, hn, h1⟩ | ⟨cmd, name, tl, reg, c, hc, hp, hn, h1⟩
    · rw [h1] at h
      cases h
    · rw [h1] at h
      cases h
    · rw [h1] at h
      cases h
      exact ⟨i, rfl, Dispatch.leaf w i cmd _ rest reg hc hp hn⟩
    · rw [h1] at h
      obtain ⟨j, hj, hd⟩ := ih _ _ _ _ h
      rw [startTokens_cons] at hd
      exact ⟨j, hj, Dispatch.child w i cmd _ name tl reg c j hc hp hn hd⟩

theorem Start_aborted (ops : ValueOps σ) (osArgs : List GoString) :
    ∀ (fuel : Nat) (w w2 : Program σ) (i : Nat) (args : Option (List GoString)) (e : Err),
      Start ops osArgs fuel w i args = .aborted e w2 → w2.calls = w.calls := by
  intro fuel
  induction fuel with
  | zero =>
    intro w w2 i args e h
    simp [Start] at h
  | succ fuel ih =>
    intro w w2 i args e h
    rcases Start_cases ops osArgs fuel w i args with ⟨_, h1⟩ | ⟨_, _, _, _, _, h1⟩ |
      ⟨cmd, rest, reg, hc, hp, hn, h1⟩ | ⟨cmd, name, tl, reg, c, hc, hp, hn, h1⟩
    · rw [h1] at h
      cases h
      rfl
    · rw [h1] at h
      cases h
      rfl
    · rw [h1] at h
      cases h
    · rw [h1] at h
      have h2 := ih _ _ _ _ e h
      exact h2

theorem Start_fuel (ops : ValueOps σ) (osArgs : List GoString) :
    ∀ (fuel : Nat) (w : Program σ) (i : Nat) (args : Option (List GoString)),
      (startTokens osArgs args).length < fuel →
      Start ops osArgs fuel w i args ≠ .exhausted := by
  intro fuel
  induction fuel with
  | zero =>
    intro w i args h
    exact absurd h (Nat.not_lt_zero _)
  | succ fuel ih =>
    intro w i args hlt
    rcases Start_cases ops osArgs fuel w i args with ⟨_, h1⟩ | ⟨_, _, _, _, _, h1⟩ |
      ⟨cmd, rest, reg, hc, hp, hn, h1⟩ | ⟨cmd, name, tl, reg, c, hc, hp, hn, h1⟩
    · rw [h1]
      exact fun h => Run.noConfusion h
    · rw [h1]
      exact fun h => Run.noConfusion h
    · rw [h1]
      exact fun h => Run.noConfusion h
    · rw [h1]
      apply ih
      rw [startTokens_cons]
      have := parse_length ops _ _ _ _ hp
      simp only [List.length_cons] at this
      omega

/-! ## The claims -/

/-- C1. After a parse that completes without error every defined flag, the automatically
registered ones included, has an entry among the parsed values, and FlagCount equals the
number of defined flags.  The registry is one the operations build (`WF`) and its values
accept their own frozen default strings, which is the contract of a `Value`. -/
theorem C1_parse_flagCount_eq_defined (ops : ValueOps σ) (r r2 : flagable σ)
    (args rest : List GoString) (hwf : WF r) (hacc : AcceptsDefaults ops r)
    (hb : (ops.Set (ops.newBoolValue false) (ops.String (ops.newBoolValue false))).isSome)
    (h : parse ops r args = .ok (rest, r2)) :
    FlagCount r2 = r2.flags.length ∧ ∀ np ∈ r2.flags, np.2 ∈ r2.flagValues := by
  obtain ⟨r1, r3, h1, h3, h4⟩ := parse_ok ops r r2 args rest h
  have hwf1 := prepare_wf ops r r1 hwf h1
  have hacc1 := prepare_accepts ops r r1 hwf hacc hb h1
  have hr := parseLoop_reach ops [] r1 r3 args rest hwf1 (by simp) h3
  have hwf3 := hr.wf (fun q hq => hq.1) hwf1
  obtain ⟨r4, h4a, hr4, hset⟩ := setFlagDefaults_spec ops r3 hwf3
  rw [h4] at h4a
  simp only [Res.ok.injEq] at h4a
  subst h4a
  have hwf2 := hr4.wf (fun q hq => hq.1) hwf3
  have hall : ∀ np ∈ r2.flags, np.2 ∈ r2.flagValues := by
    intro np hnp
    rw [hr4.maps.1] at hnp
    have hq : np.2 ∈ r3.flags.map Prod.snd := List.mem_map.2 ⟨np, hnp, rfl⟩
    by_cases hfv : np.2 ∈ r3.flagValues
    · exact hr4.mem _ hfv
    · obtain ⟨f, hf⟩ := heap_of_mem r3 hwf3 _ hq
      obtain ⟨hfv1, hheap⟩ := hr.unset _ hfv
      have ha := hacc1 np (by rw [← hr.maps.1]; exact hnp) hfv1
      unfold acceptsDefault at ha
      rw [← hheap, hf] at ha
      simp only [Option.isSome_iff_exists] at ha
      obtain ⟨w, hw⟩ := ha
      exact ((hset _ hq hfv f hf).1 w hw).2
  refine ⟨?_, hall⟩
  unfold FlagCount
  rw [← List.length_map r2.flags Prod.snd]
  refine length_eq_of_nodup_of_mem_iff hwf2.2.2.1 hwf2.2.1 (fun a => ⟨hwf2.2.2.2.2.2 a, ?_⟩)
  intro ha
  obtain ⟨np, hnp, e⟩ := List.mem_map.1 ha
  exact e ▸ hall np hnp

/-- C2. A flag whose value renders as its frozen default `D`, and which no token of the list
names (neither by its name nor by an alias), renders as `D` after a successful parse.  The
value accepts its own rendering and renders it back, which is the contract of a `Value`. -/
theorem C2_unsupplied_flag_renders_default (ops : ValueOps σ) (r r1 r2 : flagable σ)
    (args rest : List GoString) (n : GoString) (p : Nat) (f : Flag σ) (hwf : WF r)
    (hprep : prepare ops r = .ok r1) (hn : mapLookup n r1.flags = some p)
    (hf : r1.heap[p]? = some f) (hD : ops.String f.value = f.DefValue)
    (hrt : ∃ w, ops.Set f.value f.DefValue = some w ∧ ops.String w = f.DefValue)
    (hav : ∀ t ∈ args, mentions r1 p t = false)
    (h : parse ops r args = .ok (rest, r2)) :
    ∃ v, flagable.Flag r2 n = .ok (some v) ∧ ops.String v = f.DefValue := by
  obtain ⟨r1a, r3, h1, h3, h4⟩ := parse_ok ops r r2 args rest h
  rw [hprep] at h1
  simp only [Res.ok.injEq] at h1
  subst h1
  have hwf1 := prepare_wf ops r r1 hwf hprep
  have hr := parseLoop_reach ops [p] r1 r3 args rest hwf1
    (fun t ht q hq => by
      simp only [List.mem_singleton] at hq
      rw [hq]
      exact hav t ht) h3
  have hwf3 := hr.wf (fun q hq => hq.1) hwf1
  have hk := hr.keeps p (fun hq => hq.2 (by simp))
  obtain ⟨r4, h4a, hr4, hset⟩ := setFlagDefaults_spec ops r3 hwf3
  rw [h4] at h4a
  simp only [Res.ok.injEq] at h4a
  subst h4a
  have hl2 : mapLookup n r2.flags = some p := by rw [hr4.maps.1, hr.maps.1]; exact hn
  have hq3 : p ∈ r3.flags.map Prod.snd := by
    rw [hr.maps.1]; exact mem_snd_of_lookup n p _ hn
  have hf3 : r3.heap[p]? = some f := hk.1.trans hf
  by_cases hfv : p ∈ r3.flagValues
  · have hk4 := hr4.keeps p (fun hq => hq.2 hfv)
    refine ⟨f.value, ?_, hD⟩
    simp [flagable.Flag, hl2, hk4.2.2 hfv, hk4.1.trans hf3]
  · obtain ⟨w, hw, hws⟩ := hrt
    obtain ⟨a1, a2⟩ := (hset p hq3 hfv f hf3).1 w hw
    refine ⟨w, ?_, hws⟩
    simp [flagable.Flag, hl2, a1, a2]

/-- C3, amended. For a flag registered under a name `n` (not empty, without `=`) and a value
string `v` that is not empty and does not end in `=`, parse of the single token `--n=v`
consumes the token and leaves the flag set to what `Set` makes of the part of `v` before its
first `=` (all of `v` when it contains none), provided the value of the flag accepts that
part; the defaults do not overwrite it. -/
theorem C3_long_value_assigned (ops : ValueOps σ) (r r1 : flagable σ) (n v : GoString)
    (p : Nat) (f : Flag σ) (w : σ) (hwf : WF r) (hprep : prepare ops r = .ok r1)
    (hnt : r.flagsTerminated = false) (hn : mapLookup n r1.flags = some p)
    (hf : r1.heap[p]? = some f) (hn0 : n ≠ []) (hne : '=' ∉ n) (hv0 : v ≠ [])
    (hvl : v.getLast? ≠ some '=') (hw : ops.Set f.value ((Split v '=').headD []) = some w) :
    ∃ r2, parse ops r ['-' :: '-' :: (n ++ '=' :: v)] = .ok ([], r2) ∧
      flagable.Flag r2 n = .ok (some w) ∧ r2.heap[p]? = some { f with value := w } := by
  have hwf1 := prepare_wf ops r r1 hwf hprep
  have hnt1 : r1.flagsTerminated = false := (prepare_same ops r r1 hprep).2.1.trans hnt
  have hq : p ∈ r1.flags.map Prod.snd := mem_snd_of_lookup n p _ hn
  have hpre : '=' ∉ '-' :: '-' :: n := by simp [hne]
  have hsfx : valueSuffix ('=' :: v) := Or.inr ⟨v, rfl, hv0, hvl⟩
  obtain ⟨v0, rest, hv⟩ : ∃ v0 rest, Split v '=' = v0 :: rest := by
    cases hs : Split v '=' with
    | nil => exact absurd hs (Split_ne_nil _ _)
    | cons v0 rest => exact ⟨v0, rest, rfl⟩
  have hsplit : Split ('-' :: '-' :: (n ++ '=' :: v)) '=' = ('-' :: '-' :: n) :: v0 :: rest := by
    have := Split_append_sep ('-' :: '-' :: n) v '=' hpre
    rw [hv] at this
    simpa using this
  rw [hv] at hw
  simp only [List.headD_cons] at hw
  have h3 : parseLoop ops r1 ['-' :: '-' :: (n ++ '=' :: v)] =
      .ok ([], assign ops r1 p v0) := by
    rw [parseLoop_long ops r1 _ n [] p hnt1
        (by simpa using token_last ('-' :: '-' :: n) ('=' :: v) hpre (by simp) hsfx)
        (by simpa using token_head ('-' :: '-' :: n) ('=' :: v) hpre hsfx) hn0 hn,
      setFlagValue_value ops r1 p _ _ v0 rest hwf1 hq hsplit]
    simp [parseLoop]
  obtain ⟨a1, a2⟩ := assign_some ops r1 p v0 f w hf hw
  obtain ⟨r2, h2, hr⟩ := parse_finish ops r r1 _ _ _ (WF_assign ops r1 p v0 hwf1 hq) hprep h3
  have hk := hr.keeps p (fun hq => hq.2 a2)
  have hl2 : mapLookup n r2.flags = some p := by
    rw [hr.maps.1, (assign_flags ops r1 p v0).1]; exact hn
  refine ⟨r2, h2, ?_, hk.1.trans a1⟩
  exact Flag_of_heap r2 n p _ hl2 (hk.2.2 a2) (hk.1.trans a1)

/-- C4. For a flag registered under a name `n` (not empty, without `=`), parse of the single
token `--n` sets the flag to what `Set` makes of "true" when its value is self-sufficient,
and otherwise aborts with the missing-value error, in the registry as it was before the
token: nothing has been assigned. -/
theorem C4_long_valueless (ops : ValueOps σ) (r r1 : flagable σ) (n : GoString) (p : Nat)
    (f : Flag σ) (hwf : WF r) (hprep : prepare ops r = .ok r1)
    (hnt : r.flagsTerminated = false) (hn : mapLookup n r1.flags = some p)
    (hf : r1.heap[p]? = some f) (hn0 : n ≠ []) (hne : '=' ∉ n) :
    (selfSufficient ops f.value = true → ∀ w, ops.Set f.value "true".toList = some w →
      ∃ r2, parse ops r ['-' :: '-' :: n] = .ok ([], r2) ∧
        flagable.Flag r2 n = .ok (some w)) ∧
    (selfSufficient ops f.value = false →
      parse ops r ['-' :: '-' :: n] = .error (.missingValue n) r1) := by
  have hwf1 := prepare_wf ops r r1 hwf hprep
  have hnt1 : r1.flagsTerminated = false := (prepare_same ops r r1 hprep).2.1.trans hnt
  have hq : p ∈ r1.flags.map Prod.snd := mem_snd_of_lookup n p _ hn
  have hname : f.Name = n := by
    have := hwf1.2.2.2.1 (n, p) (mapLookup_mem n p _ hn)
    rw [hf] at this
    simpa using this
  have hsplit : Split ('-' :: '-' :: n) '=' = ['-' :: '-' :: n] :=
    Split_of_not_mem _ _ (by simp [hne])
  have hlast : ('-' :: '-' :: n).getLast? ≠ some '=' :=
    last_ne_of_suffix ['-', '-'] n hn0 hne
  have hstep := parseLoop_long ops r1 _ n [] p hnt1 hlast (by rw [hsplit]; rfl) hn0 hn
  rw [setFlagValue_novalue ops r1 p _ _ f hwf1 hq hf hsplit] at hstep
  constructor
  · intro hs w hw
    have h3 : parseLoop ops r1 ['-' :: '-' :: n] = .ok ([], assign ops r1 p "true".toList) := by
      rw [hstep]
      simp [hs, parseLoop]
    obtain ⟨a1, a2⟩ := assign_some ops r1 p _ f w hf hw
    obtain ⟨r2, h2, hr⟩ := parse_finish ops r r1 _ _ _ (WF_assign ops r1 p _ hwf1 hq) hprep h3
    have hk := hr.keeps p (fun hq => hq.2 a2)
    have hl2 : mapLookup n r2.flags = some p := by
      rw [hr.maps.1, (assign_flags ops r1 p _).1]; exact hn
    exact ⟨r2, h2, Flag_of_heap r2 n p _ hl2 (hk.2.2 a2) (hk.1.trans a1)⟩
  · intro hs
    simp only [hs, Bool.false_eq_true, if_false, hname] at hstep
    simp [parse, hprep, hstep]

/-- C5, amended. A short cluster with a value, `-c1...ck=v`, whose characters are aliases of
the flags `ps ++ [pk]` and whose value `v` is not empty and does not end in `=`.  The value
given out is the part of `v` before its first `=` (all of `v` when it contains none).  When
every earlier flag is self-sufficient, parse consumes the token, every earlier flag is set to
what `Set` makes of "true", and that part of `v` goes to the flag of the last alias, when
this flag is not the flag of an earlier alias too; when an earlier flag is not
self-sufficient, parse aborts with the missing-value error for such a flag.  The values keep
their kind under `Set`, and the self-sufficient ones accept "true". -/
theorem C5_short_cluster_value (ops : ValueOps σ) (r r1 : flagable σ) (c : Char)
    (cs : List Char) (v : GoString) (ps : List Nat) (pk : Nat) (hwf : WF r)
    (hprep : prepare ops r = .ok r1) (hnt : r.flagsTerminated = false) (hc : c ≠ '-')
    (hne : '=' ∉ c :: cs) (hv0 : v ≠ []) (hvl : v.getLast? ≠ some '=')
    (hps : List.Forall₂ (fun c p => mapLookup c r1.aliases = some p) (c :: cs) (ps ++ [pk]))
    (hkind : ∀ s x w, ops.Set s x = some w → selfSufficient ops w = selfSufficient ops s)
    (htrue : ∀ s, selfSufficient ops s = true → (ops.Set s "true".toList).isSome) :
    ((∀ q ∈ ps, ∀ g, r1.heap[q]? = some g → selfSufficient ops g.value = true) →
      ∃ r2, parse ops r ['-' :: c :: (cs ++ '=' :: v)] = .ok ([], r2) ∧
        (∀ q ∈ ps, SetTo ops r2 q "true".toList) ∧
        (pk ∉ ps → ∀ f w, r1.heap[pk]? = some f →
          ops.Set f.value ((Split v '=').headD []) = some w →
          r2.heap[pk]? = some { f with value := w } ∧ pk ∈ r2.flagValues)) ∧
    ((∃ q ∈ ps, ∃ g, r1.heap[q]? = some g ∧ selfSufficient ops g.value = false) →
      ∃ q ∈ ps, ∃ g s, r1.heap[q]? = some g ∧ selfSufficient ops g.value = false ∧
        parse ops r ['-' :: c :: (cs ++ '=' :: v)] = .error (.missingValue g.Name) s) := by
  have hwf1 := prepare_wf ops r r1 hwf hprep
  have hnt1 : r1.flagsTerminated = false := (prepare_same ops r r1 hprep).2.1.trans hnt
  have hptr : ∀ q ∈ ps ++ [pk], q ∈ r1.flags.map Prod.snd := by
    intro q hq
    obtain ⟨d, -, hd⟩ := forall2_mem_right hps q hq
    exact hwf1.2.2.2.2.1 (d, q) (mapLookup_mem d q _ hd)
  have hpk : pk ∈ r1.flags.map Prod.snd := hptr pk (by simp)
  have hpre : '=' ∉ '-' :: c :: cs := by
    intro h
    rcases List.mem_cons.1 h with e | e
    · cases e
    · exact hne e
  have hsfx : valueSuffix ('=' :: v) := Or.inr ⟨v, rfl, hv0, hvl⟩
  obtain ⟨v0, rest, hv⟩ : ∃ v0 rest, Split v '=' = v0 :: rest := by
    cases hs : Split v '=' with
    | nil => exact absurd hs (Split_ne_nil _ _)
    | cons v0 rest => exact ⟨v0, rest, rfl⟩
  have hsplit : Split ('-' :: c :: (cs ++ '=' :: v)) '=' = ('-' :: c :: cs) :: v0 :: rest := by
    have := Split_append_sep ('-' :: c :: cs) v '=' hpre
    rw [hv] at this
    simpa using this
  have hlast : ('-' :: c :: (cs ++ '=' :: v)).getLast? ≠ some '=' := by
    simpa using token_last ('-' :: c :: cs) ('=' :: v) hpre (by simp) hsfx
  have hstep := parseLoop_short ops r1 _ cs c [] (ps ++ [pk]) hnt1 hlast
    (by rw [hsplit]; rfl) hc hps
  rw [setAliasValues_value ops r1 ps pk _ _ v0 rest hwf1 hpk hsplit] at hstep
  have hwfa := WF_assign ops r1 pk v0 hwf1 hpk
  have hptra : ∀ q ∈ ps, q ∈ (assign ops r1 pk v0).flags.map Prod.snd := by
    intro q hq
    rw [(assign_flags ops r1 pk v0).1]
    exact hptr q (by simp [hq])
  constructor
  · intro hself
    obtain ⟨r3, h3, hr3, hall⟩ := setAliasLoop_all ops (assign ops r1 pk v0) ps hwfa hkind
      htrue hptra (fun q hq g1 hg1 => by
        obtain ⟨g0, hg0, -, hs0⟩ := assign_kind ops r1 pk v0 hkind q g1 hg1
        rw [← hs0]
        exact hself q hq g0 hg0)
    have hwf3 := hr3.wf (fun q hq => hptra q hq) hwfa
    have hloop : parseLoop ops r1 ['-' :: c :: (cs ++ '=' :: v)] = .ok ([], r3) := by
      rw [hstep, h3]
      simp [parseLoop]
    obtain ⟨r2, h2, hr⟩ := parse_finish ops r r1 r3 _ _ hwf3 hprep hloop
    refine ⟨r2, h2, ?_, ?_⟩
    · intro q hq
      obtain ⟨b1, g, s, b2, b3⟩ := hall q hq
      have hk := hr.keeps q (fun hx => hx.2 b1)
      exact ⟨hk.2.2 b1, g, s, hk.1.trans b2, b3⟩
    · intro hpn f w hf hw
      rw [hv] at hw
      simp only [List.headD_cons] at hw
      obtain ⟨a1, a2⟩ := assign_some ops r1 pk v0 f w hf hw
      have hk3 := hr3.keeps pk hpn
      have hk := hr.keeps pk (fun hx => hx.2 (hk3.2.2 a2))
      exact ⟨hk.1.trans (hk3.1.trans a1), hk.2.2 (hk3.2.2 a2)⟩
  · intro hbad
    obtain ⟨b, hb, gb, hgb, hsb⟩ := hbad
    obtain ⟨g1, hg1, -, hs1⟩ := assign_kind_rev ops r1 pk v0 hkind b gb hgb
    obtain ⟨x, hx, gx, s, hgx, hsx, herr⟩ := setAliasLoop_fail ops (assign ops r1 pk v0) ps
      hwfa hkind hptra ⟨b, hb, g1, hg1, hs1 ▸ hsb⟩
    obtain ⟨g0, hg0, hn0, hs0⟩ := assign_kind ops r1 pk v0 hkind x gx hgx
    refine ⟨x, hx, g0, s, hg0, hs0.trans hsx, ?_⟩
    rw [hn0]
    simp [parse, hprep, hstep, herr]

/-- C6. A short cluster without a value, `-c1...ck`, whose characters are aliases of the
flags `ps`: when every aliased flag is self-sufficient, parse consumes the token and each of
them is set to what `Set` makes of "true"; when one of them, the last included, is not
self-sufficient, parse aborts with the missing-value error for such a flag. -/
theorem C6_short_cluster_valueless (ops : ValueOps σ) (r r1 : flagable σ) (c : Char)
    (cs : List Char) (ps : List Nat) (hwf : WF r) (hprep : prepare ops r = .ok r1)
    (hnt : r.flagsTerminated = false) (hc : c ≠ '-') (hne : '=' ∉ c :: cs)
    (hps : List.Forall₂ (fun c p => mapLookup c r1.aliases = some p) (c :: cs) ps)
    (hkind : ∀ s x w, ops.Set s x = some w → selfSufficient ops w = selfSufficient ops s)
    (htrue : ∀ s, selfSufficient ops s = true → (ops.Set s "true".toList).isSome) :
    ((∀ q ∈ ps, ∀ g, r1.heap[q]? = some g → selfSufficient ops g.value = true) →
      ∃ r2, parse ops r ['-' :: c :: cs] = .ok ([], r2) ∧
        ∀ q ∈ ps, SetTo ops r2 q "true".toList) ∧
    ((∃ q ∈ ps, ∃ g, r1.heap[q]? = some g ∧ selfSufficient ops g.value = false) →
      ∃ q ∈ ps, ∃ g s, r1.heap[q]? = some g ∧ selfSufficient ops g.value = false ∧
        parse ops r ['-' :: c :: cs] = .error (.missingValue g.Name) s) := by
  have hwf1 := prepare_wf ops r r1 hwf hprep
  have hnt1 : r1.flagsTerminated = false := (prepare_same ops r r1 hprep).2.1.trans hnt
  have hptr : ∀ q ∈ ps, q ∈ r1.flags.map Prod.snd := by
    intro q hq
    obtain ⟨d, -, hd⟩ := forall2_mem_right hps q hq
    exact hwf1.2.2.2.2.1 (d, q) (mapLookup_mem d q _ hd)
  have hsplit : Split ('-' :: c :: cs) '=' = ['-' :: c :: cs] :=
    Split_of_not_mem _ _ (by
      intro h
      rcases List.mem_cons.1 h with e | e
      · cases e
      · exact hne e)
  have hlast : ('-' :: c :: cs).getLast? ≠ some '=' :=
    last_ne_of_suffix ['-'] (c :: cs) (by simp) hne
  have hstep := parseLoop_short ops r1 _ cs c [] ps hnt1 hlast (by rw [hsplit]; rfl) hc hps
  rw [setAliasValues_novalue ops r1 ps _ _ hsplit] at hstep
  constructor
  · intro hself
    obtain ⟨r3, h3, hr3, hall⟩ := setAliasLoop_all ops r1 ps hwf1 hkind htrue hptr hself
    have hwf3 := hr3.wf (fun q hq => hptr q hq) hwf1
    have hloop : parseLoop ops r1 ['-' :: c :: cs] = .ok ([], r3) := by
      rw [hstep, h3]
      simp [parseLoop]
    obtain ⟨r2, h2, hr⟩ := parse_finish ops r r1 r3 _ _ hwf3 hprep hloop
    refine ⟨r2, h2, ?_⟩
    intro q hq
    obtain ⟨b1, g, s, b2, b3⟩ := hall q hq
    have hk := hr.keeps q (fun hx => hx.2 b1)
    exact ⟨hk.2.2 b1, g, s, hk.1.trans b2, b3⟩
  · intro hbad
    obtain ⟨x, hx, gx, s, hgx, hsx, herr⟩ := setAliasLoop_fail ops r1 ps hwf1 hkind hptr hbad
    exact ⟨x, hx, gx, s, hgx, hsx, by simp [parse, hprep, hstep, herr]⟩

/-- C7. After tokens `F` that parse consumes whole, the terminator `--` halts the scan:
parse of `F ++ ["--"] ++ R` returns exactly `"--" :: R`, the terminator included, and the
registry is the one the parse of `F` alone leaves, terminated: no token of `R` has been
read as a flag. -/
theorem C7_terminator_returned (ops : ValueOps σ) (r rF : flagable σ) (F R : List GoString)
    (hF : parse ops r F = .ok ([], rF)) :
    parse ops r (F ++ "--".toList :: R) =
      .ok ("--".toList :: R, { rF with flagsTerminated := true }) :=
  parse_stop ops r rF F R _ hF (fun cmd hnt => flagFromArg_terminator cmd hnt)

/-- C8, amended. After tokens `F` that parse consumes whole, a token that starts with a
character other than `-` and `=` and does not end in `=` stops the scan: parse of
`F ++ [t] ++ R` sets `flagsTerminated` and returns exactly `t :: R`. -/
theorem C8_nonflag_token_returned (ops : ValueOps σ) (r rF : flagable σ)
    (F R : List GoString) (c : Char) (tl : GoString) (hF : parse ops r F = .ok ([], rF))
    (hc : c ≠ '-') (hc2 : c ≠ '=') (hlast : (c :: tl).getLast? ≠ some '=') :
    parse ops r (F ++ (c :: tl) :: R) =
      .ok ((c :: tl) :: R, { rF with flagsTerminated := true }) := by
  refine parse_stop ops r rF F R _ hF (fun cmd hnt => ?_)
  have hhead : ∃ h, (Split (c :: tl) '=').headD [] = c :: h := by
    unfold Split
    simp only [hc2, if_false]
    split
    · exact ⟨[], rfl⟩
    · exact ⟨_, rfl⟩
  obtain ⟨h, hh⟩ := hhead
  exact flagFromArg_nonflag cmd (c :: tl) h c hnt hlast hh hc

/-- C10. After tokens `F` that parse consumes whole on a registry that is not terminated, a
long token `--n` or `--n=v` whose name is not registered (the automatic definitions
included) aborts parse with the unknown-flag error, and a short cluster with a character
that is not in the alias map aborts parse with the unknown-alias error for such a
character. -/
theorem C10_unknown_flag_or_alias (ops : ValueOps σ) (r rF : flagable σ)
    (F R : List GoString) (hF : parse ops r F = .ok ([], rF))
    (hnt : r.flagsTerminated = false) :
    (∀ n sfx : GoString, n ≠ [] → '=' ∉ n → valueSuffix sfx →
      mapLookup n rF.flags = none →
      ∃ s, parse ops r (F ++ ('-' :: '-' :: (n ++ sfx)) :: R) = .error .invalidFlag s) ∧
    (∀ (c : Char) (cs sfx : GoString), c ≠ '-' → '=' ∉ c :: cs → valueSuffix sfx →
      (∃ d ∈ c :: cs, mapLookup d rF.aliases = none) →
      ∃ d ∈ c :: cs, mapLookup d rF.aliases = none ∧
        ∃ s, parse ops r (F ++ ('-' :: c :: (cs ++ sfx)) :: R) = .error (.invalidAlias d) s) := by
  obtain ⟨r1, r3, h1, h3, h4⟩ := parse_ok ops r rF F [] hF
  obtain ⟨hG, -, -, hnt3⟩ := parseLoop_append ops r1 r3 F h3
  have hnt3 := hnt3 ((prepare_same ops r r1 h1).2.1.trans hnt)
  obtain ⟨e1, e2, -⟩ := setFlagDefaultsLoop_frame ops r3 rF r3.flags h4
  constructor
  · intro n sfx hn0 hne hs hun
    have hpre : '=' ∉ '-' :: '-' :: n := by simp [hne]
    have hloop := parseLoop_long_unknown ops r3 ('-' :: '-' :: (n ++ sfx)) n R hnt3
      (token_last ('-' :: '-' :: n) sfx hpre (by simp) hs)
      (token_head ('-' :: '-' :: n) sfx hpre hs) hn0 (by rw [← e1]; exact hun)
    exact ⟨r3, by simp [parse, h1, hG, hloop]⟩
  · intro c cs sfx hc hne hs hun
    have hpre : '=' ∉ '-' :: c :: cs := by
      intro h
      rcases List.mem_cons.1 h with e | e
      · cases e
      · exact hne e
    obtain ⟨d, hd, hdn, hloop⟩ := parseLoop_short_unknown ops r3 ('-' :: c :: (cs ++ sfx)) cs
      c R hnt3 (token_last ('-' :: c :: cs) sfx hpre (by simp) hs)
      (token_head ('-' :: c :: cs) sfx hpre hs) hc (by rw [← e2]; exact hun)
    exact ⟨d, hd, by rw [e2]; exact hdn, r3, by simp [parse, h1, hG, hloop]⟩

/-! ## Evaluation on the registry `demo` -/

theorem valOps_kind (s : Val) (x : GoString) (w : Val) (h : valOps.Set s x = some w) :
    selfSufficient valOps w = selfSufficient valOps s := by
  cases s <;> simp only [valOps, Option.map_eq_some'] at h
  · obtain ⟨b, -, e⟩ := h
    rw [← e]
    rfl
  · obtain ⟨i, -, e⟩ := h
    rw [← e]
    rfl
  · simp only [Option.some.injEq] at h
    rw [← h]
    rfl

theorem valOps_true (s : Val) (h : selfSufficient valOps s = true) :
    (valOps.Set s "true".toList).isSome := by
  cases s with
  | boolV b => rfl
  | intV i => simp [selfSufficient, valOps] at h
  | stringV t => simp [selfSufficient, valOps] at h

/-- The registry `demo` is what the definitions leave, and `demoPrepared` what the automatic
definitions of parse make of it. -/
theorem defineDemo_eq : defineDemo = .ok demo ∧ prepare valOps demo = .ok demoPrepared := by
  decide

/-- C1 on `demo`: four flags are defined after the parse, the automatic "help" included,
and four have a parsed value. -/
theorem C1_witness :
    WF demo ∧ AcceptsDefaults valOps demo ∧
    parse valOps demo ["-a".toList, "--count=5".toList, "sub".toList, "-x".toList] =
      .ok (["sub".toList, "-x".toList], demoWith 5 true "x".toList false [3, 2, 0, 1] true) ∧
    FlagCount (demoWith 5 true "x".toList false [3, 2, 0, 1] true) = 4 := by
  refine ⟨by decide, by decide, by decide, ?_⟩
  exact (C1_parse_flagCount_eq_defined valOps demo _ _ _ (by decide) (by decide) (by decide)
    (by decide : parse valOps demo ["-a".toList, "--count=5".toList, "sub".toList,
      "-x".toList] = .ok (["sub".toList, "-x".toList],
        demoWith 5 true "x".toList false [3, 2, 0, 1] true))).1

/-- C2 on `demo`: no token names "name", which still renders as its default `x`. -/
theorem C2_witness :
    parse valOps demo ["--count=5".toList, "-a".toList] =
      .ok ([], demoWith 5 true "x".toList false [3, 2, 1, 0] false) ∧
    ∃ v, flagable.Flag (demoWith 5 true "x".toList false [3, 2, 1, 0] false) "name".toList =
      .ok (some v) ∧ valOps.String v = "x".toList :=
  ⟨by decide,
    C2_unsupplied_flag_renders_default valOps demo demoPrepared _
      ["--count=5".toList, "-a".toList] [] "name".toList 2 nameFlag (by decide) (by decide)
      (by decide) (by decide) (by decide) ⟨.stringV "x".toList, by decide, by decide⟩
      (by decide) (by decide)⟩

/-- C3, as stated, fails: the string flag "name" accepts the value `a=b`, which does not end
in `=`, and parse of `--name=a=b` leaves the flag set to `a`; it accepts the empty value
too, and parse of `--name=` aborts. -/
theorem C3_counterexample :
    valOps.Set nameFlag.value "a=b".toList = some (.stringV "a=b".toList) ∧
    "a=b".toList.getLast? ≠ some '=' ∧
    parse valOps demo ["--name=a=b".toList] =
      .ok ([], demoWith 0 false "a".toList false [3, 1, 0, 2] false) ∧
    flagable.Flag (demoWith 0 false "a".toList false [3, 1, 0, 2] false) "name".toList =
      .ok (some (.stringV "a".toList)) ∧
    valOps.Set nameFlag.value [] = some (.stringV []) ∧
    ([] : GoString).getLast? ≠ some '=' ∧
    parse valOps demo ["--name=".toList] = .error .invalidFlagFormat demoPrepared := by
  decide

/-- C3 amended, on `demo`: `--count=5` leaves the integer flag "count" at 5. -/
theorem C3_witness :
    ∃ r2, parse valOps demo ["--count=5".toList] = .ok ([], r2) ∧
      flagable.Flag r2 "count".toList = .ok (some (.intV 5)) ∧
      r2.heap[0]? = some { countFlag with value := .intV 5 } :=
  C3_long_value_assigned valOps demo demoPrepared "count".toList "5".toList 0 countFlag
    (.intV 5) (by decide) (by decide) (by decide) (by decide) (by decide) (by decide)
    (by decide) (by decide) (by decide) (by decide)

/-- C4 on `demo`: `--all` sets the boolean flag, `--count` alone aborts before assigning. -/
theorem C4_witness :
    (∃ r2, parse valOps demo ["--all".toList] = .ok ([], r2) ∧
      flagable.Flag r2 "all".toList = .ok (some (.boolV true))) ∧
    parse valOps demo ["--count".toList] =
      .error (.missingValue "count".toList) demoPrepared :=
  ⟨(C4_long_valueless valOps demo demoPrepared "all".toList 1 allFlag (by decide) (by decide)
      (by decide) (by decide) (by decide) (by decide) (by decide)).1 (by decide) _ (by decide),
   (C4_long_valueless valOps demo demoPrepared "count".toList 0 countFlag (by decide)
      (by decide) (by decide) (by decide) (by decide) (by decide) (by decide)).2 (by decide)⟩

/-- C5, as stated, fails: in `demoNamed` the characters `a` and `n` are aliases of the boolean
flag "all" and the string flag "name", which accepts the value `a=b`; parse of `-an=a=b`
leaves "name" set to `a`, not to `a=b`.  With the empty value, parse of `-an=` aborts. -/
theorem C5_counterexample :
    AliasFlag demo 'n' "name".toList = .ok demoNamed ∧
    valOps.Set nameFlag.value "a=b".toList = some (.stringV "a=b".toList) ∧
    parse valOps demoNamed ["-an=a=b".toList] =
      .ok ([], { demoWith 0 true "a".toList false [3, 0, 1, 2] false with
                 aliases := demoNamed.aliases ++ [('h', 3)] }) ∧
    flagable.Flag { demoWith 0 true "a".toList false [3, 0, 1, 2] false with
                    aliases := demoNamed.aliases ++ [('h', 3)] } "name".toList =
      .ok (some (.stringV "a".toList)) ∧
    parse valOps demoNamed ["-an=".toList] =
      .error .invalidFlagFormat { demoPrepared with
                                  aliases := demoNamed.aliases ++ [('h', 3)] } := by
  decide

/-- C5 amended, on `demo`: `-ac=5` gives all = true and count = 5; `-ca=5` aborts, "count"
being an earlier alias that is not self-sufficient.  On `demoNamed`, `-an=a=b` gives
all = true and hands `a` to "name". -/
theorem C5_witness :
    parse valOps demo ["-ac=5".toList] =
      .ok ([], demoWith 5 true "x".toList false [3, 2, 1, 0] false) ∧
    parse valOps demo ["-ca=5".toList] =
      .error (.missingValue "count".toList) demoPrepared ∧
    (∃ r2, parse valOps demo ["-ac=5".toList] = .ok ([], r2) ∧
      (∀ q ∈ [1], SetTo valOps r2 q "true".toList) ∧
      (0 ∉ [1] → ∀ f w, demoPrepared.heap[0]? = some f →
        valOps.Set f.value ((Split "5".toList '=').headD []) = some w →
        r2.heap[0]? = some { f with value := w } ∧ 0 ∈ r2.flagValues)) ∧
    (∃ q ∈ [0], ∃ g s, demoPrepared.heap[q]? = some g ∧
      selfSufficient valOps g.value = false ∧
      parse valOps demo ["-ca=5".toList] = .error (.missingValue g.Name) s) ∧
    (∃ r2, parse valOps demoNamed ["-an=a=b".toList] = .ok ([], r2) ∧
      (∀ q ∈ [1], SetTo valOps r2 q "true".toList) ∧
      r2.heap[2]? = some { nameFlag with value := .stringV "a".toList } ∧
      2 ∈ r2.flagValues) :=
  ⟨by decide, by decide,
   (C5_short_cluster_value valOps demo demoPrepared 'a' ['c'] "5".toList [1] 0 (by decide)
      (by decide) (by decide) (by decide) (by decide) (by decide) (by decide)
      (List.Forall₂.cons (by decide) (List.Forall₂.cons (by decide) List.Forall₂.nil))
      valOps_kind valOps_true).1
      (fun q hq g hg => by
        simp only [List.mem_singleton] at hq
        subst hq
        have e : g = allFlag := by
          simpa [demoPrepared] using hg.symm
        rw [e]
        decide),
   (C5_short_cluster_value valOps demo demoPrepared 'c' ['a'] "5".toList [0] 1 (by decide)
      (by decide) (by decide) (by decide) (by decide) (by decide) (by decide)
      (List.Forall₂.cons (by decide) (List.Forall₂.cons (by decide) List.Forall₂.nil))
      valOps_kind valOps_true).2 ⟨0, by decide, countFlag, by decide, by decide⟩,
   by
    obtain ⟨r2, h2, h3, h4⟩ :=
      (C5_short_cluster_value valOps demoNamed
        { demoPrepared with aliases := demoNamed.aliases ++ [('h', 3)] } 'a' ['n']
        "a=b".toList [1] 2 (by decide) (by decide) (by decide) (by decide) (by decide)
        (by decide) (by decide)
        (List.Forall₂.cons (by decide) (List.Forall₂.cons (by decide) List.Forall₂.nil))
        valOps_kind valOps_true).1
        (fun q hq g hg => by
          simp only [List.mem_singleton] at hq
          subst hq
          have e : g = allFlag := by
            simpa [demoPrepared] using hg.symm
          rw [e]
          decide)
    obtain ⟨h5, h6⟩ := h4 (by decide) nameFlag (.stringV "a".toList) (by decide) (by decide)
    exact ⟨r2, h2, h3, h5, h6⟩⟩

/-- C6 on `demo`: `-ah` sets "all" and "help"; `-ac` aborts, "count" not being
self-sufficient. -/
theorem C6_witness :
    parse valOps demo ["-ah".toList] =
      .ok ([], demoWith 0 true "x".toList true [2, 0, 3, 1] false) ∧
    (∃ r2, parse valOps demo ["-ah".toList] = .ok ([], r2) ∧
      ∀ q ∈ [1, 3], SetTo valOps r2 q "true".toList) ∧
    (∃ q ∈ [1, 0], ∃ g s, demoPrepared.heap[q]? = some g ∧
      selfSufficient valOps g.value = false ∧
      parse valOps demo ["-ac".toList] = .error (.missingValue g.Name) s) :=
  ⟨by decide, (C6_short_cluster_valueless valOps demo demoPrepared 'a' ['h'] [1, 3] (by decide)
      (by decide) (by decide) (by decide) (by decide)
      (List.Forall₂.cons (by decide) (List.Forall₂.cons (by decide) List.Forall₂.nil))
      valOps_kind valOps_true).1
      (fun q hq g hg => by
        simp only [List.mem_cons, List.mem_singleton, List.not_mem_nil, or_false] at hq
        rcases hq with e | e
        · subst e
          have e1 : g = allFlag := by simpa [demoPrepared] using hg.symm
          rw [e1]
          decide
        · subst e
          have e1 : g = helpFlag := by simpa [demoPrepared] using hg.symm
          rw [e1]
          decide),
   (C6_short_cluster_valueless valOps demo demoPrepared 'a' ['c'] [1, 0] (by decide)
      (by decide) (by decide) (by decide) (by decide)
      (List.Forall₂.cons (by decide) (List.Forall₂.cons (by decide) List.Forall₂.nil))
      valOps_kind valOps_true).2 ⟨0, by decide, countFlag, by decide, by decide⟩⟩

/-- C7 on `demo`: after `--count=5`, the terminator and the two tokens behind it come
back. -/
theorem C7_witness :
    parse valOps demo ["--count=5".toList] =
      .ok ([], demoWith 5 false "x".toList false [3, 2, 1, 0] false) ∧
    parse valOps demo (["--count=5".toList] ++ "--".toList :: ["-x".toList, "--all".toList]) =
      .ok ("--".toList :: ["-x".toList, "--all".toList],
        { demoWith 5 false "x".toList false [3, 2, 1, 0] false with
          flagsTerminated := true }) :=
  ⟨by decide, C7_terminator_returned valOps demo _ ["--count=5".toList] _ (by decide)⟩

/-- C8, as stated, fails: the token `key=` does not start with a dash, and parse aborts on
it with the invalid-format error instead of returning it. -/
theorem C8_counterexample :
    "key=".toList.head? ≠ some '-' ∧
    parse valOps demo ([] ++ "key=".toList :: []) = .error .invalidFlagFormat demoPrepared := by
  decide

/-- C8 amended, on `demo`: after `--count=5`, the token `sub` and the token behind it come
back. -/
theorem C8_witness :
    parse valOps demo (["--count=5".toList] ++ "sub".toList :: ["-x".toList]) =
      .ok ("sub".toList :: ["-x".toList],
        { demoWith 5 false "x".toList false [3, 2, 1, 0] false with
          flagsTerminated := true }) :=
  C8_nonflag_token_returned valOps demo _ ["--count=5".toList] ["-x".toList] 's' "ub".toList
    (by decide) (by decide) (by decide) (by decide)

/-- C9, evaluated: the integer flag "count" rejects `abc`, and parse of `--count=abc`, as of
the cluster `-c=abc`, completes without error and leaves the flag at its default 0. -/
theorem C9_rejected_value_dropped :
    valOps.Set countFlag.value "abc".toList = none ∧
    parse valOps demo ["--count=abc".toList] =
      .ok ([], demoWith 0 false "x".toList false [3, 2, 1, 0] false) ∧
    parse valOps demo ["-c=abc".toList] =
      .ok ([], demoWith 0 false "x".toList false [3, 2, 1, 0] false) := by
  decide

/-- C10 on `demo`: after `--all`, the unregistered `--colour=red` and the cluster `-ax` with
the unmapped `x` abort. -/
theorem C10_witness :
    (∃ s, parse valOps demo (["--all".toList] ++ "--colour=red".toList :: []) =
      .error .invalidFlag s) ∧
    (∃ d ∈ ['a', 'x'], mapLookup d
        (demoWith 0 true "x".toList false [3, 2, 0, 1] false).aliases = none ∧
      ∃ s, parse valOps demo (["--all".toList] ++ "-ax".toList :: []) =
        .error (.invalidAlias d) s) :=
  ⟨(C10_unknown_flag_or_alias valOps demo
      (demoWith 0 true "x".toList false [3, 2, 0, 1] false) ["--all".toList] []
      (by decide) (by decide)).1 "colour".toList "=red".toList (by decide) (by decide)
      (Or.inr ⟨"red".toList, rfl, by decide, by decide⟩) (by decide),
   (C10_unknown_flag_or_alias valOps demo
      (demoWith 0 true "x".toList false [3, 2, 0, 1] false) ["--all".toList] []
      (by decide) (by decide)).2 'a' ['x'] [] (by decide) (by decide) (Or.inl rfl)
      ⟨'x', by decide, by decide⟩⟩

/-! ## The claims on the format error, the definitions and the terminated state -/

theorem flagFromArg_trailing (cmd : flagable σ) (t : GoString)
    (hnt : cmd.flagsTerminated = false) (ht : t.getLast? = some '=') :
    flagFromArg cmd t = .error .invalidFlagFormat cmd := by
  simp [flagFromArg, hnt, ht]

/-- C11. After tokens `F` that parse consumes whole on a registry that is not terminated, a
token that ends in `=` aborts parse with the "invalid flag format" error, whatever the
flags and aliases of the registry are: no lookup is consulted. -/
theorem C11_trailing_equals_invalid_format (ops : ValueOps σ) (r rF : flagable σ)
    (F R : List GoString) (t : GoString) (hF : parse ops r F = .ok ([], rF))
    (hnt : r.flagsTerminated = false) (ht : t.getLast? = some '=') :
    ∃ s, parse ops r (F ++ t :: R) = .error .invalidFlagFormat s ∧ s.flags = rF.flags ∧
      s.aliases = rF.aliases := by
  obtain ⟨r1, r3, h1, h3, h4⟩ := parse_ok ops r rF F [] hF
  obtain ⟨hG, -, -, hnt3⟩ := parseLoop_append ops r1 r3 F h3
  have hnt3 := hnt3 ((prepare_same ops r r1 h1).2.1.trans hnt)
  obtain ⟨e1, e2, -⟩ := setFlagDefaultsLoop_frame ops r3 rF r3.flags h4
  have hloop : parseLoop ops r3 (t :: R) = .error .invalidFlagFormat r3 := by
    simp [parseLoop, flagFromArg_trailing r3 t hnt3 ht]
  exact ⟨r3, by simp [parse, h1, hG, hloop], e1.symm, e2.symm⟩

/-- C11 on `demo`: after `--all`, the tokens `--count=` (registered name) and `--nope=`
(unregistered name) both abort with the format error. -/
theorem C11_witness :
    (∃ s, parse valOps demo (["--all".toList] ++ "--count=".toList :: []) =
      .error .invalidFlagFormat s ∧
      s.flags = (demoWith 0 true "x".toList false [3, 2, 0, 1] false).flags ∧
      s.aliases = (demoWith 0 true "x".toList false [3, 2, 0, 1] false).aliases) ∧
    (∃ s, parse valOps demo (["--all".toList] ++ "--nope=".toList :: []) =
      .error .invalidFlagFormat s ∧
      s.flags = (demoWith 0 true "x".toList false [3, 2, 0, 1] false).flags ∧
      s.aliases = (demoWith 0 true "x".toList false [3, 2, 0, 1] false).aliases) :=
  ⟨C11_trailing_equals_invalid_format valOps demo _ ["--all".toList] [] "--count=".toList
      (by decide) (by decide) (by decide),
   C11_trailing_equals_invalid_format valOps demo _ ["--all".toList] [] "--nope=".toList
      (by decide) (by decide) (by decide)⟩

/-- C12. DefineFlag aborts with the redefinition error exactly when the name is already
registered, whatever the two values are, and then leaves the registry as it was; otherwise
it succeeds, the new flag is registered under the name with the rendering of the value at
that moment as its default string, and the flags registered before stay in place. -/
theorem C12_DefineFlag_fails_iff_registered (ops : ValueOps σ) (cmd : flagable σ) (value : σ)
    (name usage : GoString) :
    ((∃ s, DefineFlag ops cmd value name usage = .error (.flagRedefined name) s) ↔
      (mapLookup name cmd.flags).isSome) ∧
    ((mapLookup name cmd.flags).isSome →
      DefineFlag ops cmd value name usage = .error (.flagRedefined name) cmd) ∧
    ((mapLookup name cmd.flags).isNone →
      ∃ cmd1, DefineFlag ops cmd value name usage = .ok cmd1 ∧
        mapLookup name cmd1.flags = some cmd.heap.length ∧
        cmd1.heap[cmd.heap.length]? =
          some { Name := name, Usage := usage, value := value, DefValue := ops.String value } ∧
        ∀ n q, mapLookup n cmd.flags = some q → mapLookup n cmd1.flags = some q) := by
  have hsome : (mapLookup name cmd.flags).isSome →
      DefineFlag ops cmd value name usage = .error (.flagRedefined name) cmd := by
    intro h
    obtain ⟨q, hq⟩ := Option.isSome_iff_exists.1 h
    simp [DefineFlag, hq]
  have hnone : (mapLookup name cmd.flags).isNone →
      ∃ cmd1, DefineFlag ops cmd value name usage = .ok cmd1 ∧
        mapLookup name cmd1.flags = some cmd.heap.length ∧
        cmd1.heap[cmd.heap.length]? =
          some { Name := name, Usage := usage, value := value, DefValue := ops.String value } ∧
        ∀ n q, mapLookup n cmd.flags = some q → mapLookup n cmd1.flags = some q := by
    intro h
    have hl : mapLookup name cmd.flags = none := by simpa using h
    refine ⟨{ cmd with
        heap := cmd.heap ++ [{ Name := name, Usage := usage, value := value,
                               DefValue := ops.String value }],
        flags := mapInsert name cmd.heap.length cmd.flags },
      by simp only [DefineFlag, hl], ?_, by simp, ?_⟩
    · exact mapLookup_mapInsert_self name _ _
    · intro n q hn
      simp only
      rw [mapInsert_of_none name _ _ hl, mapLookup_append, hn]
      rfl
  refine ⟨⟨?_, fun h => ⟨cmd, hsome h⟩⟩, hsome, hnone⟩
  rintro ⟨s, hs⟩
  cases hl : mapLookup name cmd.flags with
  | some q => rfl
  | none =>
    obtain ⟨cmd1, h1, -⟩ := hnone (by simp [hl])
    rw [h1] at hs
    cases hs

/-- C12 on `demo`: "count" is registered, and a string flag under that name is refused;
"depth" is not, and is defined with the default string `7`. -/
theorem C12_witness :
    DefineFlag valOps demo (.stringV "x".toList) "count".toList [] =
      .error (.flagRedefined "count".toList) demo ∧
    ∃ cmd1, DefineFlag valOps demo (.intV 7) "depth".toList [] = .ok cmd1 ∧
      mapLookup "depth".toList cmd1.flags = some 3 ∧
      cmd1.heap[3]? = some { Name := "depth".toList, Usage := [], value := .intV 7,
                             DefValue := "7".toList } ∧
      ∀ n q, mapLookup n demo.flags = some q → mapLookup n cmd1.flags = some q :=
  ⟨(C12_DefineFlag_fails_iff_registered valOps demo (.stringV "x".toList) "count".toList
      []).2.1 (by decide),
   (C12_DefineFlag_fails_iff_registered valOps demo (.intV 7) "depth".toList []).2.2
      (by decide)⟩

/-- C13, as stated, fails: in `demo` the character `c` is an alias of "count", "all" is a
registered name, and `AliasFlag('c', "all")` does not fail: `c` is an alias of "all"
afterwards. -/
theorem C13_counterexample :
    mapLookup 'c' demo.aliases = some 0 ∧ mapLookup "all".toList demo.flags = some 1 ∧
    AliasFlag demo 'c' "all".toList = .ok { demo with aliases := [('c', 1), ('a', 1)] } := by
  decide

/-- C13, amended. For every registry and every alias character `c`, mapped already or not,
AliasFlag(c, name) with a registered name does not fail: it makes `c` an alias of the flag
registered under the name, replacing an earlier mapping of `c`, and leaves every other
alias and the rest of the registry as they were. -/
theorem C13_AliasFlag_remaps (cmd : flagable σ) (c : Char) (name : GoString) (q : Nat)
    (hq : mapLookup name cmd.flags = some q) :
    ∃ cmd1, AliasFlag cmd c name = .ok cmd1 ∧ mapLookup c cmd1.aliases = some q ∧
      (∀ d, d ≠ c → mapLookup d cmd1.aliases = mapLookup d cmd.aliases) ∧
      cmd1.flags = cmd.flags ∧ cmd1.heap = cmd.heap ∧ cmd1.flagValues = cmd.flagValues :=
  ⟨{ cmd with aliases := mapInsert c q cmd.aliases }, by simp [AliasFlag, hq],
    mapLookup_mapInsert_self c q _, fun d hd => mapLookup_mapInsert_ne c d q _ hd, rfl, rfl,
    rfl⟩

/-- C13 amended, on `demo`: the alias `c` of "count" is remapped to "all". -/
theorem C13_witness :
    ∃ cmd1, AliasFlag demo 'c' "all".toList = .ok cmd1 ∧ mapLookup 'c' cmd1.aliases = some 1 ∧
      (∀ d, d ≠ 'c' → mapLookup d cmd1.aliases = mapLookup d demo.aliases) ∧
      cmd1.flags = demo.flags ∧ cmd1.heap = demo.heap ∧ cmd1.flagValues = demo.flagValues :=
  C13_AliasFlag_remaps demo 'c' "all".toList 1 (by decide)

/-- C17, evaluated: no flag "nope" exists in `demo`, and Flag aborts instead of returning
nil; for a registered flag it returns nil before the parse and the value after it. -/
theorem C17_Flag_unknown_name_aborts :
    mapLookup "nope".toList demo.flags = none ∧
    flagable.Flag demo "nope".toList = .error (.flagNotDefined "nope".toList) demo ∧
    flagable.Flag demo "count".toList = .ok none ∧
    flagable.Flag (demoWith 5 false "x".toList false [3, 2, 1, 0] false) "count".toList =
      .ok (some (.intV 5)) := by
  decide

theorem prepare_heap (ops : ValueOps σ) (cmd cmd1 : flagable σ)
    (h : prepare ops cmd = .ok cmd1) (q : Nat) (f : Flag σ) (hf : cmd.heap[q]? = some f) :
    cmd1.heap[q]? = some f := by
  refine prepare_induct ops (fun c => c.heap[q]? = some f) ?_ ?_ (fun _ hc => hc) cmd cmd1 hf h
  · intro c c1 name usage hc h1
    obtain ⟨-, e⟩ := DefineFlag_eq ops c c1 _ name usage h1
    subst e
    have hlt : q < c.heap.length := by
      rcases Nat.lt_or_ge q c.heap.length with h2 | h2
      · exact h2
      · rw [List.getElem?_eq_none h2] at hc; cases hc
    simp only [List.getElem?_append_left hlt]
    exact hc
  · intro c c1 ch name hc h1
    obtain ⟨q1, -, e⟩ := AliasFlag_eq c c1 ch name h1
    subst e
    exact hc

/-- C19. The terminated state is permanent: on a terminated registry DefineFlag and
AliasFlag leave `flagsTerminated` set, and parse returns every token list unchanged, without
error and terminated; the registry after it does not depend on the tokens: it is what the
automatic definitions and the defaults make of the registry, and the flags that had a
parsed value keep it. -/
theorem C19_terminated_is_permanent (ops : ValueOps σ) (r : flagable σ) (hwf : WF r)
    (ht : r.flagsTerminated = true) :
    (∃ r1 r2, prepare ops r = .ok r1 ∧ setFlagDefaults ops r1 = .ok r2 ∧
      r2.flagsTerminated = true ∧ (∀ ts, parse ops r ts = .ok (ts, r2)) ∧
      ∀ q ∈ r.flagValues, r2.heap[q]? = r.heap[q]? ∧ q ∈ r2.flagValues) ∧
    (∀ value name usage cmd1, DefineFlag ops r value name usage = .ok cmd1 →
      cmd1.flagsTerminated = true) ∧
    (∀ c name cmd1, AliasFlag r c name = .ok cmd1 → cmd1.flagsTerminated = true) := by
  refine ⟨?_, ?_, ?_⟩
  · obtain ⟨r1, h1⟩ := prepare_total ops r
    have hwf1 := prepare_wf ops r r1 hwf h1
    obtain ⟨e1, e2, -⟩ := prepare_same ops r r1 h1
    have ht1 : r1.flagsTerminated = true := e2.trans ht
    obtain ⟨r2, h2, hr, -⟩ := setFlagDefaults_spec ops r1 hwf1
    refine ⟨r1, r2, h1, h2, hr.terminated ht1, ?_, ?_⟩
    · intro ts
      have hloop : parseLoop ops r1 ts = .ok (ts, r1) := by
        cases ts with
        | nil => rfl
        | cons t R =>
          exact parseLoop_stop ops r1 r1 t R false [] (flagFromArg_terminated r1 t ht1) ht1
      exact parse_of_phases ops r r1 r2 r1 ts ts h1 hloop h2
    · intro q hq
      have hq1 : q ∈ r1.flagValues := by rw [e1]; exact hq
      have hk := hr.keeps q (fun hx => hx.2 hq1)
      obtain ⟨f, hf⟩ := heap_of_mem r hwf q (hwf.2.2.2.2.2 q hq)
      exact ⟨by rw [hk.1, hf, prepare_heap ops r r1 h1 q f hf], hk.2.2 hq1⟩
  · intro value name usage cmd1 h
    obtain ⟨-, e⟩ := DefineFlag_eq ops r cmd1 value name usage h
    rw [e]
    exact ht
  · intro c name cmd1 h
    obtain ⟨q, -, e⟩ := AliasFlag_eq r cmd1 c name h
    rw [e]
    exact ht

/-- C19 on `demo`, terminated by an earlier parse: the tokens `--count=7`, `-z` and `x=`
come back, and "count" keeps its value 5. -/
theorem C19_witness :
    parse valOps (demoWith 5 false "x".toList false [3, 2, 1, 0] true)
        ["--count=7".toList, "-z".toList, "x=".toList] =
      .ok (["--count=7".toList, "-z".toList, "x=".toList],
        demoWith 5 false "x".toList false [3, 2, 1, 0] true) ∧
    ∃ r1 r2, prepare valOps (demoWith 5 false "x".toList false [3, 2, 1, 0] true) = .ok r1 ∧
      setFlagDefaults valOps r1 = .ok r2 ∧ r2.flagsTerminated = true ∧
      (∀ ts, parse valOps (demoWith 5 false "x".toList false [3, 2, 1, 0] true) ts =
        .ok (ts, r2)) ∧
      ∀ q ∈ (demoWith 5 false "x".toList false [3, 2, 1, 0] true).flagValues,
        r2.heap[q]? = (demoWith 5 false "x".toList false [3, 2, 1, 0] true).heap[q]? ∧
        q ∈ r2.flagValues :=
  ⟨by decide,
   (C19_terminated_is_permanent valOps (demoWith 5 false "x".toList false [3, 2, 1, 0] true)
      (by decide) (by decide)).1⟩

/-- C20, evaluated: on the registry `demo`, not terminated, the empty token, the lone dash
and the tokens `=x` and `-=x` each index a string out of range. -/
theorem C20_index_out_of_range :
    parse valOps demo ["".toList] = .error .indexOutOfRange demoPrepared ∧
    parse valOps demo ["-".toList] = .error .indexOutOfRange demoPrepared ∧
    parse valOps demo ["=x".toList] = .error .indexOutOfRange demoPrepared ∧
    parse valOps demo ["-=x".toList] = .error .indexOutOfRange demoPrepared := by
  decide

/-- C14. In every registry reachable through DefineFlag, AliasFlag and parse, every entry of
the alias map points to an allocated flag that is registered under its own name, and
AliasFlag with a name that is not registered aborts and leaves the registry as it was. -/
theorem C14_aliases_point_to_registered_flags (ops : ValueOps σ) (r : flagable σ)
    (h : Reachable ops r) :
    (∀ cp ∈ r.aliases, ∃ f, r.heap[cp.2]? = some f ∧ mapLookup f.Name r.flags = some cp.2) ∧
    (∀ c name, mapLookup name r.flags = none →
      AliasFlag r c name = .error (.flagNotDefined name) r) := by
  have hwf := Reachable_wf h
  constructor
  · intro cp hcp
    obtain ⟨np, hnp, e⟩ := List.mem_map.1 (hwf.2.2.2.2.1 cp hcp)
    have hn := hwf.2.2.2.1 np hnp
    rw [e] at hn
    simp only [Option.map_eq_some'] at hn
    obtain ⟨f, hf, hfn⟩ := hn
    refine ⟨f, hf, ?_⟩
    rw [hfn, ← e]
    exact mapLookup_of_mem np.1 np.2 r.flags hwf.1 hnp
  · intro c name hn
    simp [AliasFlag, hn]

/-- C14 on `demo`, reached by three definitions and two aliases. -/
theorem C14_witness :
    (∀ cp ∈ demo.aliases,
      ∃ f, demo.heap[cp.2]? = some f ∧ mapLookup f.Name demo.flags = some cp.2) ∧
    (∀ c name, mapLookup name demo.flags = none →
      AliasFlag demo c name = .error (.flagNotDefined name) demo) :=
  C14_aliases_point_to_registered_flags valOps demo
    (Reachable.aliased _ _ 'a' "all".toList
      (Reachable.aliased _ _ 'c' "count".toList
        (Reachable.defined _ _ (.stringV "x".toList) "name".toList "who".toList
          (Reachable.defined _ _ (.boolV false) "all".toList "everything".toList
            (Reachable.defined _ _ (.intV 0) "count".toList "how many".toList
              (Reachable.fresh []) rfl) rfl) rfl) rfl) rfl)

/-- C15, as stated, fails: in a registry whose user made `h` an alias of the flag "host" and
defined no "help", parse registers "help" and leaves `h` an alias of "host". -/
theorem C15_counterexample :
    mapLookup "help".toList demoHost.flags = none ∧
    parse valOps demoHost [] = .ok ([], demoHostParsed) ∧
    mapLookup "help".toList demoHostParsed.flags = some 1 ∧
    mapLookup 'h' demoHostParsed.aliases = some 0 ∧
    mapLookup "host".toList demoHostParsed.flags = some 0 := by
  decide

/-- C15, amended. A successful parse of a registry `r` makes the automatic definitions `r1`
of `r` and registers nothing else. The flags and aliases of the user stay. When "help" was
not registered, `r1` has the flag "help", a boolean flag with default false, aliased to `h`
unless `h` was an alias already. A flag "version" is registered in `r1` exactly when a
version string is configured or the user registered one; when parse registers it, it is a
boolean flag with default false, aliased to `v` unless `v` was an alias already. A second
parse makes no further definition: its automatic definitions leave the registry as it is,
its flags and aliases are the same afterwards, and when it aborts it does so in the scan of
the tokens, never with the redefinition error. -/
theorem C15_auto_registration (ops : ValueOps σ) (r r2 : flagable σ)
    (args rest : List GoString) (hwf : WF r) (h : parse ops r args = .ok (rest, r2)) :
    ∃ r1, prepare ops r = .ok r1 ∧ r2.flags = r1.flags ∧ r2.aliases = r1.aliases ∧
      (∀ n q, mapLookup n r.flags = some q → mapLookup n r1.flags = some q) ∧
      (∀ d q, mapLookup d r.aliases = some q → mapLookup d r1.aliases = some q) ∧
      (mapLookup "help".toList r.flags = none →
        ∃ p, mapLookup "help".toList r1.flags = some p ∧
          r1.heap[p]? = some { Name := "help".toList, Usage := "show help and exit".toList,
                               value := ops.newBoolValue false,
                               DefValue := ops.String (ops.newBoolValue false) } ∧
          (mapLookup 'h' r.aliases = none → mapLookup 'h' r1.aliases = some p)) ∧
      ((mapLookup "version".toList r1.flags).isSome ↔
        (r.version ≠ [] ∨ (mapLookup "version".toList r.flags).isSome)) ∧
      (mapLookup "version".toList r.flags = none → r.version ≠ [] →
        ∃ p, mapLookup "version".toList r1.flags = some p ∧
          r1.heap[p]? = some { Name := "version".toList,
                               Usage := "show version and exit".toList,
                               value := ops.newBoolValue false,
                               DefValue := ops.String (ops.newBoolValue false) } ∧
          (mapLookup 'v' r.aliases = none → mapLookup 'v' r1.aliases = some p)) ∧
      prepare ops r2 = .ok r2 ∧
      ∀ args2,
        (∀ rest2 r3, parse ops r2 args2 = .ok (rest2, r3) →
          r3.flags = r2.flags ∧ r3.aliases = r2.aliases) ∧
        (∀ e s, parse ops r2 args2 = .error e s →
          e.scan = true ∧ (∀ n, e ≠ .flagRedefined n) ∧ s.flags = r2.flags ∧
            s.aliases = r2.aliases) := by
  obtain ⟨r1, r3, h1, h3, h4⟩ := parse_ok ops r r2 args rest h
  have hwf1 := prepare_wf ops r r1 hwf h1
  have hr := parseLoop_reach ops [] r1 r3 args rest hwf1 (by simp) h3
  have hwf3 := hr.wf (fun q hq => hq.1) hwf1
  obtain ⟨r4, h4a, hr4, -⟩ := setFlagDefaults_spec ops r3 hwf3
  rw [h4] at h4a
  simp only [Res.ok.injEq] at h4a
  subst h4a
  have hwf2 := hr4.wf (fun q hq => hq.1) hwf3
  have hm := (hr.trans (hr4.mono (fun q hq => ⟨by rw [← hr.maps.1]; exact hq.1, by simp⟩))).maps
  -- the automatic definitions, step by step
  obtain ⟨a1, a2, a3, a4, a5, a6, a7, a8⟩ := autoStep_spec ops r "help".toList
    "show help and exit".toList 'h' _ rfl
  obtain ⟨rv, hrv, b1, b2, b3, b4, b5, b6⟩ := defineVersion_spec ops
    (match mapLookup "help".toList r.flags with
      | some _ => r
      | none => autoDefined ops r "help".toList "show help and exit".toList 'h')
  have e1 : r1 = { rv with parsed := true } := by
    have : prepare ops r = .ok { rv with parsed := true } := by
      unfold prepare
      simp only [defineHelp_eq, hrv]
    rw [h1] at this
    simpa using this
  have hf1 : r1.flags = rv.flags := by rw [e1]
  have ha1 : r1.aliases = rv.aliases := by rw [e1]
  have hh1 : r1.heap = rv.heap := by rw [e1]
  have hp1 : r1.parsed = true := by rw [e1]
  have hv1 : r1.version = r.version := by rw [e1]; exact b1.trans a1
  have hne : "version".toList ≠ "help".toList := by decide
  have hhelp1 : (mapLookup "help".toList r1.flags).isSome := by
    obtain ⟨q, hq⟩ := Option.isSome_iff_exists.1 a7
    rw [hf1, b2 _ q hq]
    rfl
  have hvers1 : (mapLookup "version".toList r1.flags).isSome ↔
      (r.version ≠ [] ∨ (mapLookup "version".toList r.flags).isSome) := by
    rw [hf1, b5, a1, a5 _ hne]
  have hidem : prepare ops r2 = .ok r2 := by
    refine prepare_idem ops r2 (hm.2.2.2.trans hp1) (by rw [hm.1]; exact hhelp1) ?_
    intro hv
    rw [hm.1]
    exact hvers1.2 (Or.inl (by rw [← hv1, ← hm.2.2.1]; exact hv))
  refine ⟨r1, h1, hm.1, hm.2.1, ?_, ?_, ?_, hvers1, ?_, hidem, ?_⟩
  · intro n q hn
    rw [hf1]
    exact b2 n q (a2 n q hn)
  · intro d q hd
    rw [ha1]
    exact b3 d q (a3 d q hd)
  · intro hl
    obtain ⟨p, c1, c2, c3⟩ := a8 hl
    refine ⟨p, by rw [hf1]; exact b2 _ p c1, by rw [hh1]; exact b4 p _ c2, fun ha => ?_⟩
    rw [ha1]
    exact b3 _ p (c3 ha)
  · intro hl hv
    have hl2 := (a5 _ hne).trans hl
    obtain ⟨p, c1, c2, c3⟩ := b6 hl2 (by rw [a1]; exact hv)
    refine ⟨p, by rw [hf1]; exact c1, by rw [hh1]; exact c2, fun ha => ?_⟩
    rw [ha1]
    exact c3 ((a6 'v' (by decide)).trans ha)
  · intro args2
    constructor
    · intro rest2 r5 h5
      obtain ⟨r1b, r3b, g1, g3, g4⟩ := parse_ok ops r2 r5 args2 rest2 h5
      rw [hidem] at g1
      simp only [Res.ok.injEq] at g1
      subst g1
      have gr := parseLoop_reach ops [] r2 r3b args2 rest2 hwf2 (by simp) g3
      obtain ⟨r4b, g4a, gr4, -⟩ := setFlagDefaults_spec ops r3b
        (gr.wf (fun q hq => hq.1) hwf2)
      rw [g4] at g4a
      simp only [Res.ok.injEq] at g4a
      subst g4a
      exact ⟨gr4.maps.1.trans gr.maps.1, gr4.maps.2.1.trans gr.maps.2.1⟩
    · intro e s h5
      obtain ⟨r1b, g1, -, g2, g3, g4⟩ := parse_error ops r2 s args2 e hwf2 h5
      rw [hidem] at g1
      simp only [Res.ok.injEq] at g1
      subst g1
      refine ⟨g2, ?_, g3, g4⟩
      intro n hn
      rw [hn] at g2
      cases g2

/-- C15 on `demoVersioned`, whose version string is "1.0": the parse of no tokens defines
"help" at position 3 under `h` and "version" at position 4 under `v`, and a second parse
finds the registry prepared and keeps its flags and aliases. -/
theorem C15_witness :
    demoVersionedParsed.flags = demo.flags ++ [("help".toList, 3), ("version".toList, 4)] ∧
    demoVersionedParsed.aliases = demo.aliases ++ [('h', 3), ('v', 4)] ∧
    prepare valOps demoVersionedParsed = .ok demoVersionedParsed ∧
    ∀ rest2 r3, parse valOps demoVersionedParsed ["--all".toList] = .ok (rest2, r3) →
      r3.flags = demoVersionedParsed.flags ∧ r3.aliases = demoVersionedParsed.aliases := by
  obtain ⟨_, _, _, _, _, _, _, _, _, h9, h10⟩ :=
    C15_auto_registration valOps demoVersioned demoVersionedParsed [] [] (by decide)
      (by decide)
  exact ⟨by decide, by decide, h9, (h10 ["--all".toList]).1⟩

/-- C18, as stated, fails: in the usage text of `demo` the line of the flag "count", whose
single alias is `c`, has the alias before the name, and the widest descriptor, 15 bytes
long, is padded to 16. -/
theorem C18_counterexample :
    UsageString valOps registrationOrder demo =
      .ok (Join ["  -c, --count=".toList ++ ['"', '0', '"'] ++ "  # how many".toList,
                 "  -a, --all        # everything".toList,
                 "  --name=".toList ++ ['"', 'x', '"'] ++ "       # who".toList] ['\n']) ∧
    maxWidth valOps demo = 15 := by
  decide

/-- C18, amended. On a well-formed registry whose flags `sort` lists, UsageString renders
one line per defined flag, in the order of `sort`, joined by newlines. Each line is two
spaces, then the descriptor of the flag, padded with spaces to one more than the length in
bytes of the widest descriptor of the registry, then ` # ` and the usage of the flag. The
descriptor of a flag named `n` with the single alias `a` and the default `D` is
`-a, --n="D"`: the alias first, then the name, then the default, which is left out when the
value implements `boolFlag`. -/
theorem C18_UsageString_lines (ops : ValueOps σ) (sort : List (GoString × Nat) → List Nat)
    (cmd : flagable σ) (hwf : WF cmd)
    (hS : (sort cmd.flags).Perm (cmd.flags.map Prod.snd)) :
    UsageString ops sort cmd =
      .ok (Join ((sort cmd.flags).map (usageLine ops cmd)) ['\n']) ∧
    ((sort cmd.flags).map (usageLine ops cmd)).length = cmd.flags.length ∧
    (∀ p f, cmd.heap[p]? = some f → usageLine ops cmd p =
      [' ', ' '] ++ descriptor ops cmd f.Name p f ++
        List.replicate (maxWidth ops cmd + 1 - len (descriptor ops cmd f.Name p f)) ' ' ++
        [' ', '#', ' '] ++ f.Usage) ∧
    (∀ n p f a, cmd.aliases.filter (fun cp => decide (cp.2 = p)) = [(a, p)] →
      descriptor ops cmd n p f = ['-', a, ',', ' ', '-', '-'] ++ n ++
        (if ops.boolFlag f.value then [] else ['=', '"'] ++ f.DefValue ++ ['"'])) := by
  refine ⟨UsageString_spec ops sort cmd hwf hS, ?_, ?_, ?_⟩
  · rw [List.length_map, hS.length_eq, List.length_map]
  · intro p f hf
    simp only [usageLine, hf]
  · intro n p f a h
    exact descriptor_single_alias ops cmd n p f a h

/-- C18 amended, on `demo`: three lines, the first `  -c, --count="0"  # how many`. -/
theorem C18_witness :
    UsageString valOps registrationOrder demo =
      .ok (Join ((registrationOrder demo.flags).map (usageLine valOps demo)) ['\n']) ∧
    ((registrationOrder demo.flags).map (usageLine valOps demo)).length = 3 ∧
    usageLine valOps demo 0 =
      "  -c, --count=".toList ++ ['"', '0', '"'] ++ "  # how many".toList :=
  ⟨(C18_UsageString_lines valOps registrationOrder demo (by decide) (List.Perm.refl _)).1,
   (C18_UsageString_lines valOps registrationOrder demo (by decide) (List.Perm.refl _)).2.1,
   by decide⟩

/-- C16: a call of Start that returns has called one handler, the one of the command that the
dispatch of the tokens behind args[0] resolves: the tokens go through the parse of the flags
and the tokens left over through the resolution of a child.  When the first token left over
names no child, the command binds the tokens and calls its own handler once; when it names a
child, the call is the call of Start on the child and the command calls no handler of its
own.  The first argument does not matter.  Start comes to an end with fuel beyond the number
of tokens, and a call that aborts (an error of the parse stops the process) has called no
handler. -/
theorem C16_Start_runs_one_handler (ops : ValueOps σ) (osArgs : List GoString) (fuel : Nat)
    (w w2 : Program σ) (i : Nat) (args : Option (List GoString))
    (h : Start ops osArgs fuel w i args = .done w2) :
    (∃ j, w2.calls = w.calls ++ [j] ∧ Dispatch ops w i (startTokens osArgs args) j) ∧
    (∃ cmd rest reg, w.cmds[i]? = some cmd ∧
      parse ops cmd.reg (startTokens osArgs args) = .ok (rest, reg) ∧
      ((∀ name tl, rest = name :: tl → mapLookup name cmd.subCommands = none) →
        w2 = { cmds := w.cmds.set i (assignUnparsedArgs { cmd with reg := reg } rest),
               calls := w.calls ++ [i] }) ∧
      (∀ name tl c, rest = name :: tl → mapLookup name cmd.subCommands = some c →
        ∃ fuel2, fuel = fuel2 + 1 ∧
          Start ops osArgs fuel2 { w with cmds := w.cmds.set i { cmd with reg := reg } } c
            (some rest) = .done w2)) ∧
    (∀ a0 a1 tl, Start ops osArgs fuel w i (some (a0 :: tl)) =
      Start ops osArgs fuel w i (some (a1 :: tl))) ∧
    (∀ fuel2 w1 k args2, (startTokens osArgs args2).length < fuel2 →
      Start ops osArgs fuel2 w1 k args2 ≠ .exhausted) ∧
    (∀ fuel2 w1 k args2 e w3, Start ops osArgs fuel2 w1 k args2 = .aborted e w3 →
      w3.calls = w1.calls) := by
  refine ⟨Start_done ops osArgs fuel w w2 i args h, ?_, ?_, Start_fuel ops osArgs,
    fun fuel2 w1 k args2 e w3 => Start_aborted ops osArgs fuel2 w1 w3 k args2 e⟩
  · cases fuel with
    | zero => simp [Start] at h
    | succ fuel =>
      rcases Start_cases ops osArgs fuel w i args with ⟨_, h1⟩ | ⟨_, _, _, _, _, h1⟩ |
        ⟨cmd, rest, reg, hc, hp, hn, h1⟩ | ⟨cmd, name, tl, reg, c, hc, hp, hn, h1⟩
      · rw [h1] at h
        cases h
      · rw [h1] at h
        cases h
      · rw [h1] at h
        cases h
        refine ⟨cmd, rest, reg, hc, hp, fun _ => rfl, ?_⟩
        intro name tl c hr hl
        rw [hn name tl hr] at hl
        cases hl
      · rw [h1] at h
        refine ⟨cmd, name :: tl, reg, hc, hp, ?_, ?_⟩
        · intro hno
          rw [hno name tl rfl] at hn
          cases hn
        · intro name2 tl2 c2 hr hl
          cases hr
          rw [hn] at hl
          cases hl
          exact ⟨fuel, rfl, h⟩
  · intro a0 a1 tl
    cases fuel with
    | zero => rfl
    | succ fuel => rw [Start_succ, Start_succ, startTokens_cons, startTokens_cons]

/-- C16 on `demoProgram` and `prog --verbose sub --force x`: the one handler called is the
one of the child "sub", at position 1. -/
theorem C16_witness :
    demoRun.calls = [1] ∧
    ∃ j, demoRun.calls = demoProgram.calls ++ [j] ∧
      Dispatch valOps demoProgram 0 (startTokens [] (some demoArgs)) j :=
  ⟨by decide, (C16_Start_runs_one_handler valOps [] 5 demoProgram demoRun 0 (some demoArgs)
    (by decide)).1⟩

end Odin
